import Mathlib

/-!
# tsuru: application orchestration, API handlers and team access

A shallow embedding of the parts of the tsuru sources that the specification's
claims are about.

* `api/app.go` (the handlers and their helpers), `auth/team.go`,
  `auth/user.go`, `auth/token.go` and `cmd/client.go` are translated from the
  sources.  Functions of other packages that they call (JSON, bcrypt, PBKDF2,
  SHA-1, the time layout, the HTTP transport) are parameters.
* The goroutines of `CheckUserAccess` are a step function on explicit states;
  a schedule is a list of steps.
* The `app` package itself (`app/app.go`) is not among the sources, only its
  tests (`app/app_test.go`) are.  Its functions are modelled from the
  specification and kept consistent with every row of those tests; each such
  definition says so in its doc comment.

Conventions: Go strings are Lean `String`s; a Go `error` result is an
`Option GoError` (`none` is `nil`); a call that can panic ends in an `Outcome`;
the database, the configuration and the repository host are fields of an
explicit `World` that the handlers thread through; Go's byte-wise string
comparison is the lexicographic order on the characters.
-/

namespace Tsuru

/-! ## Errors -/

/-- The `net/http` status codes used by the handlers. -/
def StatusBadRequest : Nat := 400

/-- The `net/http` status `Forbidden`. -/
def StatusForbidden : Nat := 403

/-- The `net/http` status `Not Found`. -/
def StatusNotFound : Nat := 404

/-- The `net/http` status `Conflict`. -/
def StatusConflict : Nat := 409

/-- The `net/http` status `Precondition Failed`. -/
def StatusPreconditionFailed : Nat := 412

/-- The dynamic types of the Go `error` values that reach the handlers.
`Http` is `*errors.Http`, `ValidationError` is `*errors.ValidationError`,
`appCreationError` is the `app` package's `*appCreationError` (fields `app` and
`err`, the latter kept as the text of the cause), `NoTeamsError` is the `app`
package's error for a creation without teams (its text is not in the sources and
is carried along), `AuthenticationFailure` is the `auth` package's error for a
wrong password, and `errorString` is what `errors.New` and `fmt.Errorf`
build. -/
inductive GoError where
  | Http (Code : Nat) (Message : String)
  | ValidationError (Message : String)
  | appCreationError (app : String) (err : String)
  | NoTeamsError (text : String)
  | AuthenticationFailure
  | errorString (s : String)
deriving DecidableEq, Repr

/-- A hexadecimal digit as the verbs `%x` and `%q` write it, in lower case. -/
def hexDigit (n : Nat) : Char :=
  if n < 10 then Char.ofNat (48 + n) else Char.ofNat (87 + n)

/-- One character of a `%q` rendering (`strconv.Quote`): the double quote and
the backslash get a backslash, the control characters with a name are written
by their name, the other characters below the space and the delete character as
`\x` and two hexadecimal digits, and printable characters stand for
themselves.  The characters from U+0080 on are taken as printable: the tables
of `unicode.IsPrint` are not part of this development. -/
def quoteChar (c : Char) : List Char :=
  if c = Char.ofNat 34 then [Char.ofNat 92, Char.ofNat 34]
  else if c = Char.ofNat 92 then [Char.ofNat 92, Char.ofNat 92]
  else if c = Char.ofNat 7 then [Char.ofNat 92, 'a']
  else if c = Char.ofNat 8 then [Char.ofNat 92, 'b']
  else if c = Char.ofNat 12 then [Char.ofNat 92, 'f']
  else if c = Char.ofNat 10 then [Char.ofNat 92, 'n']
  else if c = Char.ofNat 13 then [Char.ofNat 92, 'r']
  else if c = Char.ofNat 9 then [Char.ofNat 92, 't']
  else if c = Char.ofNat 11 then [Char.ofNat 92, 'v']
  else if c.toNat < 32 ∨ c.toNat = 127 then
    [Char.ofNat 92, 'x', hexDigit (c.toNat / 16), hexDigit (c.toNat % 16)]
  else [c]

/-- The `%q` verb of `fmt` on a string: the string in double quotes. -/
def goQuote (s : String) : String :=
  ⟨Char.ofNat 34 :: (s.toList.flatMap quoteChar ++ [Char.ofNat 34])⟩

/-- The method `Error()` of each error type.  For `appCreationError` the
format is the one the tests show, `Tsuru failed to create the app %q: %v`. -/
def GoError.Error : GoError → String
  | .Http _ Message => Message
  | .ValidationError Message => Message
  | .appCreationError app err =>
      "Tsuru failed to create the app " ++ goQuote app ++ ": " ++ err
  | .NoTeamsError text => text
  | .AuthenticationFailure => "Authentication failed, wrong password."
  | .errorString s => s

/-- Go's `strings.Contains`. -/
def stringsContains (s substr : String) : Bool :=
  decide (substr.toList <:+: s.toList)

/-! ## Data model -/

/-- A key of a user (`auth.Key`). -/
structure Key where
  Name : String
  Content : String
deriving DecidableEq, Repr

/-- A user (`auth.User`). -/
structure User where
  Email : String
  Password : String := ""
  Keys : List Key := []
deriving DecidableEq, Repr

/-- A team (`auth.Team`): its name is the database identifier. -/
structure Team where
  Name : String
  Users : List String := []
deriving DecidableEq, Repr

set_option linter.dupNamespace false in
/-- A token (`auth.Token`); `ValidUntil` is a point in time in nanoseconds. -/
structure Token where
  Token : String := ""
  ValidUntil : Int := 0
  UserEmail : String := ""
  AppName : String := ""
deriving DecidableEq, Repr

/-- An environment variable (`bind.EnvVar`). -/
structure EnvVar where
  Name : String
  Value : String
  Public : Bool
  InstanceName : String := ""
deriving DecidableEq, Repr

/-- A unit of an app (`app.Unit`), with the fields the tests set. -/
structure Unit where
  Name : String := ""
  Machine : Int := 0
  InstanceId : String := ""
  Ip : String := ""
  State : String := ""
deriving DecidableEq, Repr

/-- An app (`app.App`).  `Env` is the Go map from variable names to variables,
kept as an association list with at most one entry per name in use. -/
structure App where
  Name : String := ""
  Framework : String := ""
  Units : List Unit := []
  Teams : List String := []
  Env : List (String × EnvVar) := []
  Ip : String := ""
  CName : String := ""
deriving DecidableEq, Repr

/-- A log record (`app.Applog`); `Date` is a point in time in nanoseconds. -/
structure Applog where
  Date : Int
  Message : String
  Source : String
  AppName : String
deriving DecidableEq, Repr

/-- What a handler does to the outside: writes to the response and its status
line, updates of the apps collection and calls to the repository host
(gandalf). -/
inductive Effect where
  | write (content : String)
  | WriteHeader (code : Nat)
  | appsUpdate (name : String) (app : App)
  | GrantAccess (apps : List String) (users : List String)
  | RevokeAccess (apps : List String) (users : List String)
deriving DecidableEq, Repr

/-- The state the handlers run against: the database collections (users, teams,
apps, tokens, logs), the configured admin team, the error text with which `db.Conn()` and the repository
host fail, if they do, and the effects performed so far (oldest first). -/
structure World where
  users : List User := []
  teams : List Team := []
  apps : List App := []
  tokens : List Token := []
  logs : List Applog := []
  adminTeam : Option String := none
  connErr : Option String := none
  gandalfErr : Option String := none
  effects : List Effect := []
deriving DecidableEq, Repr

/-- The request body of `createApp` once decoded (`jsonApp`). -/
structure jsonApp where
  Name : String := ""
  Framework : String := ""
  Units : Nat := 0
deriving DecidableEq, Repr

/-- Functions of packages outside this repository that the handlers call:
`validation.ValidateEmail`, `json.Unmarshal` into a `jsonApp`, `json.Marshal`
of a string map and `repository.GetUrl`. -/
structure Library where
  ValidateEmail : String → Bool
  Unmarshal : String → Except GoError jsonApp
  Marshal : List (String × String) → Except GoError String
  GetUrl : String → String

/-! ## `auth`: users and teams (auth/user.go, auth/team.go, auth/token.go) -/

/-- The constant `emailError` of auth/user.go. -/
def emailError : String := "Invalid email."

/-- `GetUserByEmail`: the email is validated, then the user is looked up in the
users collection. -/
def GetUserByEmail (lib : Library) (w : World) (email : String) : Except GoError User :=
  if !lib.ValidateEmail email then .error (.ValidationError emailError)
  else match w.connErr with
    | some err => .error (.errorString err)
    | none =>
      match w.users.find? (fun u => u.Email == email) with
      | none => .error (.errorString "User not found")
      | some u => .ok u

/-- `Token.User`: the user the token was issued to. -/
def Token.User (lib : Library) (w : World) (t : Tsuru.Token) : Except GoError Tsuru.User :=
  GetUserByEmail lib w t.UserEmail

/-- `User.Teams`: all teams whose `users` contain the user's email. -/
def User.Teams (w : World) (u : User) : Except GoError (List Team) :=
  match w.connErr with
  | some err => .error (.errorString err)
  | none => .ok (w.teams.filter (fun t => decide (u.Email ∈ t.Users)))

/-- `Team.ContainsUser`: a scan of `Users` for the user's email. -/
def Team.ContainsUser (t : Team) (u : User) : Bool :=
  t.Users.any (fun user => u.Email == user)

/-- `User.IsAdmin`: the user is in the configured admin team. -/
def User.IsAdmin (w : World) (u : User) : Bool :=
  match w.adminTeam with
  | none => false
  | some adminTeamName =>
    match u.Teams w with
    | .error _ => false
    | .ok teams => teams.any (fun t => t.Name == adminTeamName)

/-- `CheckUserAccess`, by its outcome: some stored team named in `teamNames`
contains the user; `false` when the database connection fails.  The goroutines
of the source and their schedules are the subject of `step` and `run` below. -/
def CheckUserAccess (w : World) (teamNames : List String) (u : User) : Bool :=
  match w.connErr with
  | some _ => false
  | none => (w.teams.filter (fun t => decide (t.Name ∈ teamNames))).any (fun t => t.ContainsUser u)

/-! ## Database access used by the handlers -/

/-- The query `conn.Teams().Find(bson.M{"_id": teamName}).One(team)`. -/
def findTeam (w : World) (teamName : String) : Option Team :=
  w.teams.find? (fun t => t.Name == teamName)

/-- Replace the first stored app named `name` by `app`; `none` when no stored
app has that name. -/
def replaceApp (name : String) (app : App) : List App → Option (List App)
  | [] => none
  | a :: rest =>
    if a.Name == name then some (app :: rest)
    else (replaceApp name app rest).map (fun r => a :: r)

/-- The call `conn.Apps().Update(bson.M{"name": name}, app)`: the first
document with that name is replaced and the update is recorded; it fails when
there is none. -/
def appsUpdate (w : World) (name : String) (app : App) : Option GoError × World :=
  match replaceApp name app w.apps with
  | none => (some (.errorString "not found"), w)
  | some apps => (none, { w with apps := apps, effects := w.effects ++ [Effect.appsUpdate name app] })

/-- Modelled from the spec: `App.Get` of app/app.go, which is not among the
sources.  There is no in-process cache (section 5): the app is re-read from the
apps collection by its name, and the call fails when the connection fails or no
app has that name. -/
def App.Get (w : World) (a : App) : Except GoError App :=
  match w.connErr with
  | some err => .error (.errorString err)
  | none =>
    match w.apps.find? (fun x => x.Name == a.Name) with
    | none => .error (.errorString "not found")
    | some x => .ok x

/-! ## Handlers of api/app.go -/

/-- The handler helper `getApp`: 404 when the app cannot be read, 403 when the
user is neither an admin nor a member of a team of the app. -/
def getApp (w : World) (name : String) (u : User) : Except GoError App :=
  match App.Get w { Name := name } with
  | .error _ => .error (.Http StatusNotFound ("App " ++ name ++ " not found."))
  | .ok app =>
    if u.IsAdmin w then .ok app
    else if !CheckUserAccess w app.Teams u then
      .error (.Http StatusForbidden "User does not have access to this app")
    else .ok app

/-- The handler `createApp`.  `body` is the outcome of reading the request
body, `CreateApp` is `app.CreateApp` (with the app passed by pointer: it returns
the app as it left it).  Logging is left out. -/
def createApp (lib : Library)
    (CreateApp : World → App → Nat → List Team → Option GoError × App × World)
    (w : World) (body : Except GoError String) (t : Token) : Option GoError × World :=
  match body with
  | .error err => (some err, w)
  | .ok body =>
    match lib.Unmarshal body with
    | .error err => (some err, w)
    | .ok japp =>
      let a : App := { Name := japp.Name, Framework := japp.Framework }
      let units := if japp.Units = 0 then 1 else japp.Units
      match t.User lib w with
      | .error err => (some err, w)
      | .ok u =>
        match u.Teams w with
        | .error err => (some err, w)
        | .ok teams =>
          if teams.length < 1 then
            (some (.Http StatusForbidden
              "In order to create an app, you should be member of at least one team"), w)
          else
            match CreateApp w a units teams with
            | (some err, a, w) =>
              match err with
              | .ValidationError Message => (some (.Http StatusPreconditionFailed Message), w)
              | _ =>
                if stringsContains err.Error "key error" then
                  (some (.Http StatusConflict
                    ("There is already an app named \"" ++ a.Name ++ "\".")), w)
                else (some err, w)
            | (none, a, w) =>
              match lib.Marshal [("status", "success"), ("repository_url", lib.GetUrl a.Name)] with
              | .error err => (some err, w)
              | .ok jsonMsg => (none, { w with effects := w.effects ++ [Effect.write jsonMsg] })

/-- The handler `grantAccessToTeam`.  `Grant` is `App.Grant`, acting on the
handler's copy of the app. -/
def grantAccessToTeam (lib : Library) (Grant : App → Team → Option GoError × App)
    (w : World) (appName teamName : String) (t : Token) : Option GoError × World :=
  match t.User lib w with
  | .error err => (some err, w)
  | .ok u =>
    match getApp w appName u with
    | .error err => (some err, w)
    | .ok app =>
      match w.connErr with
      | some err => (some (.errorString err), w)
      | none =>
        match findTeam w teamName with
        | none => (some (.Http StatusNotFound "Team not found"), w)
        | some team =>
          match Grant app team with
          | (some err, _) => (some (.Http StatusConflict err.Error), w)
          | (none, app) =>
            match appsUpdate w app.Name app with
            | (some err, w) => (some err, w)
            | (none, w) =>
              let w := { w with effects := w.effects ++ [Effect.GrantAccess [app.Name] team.Users] }
              match w.gandalfErr with
              | some err =>
                (some (.errorString ("Failed to grant access in the git server: " ++ err ++ ".")), w)
              | none => (none, w)

/-- The innermost loop of `getEmailsForRevoking`, over the users of one team:
`found` becomes true at the first user equal to `email`, and the loop stops
there. -/
def scanUsers (email : String) : Bool → List String → Bool
  | found, [] => found
  | found, user :: rest => if user == email then true else scanUsers email found rest

/-- The loop of `getEmailsForRevoking` over the teams: the flag `found` is
handed from one team to the next. -/
def scanTeams (email : String) : Bool → List Team → Bool
  | found, [] => found
  | found, team :: rest => scanTeams email (scanUsers email found team.Users) rest

/-- The outer loop of `getEmailsForRevoking`, over the emails of the team: an
email that was not found is written to `users[i]` and `i` goes up by one. -/
def collectEmails (teams : List Team) : List String × Nat → List String → List String × Nat
  | (users, i), [] => (users, i)
  | (users, i), email :: rest =>
    if !scanTeams email false teams then collectEmails teams (users.set i email, i + 1) rest
    else collectEmails teams (users, i) rest

/-- The handler helper `getEmailsForRevoking`; `teams` is what `app.GetTeams()`
returns.  The result is `users[:i]` of a slice made with the length of
`t.Users`. -/
def getEmailsForRevoking (teams : List Team) (t : Team) : List String :=
  let r := collectEmails teams (List.replicate t.Users.length "", 0) t.Users
  r.1.take r.2

/-- Modelled from the spec: `App.GetTeams` of app/app.go, which is not among
the sources.  The app holds only team names (section 3); the teams themselves
are the stored teams with one of those names. -/
def App.GetTeams (w : World) (a : App) : List Team :=
  w.teams.filter (fun t => decide (t.Name ∈ a.Teams))

/-- The handler `revokeAccessFromTeam`.  `Revoke` is `App.Revoke`, acting on
the handler's copy of the app. -/
def revokeAccessFromTeam (lib : Library) (Revoke : App → Team → Option GoError × App)
    (w : World) (appName teamName : String) (t : Token) : Option GoError × World :=
  match t.User lib w with
  | .error err => (some err, w)
  | .ok u =>
    match getApp w appName u with
    | .error err => (some err, w)
    | .ok app =>
      match w.connErr with
      | some err => (some (.errorString err), w)
      | none =>
        match findTeam w teamName with
        | none => (some (.Http StatusNotFound "Team not found"), w)
        | some team =>
          if app.Teams.length = 1 then
            (some (.Http StatusForbidden
              ("You can not revoke the access from this team, because it is the unique team with " ++
               "access to the app, and an app can not be orphaned")), w)
          else
            match Revoke app team with
            | (some err, _) => (some (.Http StatusNotFound err.Error), w)
            | (none, app) =>
              match appsUpdate w app.Name app with
              | (some err, w) => (some err, w)
              | (none, w) =>
                let users := getEmailsForRevoking (app.GetTeams w) team
                if users.length > 0 then
                  let w := { w with effects := w.effects ++ [Effect.RevokeAccess [app.Name] users] }
                  match w.gandalfErr with
                  | some err =>
                    (some (.errorString ("Failed to revoke access in the git server: " ++ err)), w)
                  | none => (none, w)
                else (none, w)

/-! ## The `app` package: names, teams, creation -/

/-- Go's `<=` on strings: lexicographic on the characters. -/
def lexLE (a b : String) : Prop := a.toList ≤ b.toList

instance : DecidableRel lexLE := fun a b => inferInstanceAs (Decidable (a.toList ≤ b.toList))

instance : IsTotal String lexLE := ⟨fun a b => le_total a.toList b.toList⟩

instance : IsTrans String lexLE := ⟨fun _ _ _ h1 h2 => le_trans (α := List Char) h1 h2⟩

/-- The message of the `ValidationError` for a bad app name, as
`TestCantCreateAppWithInvalidName` spells it. -/
def invalidAppNameMsg : String :=
  "Invalid app name, your app should have at most 63 " ++
  "characters, containing only lower case letters or numbers, " ++
  "starting with a letter."

/-- A character allowed after the first one of an app name. -/
def isNameChar (c : Char) : Bool := c.isLower || c.isDigit || c == '-'

/-- Modelled from the spec: `App.isValid` of app/app.go, which is not among
the sources.  Section 3 gives the grammar of an app name: lowercase letters and
digits, a letter first, at most 63 characters.  `TestIsValid` expects `my-app`
to be valid and `-myapp` not to be, so the hyphen is accepted after the first
character; with that the model agrees with all twelve rows of `TestIsValid`. -/
def App.isValid (a : App) : Bool :=
  match a.Name.toList with
  | [] => false
  | c :: cs => c.isLower && cs.all isNameChar && decide (cs.length ≤ 62)

/-- Modelled from the spec: `App.SetTeams` of app/app.go, which is not among
the sources.  The app keeps the names of the teams, sorted lexicographically
(`TestSetTeamsSortTeamNames`). -/
def App.SetTeams (a : App) (teams : List Team) : App :=
  { a with Teams := (teams.map (fun t => t.Name)).insertionSort lexLE }

/-- What `CreateApp` needs from outside the sources: the text of
`NoTeamsError`, and the steps 3 to 6 of section 4.1 that run against the storage
issuer, the repository host and the provisioner (they either fail with a cause
or yield the app with its environment and units). -/
structure Backend where
  noTeamsText : String
  provision : App → Nat → Except String App

/-- Modelled from the spec: `CreateApp` of app/app.go, which is not among the
sources.  Section 4.1: the unit count must be at least one
(`TestCantCreateAppWithZeroUnits` asserts the text; the error is kept as a
`ValidationError`, a bad input in the taxonomy of section 7) and the team list
non-empty (`NoTeamsError`); step 1 validates the name (`ValidationError`);
step 2 rejects a name that is already stored (`TestCantCreateTwoAppsWithTheSameName`); the remaining steps run
against collaborators, and when they fail the error carries the context
`Tsuru failed to create the app %q: %v` and no record of the app is left.  On
success the record is stored.  The queue actions are outside this model. -/
def CreateApp (b : Backend) (w : World) (a : App) (units : Nat) (teams : List Team) :
    Option GoError × App × World :=
  if units = 0 then (some (.ValidationError "Cannot create app with 0 units."), a, w)
  else if teams.length = 0 then (some (.NoTeamsError b.noTeamsText), a, w)
  else if !a.isValid then (some (.ValidationError invalidAppNameMsg), a, w)
  else match w.connErr with
    | some err => (some (.errorString err), a, w)
    | none =>
      if w.apps.any (fun x => x.Name == a.Name) then
        (some (.appCreationError a.Name "there is already an app with this name."), a, w)
      else
        let a := a.SetTeams teams
        match b.provision a units with
        | .error cause => (some (.appCreationError a.Name cause), a, w)
        | .ok a => (none, a, { w with apps := w.apps ++ [a] })

/-- Modelled from the spec: `App.find` of app/app.go, which is not among the
sources.  The tests use it as `_, found := a.find(&team)`: the position of the
team's name among `Teams` and whether it is there. -/
def App.find (a : App) (team : Team) : Nat × Bool :=
  (a.Teams.indexOf team.Name, decide (team.Name ∈ a.Teams))

/-- Modelled from the spec: `App.Grant` of app/app.go, which is not among the
sources.  A team that already has access is a conflict, with the text
`TestGrantAccessFailsIfTheTeamAlreadyHasAccessToTheApp` expects; otherwise the
name is added at its place in the lexicographic order
(`TestGrantAccessKeepTeamsSorted`). -/
def App.Grant (a : App) (team : Team) : Option GoError × App :=
  if (a.find team).2 then (some (.errorString "This team already has access to this app"), a)
  else (none, { a with Teams := a.Teams.orderedInsert lexLE team.Name })

/-- Modelled from the spec: `App.Revoke` of app/app.go, which is not among the
sources.  A team without access is an error, with the text
`TestRevokeAccessFailsIfTheTeamsDoesNotHaveAccessToTheApp` expects; otherwise
its name is taken out and the other names keep their order (`TestRevoke`). -/
def App.Revoke (a : App) (team : Team) : Option GoError × App :=
  let (index, found) := a.find team
  if !found then (some (.errorString "This team does not have access to this app"), a)
  else (none, { a with Teams := a.Teams.eraseIdx index })

/-! ## The `app` package: removing units -/

/-- Modelled from the spec: the weight of a unit status in the removal
priority of section 4.2, `error > down > pending > creating > installing >
started` (the unit removed first has the least weight).  The order says
nothing about any other status; `other` gives their weights. -/
def statusWeight (other : String → Nat) (s : String) : Nat :=
  if s = "error" then 0
  else if s = "down" then 1
  else if s = "pending" then 2
  else if s = "creating" then 3
  else if s = "installing" then 4
  else if s = "started" then 5
  else other s

/-- The weight of the unit at index `i`. -/
def unitWeight (other : String → Nat) (units : List Unit) (i : Nat) : Nat :=
  match units[i]? with
  | some u => statusWeight other u.State
  | none => 0

/-- Modelled from the spec: the removal priority of section 4.2 between two
units given by their indices: by status weight, ties broken by ascending
index. -/
def removedBefore (other : String → Nat) (units : List Unit) (i j : Nat) : Prop :=
  unitWeight other units i < unitWeight other units j ∨
    (unitWeight other units i = unitWeight other units j ∧ i ≤ j)

instance (other : String → Nat) (units : List Unit) : DecidableRel (removedBefore other units) :=
  fun i j => inferInstanceAs (Decidable (unitWeight other units i < unitWeight other units j ∨
    (unitWeight other units i = unitWeight other units j ∧ i ≤ j)))

/-- The indices of the units in the order in which they are to be removed. -/
def removalOrder (other : String → Nat) (units : List Unit) : List Nat :=
  (List.range units.length).insertionSort (removedBefore other units)

/-- The compaction loop of `removeUnits`: the `i`-th index of the list addresses
position `index - i` of what is left; the units behind it move one place down
and the sequence loses its last place. -/
def removeUnitsFrom (i : Nat) (units : List Unit) : List Nat → List Unit
  | [] => units
  | index :: rest =>
    let index := index - i
    removeUnitsFrom (i + 1)
      (if index + 1 < units.length then units.eraseIdx index else units.dropLast) rest

/-- Modelled from the spec: `App.removeUnits` of app/app.go, which is not among
the sources.  Section 4.2: removal is index-based and a stable compaction, not a
swap with the last unit.  The indices come in ascending order; an index past the
end takes the last unit away, which is what the second and third row of
`TestRemoveUnitsFromIndicesSlice` expect. -/
def App.removeUnits (a : App) (indices : List Nat) : App :=
  { a with Units := removeUnitsFrom 0 a.Units indices }

/-- The provisioner is asked to remove the chosen units one after the other; the
first failure stops the loop.  The result is the indices of the units it did
remove and the error, if any. -/
def deprovision (RemoveUnit : Unit → Option GoError) (units : List Unit) :
    List Nat → List Nat × Option GoError
  | [] => ([], none)
  | i :: rest =>
    match units[i]? with
    | none => deprovision RemoveUnit units rest
    | some u =>
      match RemoveUnit u with
      | some err => ([], some err)
      | none => ((deprovision RemoveUnit units rest).map (fun done => i :: done) id)

/-- Modelled from the spec: `App.RemoveUnits` of app/app.go, which is not among
the sources.  Section 4.2 and `TestRemoveUnitsInvalidValues`: zero units, all
units and more units than the app has are rejected with their own messages;
otherwise the first `n` units of the removal priority are handed to the
provisioner (`RemoveUnit`), a failure on one of them ends the call with that
error, and the units removed until then are taken out of the sequence without
disturbing the order of the others. -/
def App.RemoveUnits (other : String → Nat) (RemoveUnit : Unit → Option GoError)
    (a : App) (n : Nat) : Option GoError × App :=
  if n = 0 then (some (.errorString "Cannot remove zero units."), a)
  else if a.Units.length = n then (some (.errorString "Cannot remove all units from an app."), a)
  else if n > a.Units.length then
    (some (.errorString ("Cannot remove " ++ toString n ++ " units from this app, it has only " ++
      toString a.Units.length ++ " units.")), a)
  else
    let chosen := (removalOrder other a.Units).take n
    let (removed, err) := deprovision RemoveUnit a.Units chosen
    (err, a.removeUnits (removed.insertionSort (fun i j => i ≤ j)))

/-- The six statuses of the removal priority, first removed first. -/
def priorityStatuses : List String :=
  ["error", "down", "pending", "creating", "installing", "started"]

/-- The units of `units` whose index is not in `indices`, in their order; the
first unit has index `start`. -/
def unitsNotAt (start : Nat) (units : List Unit) (indices : List Nat) : List Unit :=
  ((units.enumFrom start).filter (fun p => decide (p.1 ∉ indices))).map Prod.snd

/-- `k` calls of `RemoveUnits(1)` one after the other, up to the first that
fails. -/
def removeOneByOne (other : String → Nat) (RemoveUnit : Unit → Option GoError) :
    Nat → App → Option GoError × App
  | 0, a => (none, a)
  | k + 1, a =>
    match a.RemoveUnits other RemoveUnit 1 with
    | (some err, a) => (some err, a)
    | (none, a) => removeOneByOne other RemoveUnit k a

instance (other : String → Nat) (units : List Unit) : IsTotal Nat (removedBefore other units) :=
  ⟨fun i j => by unfold removedBefore; omega⟩

instance (other : String → Nat) (units : List Unit) : IsTrans Nat (removedBefore other units) :=
  ⟨fun i j k => by unfold removedBefore; omega⟩

instance (other : String → Nat) (units : List Unit) : IsAntisymm Nat (removedBefore other units) :=
  ⟨fun i j => by unfold removedBefore; omega⟩

/-! ## The `app` package: environment variables -/

/-- Modelled from the spec: `App.setEnv` of app/app.go, which is not among the
sources: the map assignment `app.Env[env.Name] = env`. -/
def App.setEnv (a : App) (env : EnvVar) : App :=
  { a with Env := (env.Name, env) :: a.Env.filter (fun p => p.1 != env.Name) }

/-- The map lookup `app.Env[name]`. -/
def App.lookupEnv (a : App) (name : String) : Option EnvVar :=
  a.Env.lookup name

/-- One round of the loop of `setEnvsToApp`: with `publicOnly` a variable that
is already there and private is skipped, otherwise the variable is set. -/
def setEnvStep (publicOnly : Bool) (a : App) (env : EnvVar) : App :=
  match a.lookupEnv env.Name with
  | some e => if publicOnly && !e.Public then a else a.setEnv env
  | none => a.setEnv env

/-- Modelled from the spec: `App.setEnvsToApp` of app/app.go, which is not
among the sources.  Section 4.5: the given variables are merged into the app's
map one after the other; with `publicOnly` a variable that is already there and
private is skipped, without it every given variable overwrites.  Persisting the
app and writing the environment file (the third argument) are outside this
model. -/
def App.setEnvsToApp (a : App) (envs : List EnvVar) (publicOnly : Bool) : App :=
  envs.foldl (setEnvStep publicOnly) a

/-! ## Handlers of api/app.go: units, cname, availability -/

/-- The value of a digit character as `strconv.ParseUint` reads it: `0`-`9`,
then the letters from ten on; `none` for any other character. -/
def digitValue (d : Char) : Option Nat :=
  if '0' ≤ d ∧ d ≤ '9' then some (d.toNat - '0'.toNat)
  else if 'a' ≤ d ∧ d ≤ 'z' then some (d.toNat - 'a'.toNat + 10)
  else if 'A' ≤ d ∧ d ≤ 'Z' then some (d.toNat - 'A'.toNat + 10)
  else none

/-- The error `strconv.ParseUint` returns (`*strconv.NumError`), by its text. -/
def numError (num : String) (err : String) : GoError :=
  .errorString ("strconv.ParseUint: parsing " ++ goQuote num ++ ": " ++ err)

/-- The digit loop of `strconv.ParseUint`: `n` is the number read so far. -/
def parseUintLoop (s : String) (base maxVal : Nat) : Nat → List Char → Except GoError Nat
  | n, [] => .ok n
  | n, d :: rest =>
    match digitValue d with
    | none => .error (numError s "invalid syntax")
    | some v =>
      if v ≥ base then .error (numError s "invalid syntax")
      else if n ≥ (2 ^ 64 - 1) / base + 1 then .error (numError s "value out of range")
      else if n * base + v ≥ 2 ^ 64 ∨ n * base + v > maxVal then
        .error (numError s "value out of range")
      else parseUintLoop s base maxVal (n * base + v) rest

/-- The library function `strconv.ParseUint(s, base, bitSize)` for an explicit
base between 2 and 36: no sign, no prefix, digits only, and the value must fit
in `bitSize` bits. -/
def ParseUint (s : String) (base bitSize : Nat) : Except GoError Nat :=
  if s.toList = [] then .error (numError s "invalid syntax")
  else parseUintLoop s base (2 ^ bitSize - 1) 0 s.toList

/-- The handler helper `numberOfUnits`.  `body` is `none` for a nil body and
otherwise the outcome of reading it. -/
def numberOfUnits (body : Option (Except GoError String)) : Except GoError Nat :=
  match body with
  | none => .error (.Http StatusBadRequest "You must provide the number of units.")
  | some (.error err) => .error err
  | some (.ok value) =>
    if value = "" then .error (.Http StatusBadRequest "You must provide the number of units.")
    else
      match ParseUint value 10 32 with
      | .error _ =>
        .error (.Http StatusBadRequest
          "Invalid number of units: the number must be an integer greater than 0.")
      | .ok n =>
        if n = 0 then
          .error (.Http StatusBadRequest
            "Invalid number of units: the number must be an integer greater than 0.")
        else .ok n

/-- The handler `addUnits`.  `AddUnits` is `App.AddUnits`. -/
def addUnits (lib : Library) (AddUnits : World → App → Nat → Option GoError × World)
    (w : World) (body : Option (Except GoError String)) (appName : String) (t : Token) :
    Option GoError × World :=
  match numberOfUnits body with
  | .error err => (some err, w)
  | .ok n =>
    match t.User lib w with
    | .error err => (some err, w)
    | .ok u =>
      match getApp w appName u with
      | .error err => (some err, w)
      | .ok app => AddUnits w app n

/-- The handler `removeUnits`.  `RemoveUnits` is `App.RemoveUnits`. -/
def removeUnits (lib : Library) (RemoveUnits : World → App → Nat → Option GoError × World)
    (w : World) (body : Option (Except GoError String)) (appName : String) (t : Token) :
    Option GoError × World :=
  match numberOfUnits body with
  | .error err => (some err, w)
  | .ok n =>
    match t.User lib w with
    | .error err => (some err, w)
    | .ok u =>
      match getApp w appName u with
      | .error err => (some err, w)
      | .ok app => RemoveUnits w app n

/-- The handler `setCName`.  `body` is `none` for a nil body, `Decode` is the
JSON decoding of the body into a string map, `SetCName` is `App.SetCName`. -/
def setCName (lib : Library) (Decode : String → Except GoError (List (String × String)))
    (SetCName : World → App → String → Option GoError × World)
    (w : World) (body : Option String) (appName : String) (t : Token) : Option GoError × World :=
  match body with
  | none => (some (.Http StatusBadRequest "You must provide the cname."), w)
  | some body =>
    match Decode body with
    | .error _ => (some (.Http StatusBadRequest "Invalid JSON in request body."), w)
    | .ok v =>
      match v.lookup "cname" with
      | none => (some (.Http StatusBadRequest "You must provide the cname."), w)
      | some cname =>
        match t.User lib w with
        | .error err => (some err, w)
        | .ok u =>
          match getApp w appName u with
          | .error err => (some err, w)
          | .ok app =>
            match SetCName w app cname with
            | (none, w) => (none, w)
            | (some err, w) =>
              if err.Error = "Invalid cname" then
                (some (.Http StatusPreconditionFailed err.Error), w)
              else (some err, w)

/-- The `net/http` status `OK`. -/
def StatusOK : Nat := 200

/-- The handler `appIsAvailable`.  `Available` is `App.Available`. -/
def appIsAvailable (Available : App → Bool) (w : World) (appname : String) :
    Option GoError × World :=
  match App.Get w { Name := appname } with
  | .error err => (some err, w)
  | .ok app =>
    if !Available app then (some (.errorString "App must be avaliable to receive pushs."), w)
    else (none, { w with effects := w.effects ++ [Effect.WriteHeader StatusOK] })

/-- Modelled from the spec: `App.Available` of app/app.go, which is not among
the sources.  An app is available when one of its units is started
(`TestAppAvailableShouldReturnsTrueWhenOneUnitIsStarted`). -/
def App.Available (a : App) : Bool :=
  a.Units.any (fun u => u.State == "started")

/-! ## The `app` package: logs -/

/-- The newline character. -/
def newline : Char := Char.ofNat 10

/-- Modelled from the spec: `App.Log` of app/app.go, which is not among the
sources.  Section 4.4: the message is split on newlines, empty lines are
dropped and each remaining line is persisted as an `Applog` row with the app's
name and the source; when there is nothing to persist the call returns at once.
The hand-over to the listeners is outside this model, and the rows of one call
carry one reading of the clock, `now`. -/
def App.Log (w : World) (now : Int) (a : App) (message source : String) :
    Option GoError × World :=
  let logs := ((message.toList.splitOn newline).filter (fun msg => msg ≠ [])).map
    (fun msg => Applog.mk now (String.mk msg) source a.Name)
  if logs.length > 0 then
    match w.connErr with
    | some err => (some (.errorString err), w)
    | none => (none, { w with logs := w.logs ++ logs })
  else (none, w)

/-! ## `auth`: configuration and tokens (auth/user.go, auth/token.go) -/

/-- The settings of the `config` package that `loadConfig` reads; `none` is an
undefined setting. -/
structure Settings where
  salt : Option String := none
  tokenExpireDays : Option Int := none
  tokenKey : Option String := none
  hashCost : Option Int := none
deriving DecidableEq, Repr

/-- The package-level variables `salt`, `tokenKey`, `tokenExpire` and `cost` of
auth/user.go, with their zero values. -/
structure AuthVars where
  salt : String := ""
  tokenKey : String := ""
  tokenExpire : Int := 0
  cost : Int := 0
deriving DecidableEq, Repr

/-- The library functions `token` calls.  `sha1Sum` is the value of `Sum(nil)`
on a `sha1.New()` to which the bytes of the string have been written: the 20
bytes of the SHA-1 sum.  `UnixDate` is `Time.Format(time.UnixDate)` in the local
time zone for a time given in whole seconds since the epoch: the layout
`Mon Jan _2 15:04:05 MST 2006` has no fraction of a second. -/
structure Crypto where
  sha1Sum : String → Fin 20 → Fin 256
  UnixDate : Int → String

/-- One byte under the verb `%x`: two hexadecimal digits. -/
def hexByte (b : Fin 256) : List Char :=
  [hexDigit (b.val / 16), hexDigit (b.val % 16)]

/-- The call `fmt.Sprintf("%x", h.Sum(nil))` after the bytes of `s` have been
written to the hash `h`. -/
def Crypto.sha1Hex (sys : Crypto) (s : String) : String :=
  String.mk ((List.ofFn (sys.sha1Sum s)).flatMap hexByte)

/-- The constant `time.Second`, in nanoseconds. -/
def Second : Int := 1000000000

/-- A value of type `int64` after an arithmetic operation wraps around. -/
def wrapInt64 (x : Int) : Int := (x + 2 ^ 63) % 2 ^ 64 - 2 ^ 63

/-- The constant `time.Hour`, in nanoseconds. -/
def Hour : Int := 3600000000000

/-- The constant `defaultExpiration` of auth/user.go. -/
def defaultExpiration : Int := 7 * 24 * Hour

/-- The constant `bcrypt.MinCost`. -/
def bcryptMinCost : Int := 4

/-- The constant `bcrypt.MaxCost`. -/
def bcryptMaxCost : Int := 31

/-- The function `loadConfig`: when both `salt` and `tokenKey` are empty the
settings are read into the package variables, one after the other, up to the
first that is undefined or out of range; otherwise nothing is read. -/
def loadConfig (cfg : Settings) (v : AuthVars) : Option GoError × AuthVars :=
  if v.salt = "" ∧ v.tokenKey = "" then
    match cfg.salt with
    | none => (some (.errorString "Setting \"auth:salt\" is undefined."), { v with salt := "" })
    | some salt =>
      let v := { v with salt := salt }
      let v := { v with tokenExpire :=
        match cfg.tokenExpireDays with
        | some day => wrapInt64 (wrapInt64 (day * 24) * Hour)
        | none => defaultExpiration }
      match cfg.tokenKey with
      | none =>
        (some (.errorString "Setting \"auth:token-key\" is undefined."), { v with tokenKey := "" })
      | some tokenKey =>
        let v := { v with tokenKey := tokenKey }
        match cfg.hashCost with
        | none =>
          (some (.errorString "Setting \"auth:hash-cost\" is undefined."), { v with cost := 0 })
        | some cost =>
          let v := { v with cost := cost }
          if cost < bcryptMinCost ∨ cost > bcryptMaxCost then
            (some (.errorString ("Invalid value for setting " ++ goQuote "auth:hash-cost" ++
              ": it must be between " ++ toString bcryptMinCost ++ " and " ++
              toString bcryptMaxCost ++ ".")), v)
          else (none, v)
  else (none, v)

/-- The function `token`: the SHA-1 sum, in hexadecimal, of the data, the token
key and the current time in the layout `time.UnixDate`.  `now` is the reading of
the clock in nanoseconds; the three writes to the hash are one write of the
three strings in a row. -/
def token (sys : Crypto) (v : AuthVars) (now : Int) (data : String) : String :=
  sys.sha1Hex (data ++ v.tokenKey ++ sys.UnixDate (now / Second))

/-- The function `newUserToken`; `none` is the nil user.  The result comes with
the package variables as the call leaves them. -/
def newUserToken (sys : Crypto) (cfg : Settings) (v : AuthVars) (now : Int) (u : Option User) :
    Except GoError Tsuru.Token × AuthVars :=
  match u with
  | none => (.error (.errorString "User is nil"), v)
  | some u =>
    if u.Email = "" then
      (.error (.errorString "Impossible to generate tokens for users without email"), v)
    else
      match loadConfig cfg v with
      | (some err, v) => (.error err, v)
      | (none, v) =>
        (.ok { ValidUntil := now + v.tokenExpire, Token := token sys v now u.Email,
               UserEmail := u.Email }, v)

/-- The method `Time.Sub`: the difference of two points in time as a `Duration`,
which stops at the largest and the smallest value of an `int64`. -/
def timeSub (t u : Int) : Int :=
  if t - u > 2 ^ 63 - 1 then 2 ^ 63 - 1
  else if t - u < -(2 ^ 63) then -(2 ^ 63)
  else t - u

/-- The function `GetToken`: the first stored token with that token string, if
it has not expired at the time `now`. -/
def GetToken (w : World) (now : Int) (token : String) : Except GoError Tsuru.Token :=
  match w.connErr with
  | some err => .error (.errorString err)
  | none =>
    match w.tokens.find? (fun t => t.Token == token) with
    | none => .error (.errorString "Token not found")
    | some t =>
      if timeSub t.ValidUntil now < 1 then .error (.errorString "Token has expired")
      else .ok t

/-- The function `DeleteToken`: `Remove` takes the first stored token with that
token string out of the collection, and fails when there is none. -/
def DeleteToken (w : World) (token : String) : Option GoError × World :=
  match w.connErr with
  | some err => (some (.errorString err), w)
  | none =>
    if w.tokens.any (fun t => t.Token == token) then
      (none, { w with tokens := w.tokens.eraseP (fun t => t.Token == token) })
    else (some (.errorString "not found"), w)

/-- The function `CreateApplicationToken`: a token for the app, valid for 365
days, is inserted into the tokens collection. -/
def CreateApplicationToken (sys : Crypto) (v : AuthVars) (w : World) (now : Int)
    (appName : String) : Except GoError Tsuru.Token × World :=
  match w.connErr with
  | some err => (.error (.errorString err), w)
  | none =>
    let t : Tsuru.Token :=
      { ValidUntil := now + 365 * 24 * Hour, Token := token sys v now appName, AppName := appName }
    (.ok t, { w with tokens := w.tokens ++ [t] })

/-! ## `auth`: team members and user keys (auth/team.go, auth/user.go) -/

/-- Go's builtin `copy(dst, src)`: the first `min(len(dst), len(src))` elements
of `dst` become those of `src` (the copy is right for overlapping slices); the
result is `dst` afterwards. -/
def goCopy {α : Type} (dst src : List α) : List α :=
  src.take dst.length ++ dst.drop src.length

/-- The two statements `copy(s[index:], s[index+1:])` and `s = s[:len(s)-1]`. -/
def removeAt {α : Type} (s : List α) (index : Nat) : List α :=
  (s.take index ++ goCopy (s.drop index) (s.drop (index + 1))).take (s.length - 1)

/-- The loop `for i, x := range xs { if p(x) { index = i; break } }` after
`index := -1`, entered at position `i`. -/
def firstIndexFrom {α : Type} (p : α → Bool) : Nat → List α → Int
  | _, [] => -1
  | i, x :: rest => if p x then (i : Int) else firstIndexFrom p (i + 1) rest

/-- The method `Team.AddUser`; the team is returned as the call leaves it. -/
def Team.AddUser (t : Team) (u : User) : Option GoError × Team :=
  if t.ContainsUser u then
    (some (.errorString ("User " ++ u.Email ++ " is already in the team " ++ t.Name ++ ".")), t)
  else (none, { t with Users := t.Users ++ [u.Email] })

/-- The method `Team.RemoveUser`; the team is returned as the call leaves it. -/
def Team.RemoveUser (t : Team) (u : User) : Option GoError × Team :=
  let index := firstIndexFrom (fun user => u.Email == user) 0 t.Users
  if index < 0 then
    (some (.errorString ("User " ++ u.Email ++ " is not in the team " ++ t.Name ++ ".")), t)
  else (none, { t with Users := removeAt t.Users index.toNat })

/-- The loop of `User.FindKey`, entered at position `i`. -/
def findKeyFrom (key : Key) : Nat → List Key → Key × Int
  | _, [] => ({ Name := "", Content := "" }, -1)
  | i, k :: rest => if k.Content == key.Content then (k, (i : Int)) else findKeyFrom key (i + 1) rest

/-- The method `User.FindKey`. -/
def User.FindKey (u : User) (key : Key) : Key × Int :=
  findKeyFrom key 0 u.Keys

/-- The method `User.HasKey`. -/
def User.HasKey (u : User) (key : Key) : Bool :=
  decide ((u.FindKey key).2 > -1)

/-- The method `User.RemoveKey`; the user is returned as the call leaves it. -/
def User.RemoveKey (u : User) (key : Key) : Option GoError × User :=
  let index := (u.FindKey key).2
  if index < 0 then (some (.errorString "Key not found"), u)
  else (none, { u with Keys := removeAt u.Keys index.toNat })

/-! ## `cmd`: the client (cmd/client.go) -/

/-- How a Go call ends: it returns, or it panics with a run-time error. -/
inductive Outcome (α : Type) where
  | returns (a : α)
  | panics (text : String)
deriving DecidableEq, Repr

/-- The text of the run-time error for a nil pointer. -/
def nilDereference : String := "runtime error: invalid memory address or nil pointer dereference"

/-- An `http.Header`: the Go map from names to lists of values, kept as an
association list with the names as they are stored. -/
abbrev Header := List (String × List String)

/-- The bytes `textproto` accepts in the name of a header field: letters,
digits and the other characters of a token. -/
def validHeaderFieldByte (c : Char) : Bool :=
  c.isAlphanum || "!#$%&\x27*+-.^_\x60|~".toList.contains c

/-- The loop of `textproto.canonicalMIMEHeaderKey`: the first letter and every
letter after a hyphen in upper case, the other letters in lower case. -/
def canonicalLoop : Bool → List Char → List Char
  | _, [] => []
  | upper, c :: rest =>
    let c := if upper && c.isLower then c.toUpper
      else if !upper && c.isUpper then c.toLower else c
    c :: canonicalLoop (c == '-') rest

/-- The function `textproto.CanonicalMIMEHeaderKey`: a name with a byte that is
not allowed in a header field is returned as it is. -/
def CanonicalMIMEHeaderKey (s : String) : String :=
  if s.toList.all validHeaderFieldByte then String.mk (canonicalLoop true s.toList) else s

/-- The method `Header.Get`: the first value stored under the canonical form
of the name, or the empty string. -/
def Header.Get (h : Header) (key : String) : String :=
  match h.lookup (CanonicalMIMEHeaderKey key) with
  | some (v :: _) => v
  | _ => ""

/-- The method `Header.Set`: the entry of the canonical form of the name
becomes the one value. -/
def Header.Set (h : Header) (key value : String) : Header :=
  (CanonicalMIMEHeaderKey key, [value]) ::
    h.filter (fun p => p.1 != CanonicalMIMEHeaderKey key)

/-- An `http.Request`, as far as the client touches it. -/
structure Request where
  Method : String := "GET"
  URL : String := "/"
  Header : Header := []
deriving DecidableEq, Repr

/-- An `http.Response`; `Body` is what `ioutil.ReadAll` reads from the body. -/
structure Response where
  StatusCode : Int
  Header : Header := []
  Body : String := ""
deriving DecidableEq, Repr

/-- The `Context` of a command; `Stderr` is what has been written to it. -/
structure Context where
  Stderr : String := ""
deriving DecidableEq, Repr

/-- The errors `http.Client.Do` returns: a `*url.Error` around
`x509.UnknownAuthorityError`, a `*url.Error` around another error, or an error
of another type.  `Err` is the text of the inner error. -/
inductive TransportError where
  | unknownAuthority (Err : String)
  | urlError (Err : String)
  | other (err : GoError)
deriving DecidableEq, Repr

/-- The `Client` of the cmd package.  `HttpClient` is the method `Do` of the
`*http.Client` and `context` may be nil. -/
structure Client where
  HttpClient : Request → Except TransportError Response
  context : Option Context
  progname : String
  currentVersion : String
  versionHeader : String

/-- The functions of the cmd package that `Client.Do` calls and that are not
among the sources: `readToken`, the target that `readTarget` reads (its error is
dropped) and `validateVersion`. -/
structure CmdEnv where
  readToken : Except GoError String
  target : String
  validateVersion : String → String → Bool

/-- The method `Client.detectClientError`; `none` is the nil error. -/
def Client.detectClientError (env : CmdEnv) (err : Option TransportError) : Option GoError :=
  match err with
  | none => none
  | some (.other err) => some err
  | some (.unknownAuthority Err) =>
    some (.errorString ("Failed to connect to tsuru server (" ++ env.target ++ "): " ++ Err))
  | some (.urlError _) =>
    some (.errorString
      ("Failed to connect to tsuru server (" ++ env.target ++ "), it\x27s probably down."))

/-- The warning `Client.Do` prints, `format` with its three arguments filled
in. -/
def versionWarning (progname supported currentVersion : String) : String :=
  "############################################################\n\n" ++
  "WARNING: You\x27re using an unsupported version of " ++ progname ++ ".\n\n" ++
  "You must have at least version " ++ supported ++ ", your current\n" ++
  "version is " ++ currentVersion ++ ".\n\n" ++
  "Please go to http://tsuru.rtfd.org/client-install and\n" ++
  "download the last version.\n\n" ++
  "############################################################\n\n"

/-- The method `Client.Do`.  The result is how the call ends together with the
request and the context as the call leaves them. -/
def Client.Do (env : CmdEnv) (c : Client) (request : Request) :
    Outcome (Option Response × Option GoError) × Request × Option Context :=
  let request : Request :=
    match env.readToken with
    | .ok token => { request with Header := request.Header.Set "Authorization" token }
    | .error _ => request
  match c.HttpClient request with
  | .error err => (.returns (none, Client.detectClientError env (some err)), request, c.context)
  | .ok response =>
    match Client.detectClientError env none with
    | some err => (.returns (none, some err), request, c.context)
    | none =>
      let supported := response.Header.Get c.versionHeader
      let warned : Outcome (Option Context) :=
        if !env.validateVersion supported c.currentVersion then
          match c.context with
          | none => .panics nilDereference
          | some ctx =>
            let warning := versionWarning c.progname supported c.currentVersion
            .returns (some { ctx with Stderr := ctx.Stderr ++ warning })
        else .returns c.context
      match warned with
      | .panics text => (.panics text, request, c.context)
      | .returns context =>
        if response.StatusCode > 399 then
          (.returns (none, some (.errorString response.Body)), request, context)
        else (.returns (some response, none), request, context)

/-! ## Handlers of api/app.go: setting and unsetting variables -/

/-- The handler `setEnv`.  `body` is `none` for a nil body, `Decode` is the
JSON decoding of the body into a string map, given by its entries in the order
in which `range` visits them, and `SetEnvs` is `App.SetEnvs`. -/
def setEnv (lib : Library) (Decode : String → Except GoError (List (String × String)))
    (SetEnvs : World → App → List EnvVar → Bool → Option GoError × World)
    (w : World) (body : Option String) (appName : String) (t : Token) : Option GoError × World :=
  let msg := "You must provide the environment variables in a JSON object"
  match body with
  | none => (some (.Http StatusBadRequest msg), w)
  | some body =>
    match Decode body with
    | .error _ => (some (.Http StatusBadRequest msg), w)
    | .ok vars =>
      match t.User lib w with
      | .error err => (some err, w)
      | .ok u =>
        match getApp w appName u with
        | .error err => (some err, w)
        | .ok app =>
          let envs := vars.foldl
            (fun envs kv => envs ++ [{ Name := kv.1, Value := kv.2, Public := true }]) []
          SetEnvs w app envs true

/-- The handler `unsetEnv`.  `body` is `none` for a nil body, `Decode` is the
JSON decoding of the body into a list of strings and `UnsetEnvs` is
`App.UnsetEnvs`. -/
def unsetEnv (lib : Library) (Decode : String → Except GoError (List String))
    (UnsetEnvs : World → App → List String → Bool → Option GoError × World)
    (w : World) (body : Option String) (appName : String) (t : Token) : Option GoError × World :=
  let msg := "You must provide the list of environment variables, in JSON format"
  match body with
  | none => (some (.Http StatusBadRequest msg), w)
  | some body =>
    match Decode body with
    | .error _ => (some (.Http StatusBadRequest msg), w)
    | .ok vars =>
      if vars.length = 0 then (some (.Http StatusBadRequest msg), w)
      else
        match t.User lib w with
        | .error err => (some err, w)
        | .ok u =>
          match getApp w appName u with
          | .error err => (some err, w)
          | .ok app => UnsetEnvs w app vars true

/-- Modelled from the spec: `App.SetEnvs` of app/app.go, which is not among the
sources.  Section 4.5 and the two tests of `setEnvsToApp`: the given variables
are merged into the app's map under the gate of `publicOnly` and the app is
written to the apps collection. -/
def App.SetEnvs (w : World) (a : App) (envs : List EnvVar) (publicOnly : Bool) :
    Option GoError × World :=
  match w.connErr with
  | some err => (some (.errorString err), w)
  | none => appsUpdate w a.Name (a.setEnvsToApp envs publicOnly)

/-- One round of the loop of `UnsetEnvs`: the variable of that name is deleted
when it is there and, with `publicOnly`, is public. -/
def unsetEnvStep (publicOnly : Bool) (a : App) (name : String) : App :=
  match a.lookupEnv name with
  | some e =>
    if !publicOnly || e.Public then { a with Env := a.Env.filter (fun p => p.1 != name) } else a
  | none => a

/-- Modelled from the spec: `App.UnsetEnvs` of app/app.go, which is not among
the sources.  Section 4.5, `same visibility gating on deletion`, and the two
tests of `UnsetEnvs`: each named variable is deleted from the app's map unless
`publicOnly` is set and the variable is private, and the app is written to the
apps collection. -/
def App.UnsetEnvs (w : World) (a : App) (names : List String) (publicOnly : Bool) :
    Option GoError × World :=
  match w.connErr with
  | some err => (some (.errorString err), w)
  | none => appsUpdate w a.Name (names.foldl (unsetEnvStep publicOnly) a)

/-! ## `auth`: passwords (auth/user.go) -/

/-- The constant `passwordError` of auth/user.go. -/
def passwordError : String :=
  "Password length should be least 6 characters and at most 50 characters."

/-- The constant `passwordMinLen` of auth/user.go. -/
def passwordMinLen : Nat := 6

/-- The constant `passwordMaxLen` of auth/user.go. -/
def passwordMaxLen : Nat := 50

/-- The functions of other packages that the password code calls:
`validation.ValidateLength`, `bcrypt.CompareHashAndPassword` (nil when the
password matches the hash), `bcrypt.GenerateFromPassword` with the salt it
draws on this call, and the hexadecimal rendering of `pbkdf2.Key` with SHA-512
for a password, a salt, a number of rounds and a key length. -/
structure PasswordLib where
  ValidateLength : String → Nat → Nat → Bool
  CompareHashAndPassword : String → String → Option GoError
  GenerateFromPassword : String → Int → Except GoError String
  pbkdf2Hex : String → String → Nat → Nat → String

/-- The function `hashPassword`, the old way of hashing: it panics when the
settings cannot be loaded.  The result comes with the package variables as the
call leaves them. -/
def hashPassword (plib : PasswordLib) (cfg : Settings) (v : AuthVars) (password : String) :
    Outcome String × AuthVars :=
  match loadConfig cfg v with
  | (some err, v) => (.panics err.Error, v)
  | (none, v) => (.returns (plib.pbkdf2Hex password v.salt 4096 (v.salt.utf8ByteSize * 8)), v)

/-- Replace the first stored user with that email by `u`; `none` when no stored
user has the email. -/
def replaceUser (email : String) (u : User) : List User → Option (List User)
  | [] => none
  | x :: rest =>
    if x.Email == email then some (u :: rest)
    else (replaceUser email u rest).map (fun r => x :: r)

/-- The method `User.Update`: the stored user with the email is replaced. -/
def User.Update (w : World) (u : User) : Option GoError × World :=
  match w.connErr with
  | some err => (some (.errorString err), w)
  | none =>
    match replaceUser u.Email u w.users with
    | none => (some (.errorString "not found"), w)
    | some users => (none, { w with users := users })

/-- The method `User.CheckPassword`.  The result is how the call ends, with the
user, the package variables and the world as the call leaves them. -/
def User.CheckPassword (plib : PasswordLib) (cfg : Settings) (v : AuthVars) (w : World)
    (u : User) (password : String) : Outcome (Option GoError) × User × AuthVars × World :=
  if !plib.ValidateLength password passwordMinLen passwordMaxLen then
    (.returns (some (.ValidationError passwordError)), u, v, w)
  else if plib.CompareHashAndPassword u.Password password = none then (.returns none, u, v, w)
  else
    match hashPassword plib cfg v password with
    | (.panics text, v) => (.panics text, u, v, w)
    | (.returns hashedPassword, v) =>
      if u.Password = hashedPassword then
        match plib.GenerateFromPassword password v.cost with
        | .ok bcryptPassword =>
          let u := { u with Password := bcryptPassword }
          (.returns none, u, v, (u.Update w).2)
        | .error _ => (.returns none, u, v, w)
      else (.returns (some .AuthenticationFailure), u, v, w)

/-! ## `auth`: the goroutines of `CheckUserAccess` (auth/team.go) -/

/-- Where the goroutine started for one team stands: before the test
`t.ContainsUser(u)`, blocked in the send `found <- true`, before the call
`wg.Done()`, or at its end. -/
inductive Worker where
  | testing
  | sending
  | finishing
  | done
deriving DecidableEq, Repr

/-- Where the last goroutine, `wg.Wait(); found <- false`, stands: not started,
blocked in `wg.Wait()`, blocked in the send, or at its end. -/
inductive Closer where
  | unborn
  | waiting
  | sending
  | done
deriving DecidableEq, Repr

/-- The state of a call of `CheckUserAccess` after the query: the goroutines
started so far, one per team and in the order of the teams, the counter of the
`WaitGroup`, the last goroutine, and the value the caller has received from the
channel `found`, if any.  The caller is in its loop while fewer goroutines than
teams are started, then starts the last goroutine, then waits in `<-found`. -/
structure Goroutines where
  workers : List Worker := []
  wg : Nat := 0
  closer : Closer := .unborn
  received : Option Bool := none
deriving DecidableEq, Repr

/-- The steps a scheduler can choose from.  `start` is one round of the loop of
the caller (`wg.Add(1)` and the `go` statement), `startCloser` the last `go`
statement, `test i` the test of goroutine `i`, `deliver i` the meeting of the
send of goroutine `i` with the receive of the caller, `finish i` the call
`wg.Done()` of goroutine `i`, `wake` the return of `wg.Wait()`, and
`deliverFalse` the meeting of the send of `false` with the receive of the
caller. -/
inductive Move where
  | start
  | startCloser
  | test (i : Nat)
  | deliver (i : Nat)
  | finish (i : Nat)
  | wake
  | deliverFalse
deriving DecidableEq, Repr

/-- One step of the goroutines of `CheckUserAccess`; `none` when the step is not
enabled.  The channel `found` has no buffer: a send goes through only together
with the receive of the caller, which happens once, after the last `go`
statement. -/
def step (teams : List Team) (u : User) (s : Goroutines) : Move → Option Goroutines
  | .start =>
    if s.workers.length < teams.length then
      some { s with workers := s.workers ++ [Worker.testing], wg := s.wg + 1 }
    else none
  | .startCloser =>
    if s.workers.length = teams.length ∧ s.closer = .unborn then
      some { s with closer := Closer.waiting }
    else none
  | .test i =>
    match teams[i]? with
    | none => none
    | some t =>
      if s.workers[i]? = some .testing then
        some { s with workers :=
          s.workers.set i (if t.ContainsUser u then Worker.sending else Worker.finishing) }
      else none
  | .deliver i =>
    if s.workers[i]? = some .sending ∧ s.closer ≠ .unborn ∧ s.received = none then
      some { s with workers := s.workers.set i Worker.finishing, received := some true }
    else none
  | .finish i =>
    if s.workers[i]? = some .finishing then
      some { s with workers := s.workers.set i Worker.done, wg := s.wg - 1 }
    else none
  | .wake =>
    if s.closer = .waiting ∧ s.wg = 0 then some { s with closer := Closer.sending } else none
  | .deliverFalse =>
    if s.closer = .sending ∧ s.received = none then
      some { s with closer := Closer.done, received := some false }
    else none

/-- A schedule: the steps are taken one after the other; `none` when one of
them is not enabled. -/
def run (teams : List Team) (u : User) : Goroutines → List Move → Option Goroutines
  | s, [] => some s
  | s, m :: ms => (step teams u s m).bind (fun s' => run teams u s' ms)

/-- The teams `CheckUserAccess` reads: the stored teams with a name in
`teamNames`. -/
def teamsNamed (w : World) (teamNames : List String) : List Team :=
  w.teams.filter (fun t => decide (t.Name ∈ teamNames))

/-- What a goroutine counts for in the `WaitGroup`: one until its `wg.Done()`. -/
def Worker.pending : Worker → Nat
  | .done => 0
  | _ => 1

/-- The number of steps a goroutine has left at most. -/
def Worker.stepsLeft : Worker → Nat
  | .testing => 3
  | .sending => 2
  | .finishing => 1
  | .done => 0

/-- The number of steps the last goroutine has left at most, its start
included. -/
def Closer.stepsLeft : Closer → Nat
  | .unborn => 3
  | .waiting => 2
  | .sending => 1
  | .done => 0

/-- A bound on the number of steps that can still be taken. -/
def stepsLeft (teams : List Team) (s : Goroutines) : Nat :=
  4 * (teams.length - s.workers.length) + (s.workers.map Worker.stepsLeft).sum + s.closer.stepsLeft

/-- What holds in every state the goroutines can reach.  The counter of the
`WaitGroup` is the number of goroutines before their `wg.Done()`; a goroutine
blocked in its send has found the user; a goroutine that found the user and is
past its send has had its `true` received; the last goroutine is started after
all the others, and is past `wg.Wait()` only when all the others are at their
end; `false` is received exactly when the last goroutine is at its end; and
`true` is received only when some team contains the user. -/
structure Sound (teams : List Team) (u : User) (s : Goroutines) : Prop where
  started : s.workers.length ≤ teams.length
  counter : s.wg = (s.workers.map Worker.pending).sum
  sending : ∀ i : Nat, s.workers[i]? = some Worker.sending →
    ∃ t : Team, teams[i]? = some t ∧ t.ContainsUser u = true
  passed : ∀ (i : Nat) (t : Team),
    s.workers[i]? = some Worker.finishing ∨ s.workers[i]? = some Worker.done →
    teams[i]? = some t → t.ContainsUser u = true → s.received = some true
  closerStarted : s.closer ≠ .unborn → s.workers.length = teams.length
  closerAwake : s.closer = .sending ∨ s.closer = .done → ∀ x ∈ s.workers, x = Worker.done
  receivedFalse : s.received = some false ↔ s.closer = .done
  receivedTrue : s.received = some true → ∃ t ∈ teams, t.ContainsUser u = true

/-! ## Sample data -/

/-- A library whose decoder yields the given `jsonApp`. -/
def fixedLibrary (japp : jsonApp) : Library where
  ValidateEmail := fun _ => true
  Unmarshal := fun _ => .ok japp
  Marshal := fun _ => .ok "{}"
  GetUrl := fun name => "git@tsuru:" ++ name ++ ".git"

/-- A world with one user in one team, and an app named `appname`. -/
def sampleWorld : World where
  users := [{ Email := "whydidifall@thewho.com" }]
  teams := [{ Name := "tsuruteam", Users := ["whydidifall@thewho.com"] }]
  apps := [{ Name := "appname", Teams := ["tsuruteam"] }]

/-- The token of the user of `sampleWorld`. -/
def sampleToken : Token := { UserEmail := "whydidifall@thewho.com" }

/-- A backend whose collaborators always succeed. -/
def sampleBackend : Backend where
  noTeamsText := "Cannot create app without teams."
  provision := fun a n => .ok { a with Units := (List.range n).map fun i => { Name := a.Name ++ "/" ++ toString i } }

/-- The app of `TestRemoveUnitsInvalidValues`. -/
def chemistry : App where
  Name := "chemistry"
  Framework := "python"
  Units := [{ Name := "chemistry/0" }, { Name := "chemistry/1" }, { Name := "chemistry/2" },
    { Name := "chemistry/3" }]

/-- The app of `TestGrantAccessKeepTeamsSorted`. -/
def sortedTeamsApp : App := { Name := "appName", Framework := "django", Teams := ["acid-rain", "zito"] }

/-- The app of `TestGrantAccessFailsIfTheTeamAlreadyHasAccessToTheApp`. -/
def grantedApp : App := { Name := "appName", Framework := "django", Teams := ["tsuruteam"] }

/-- The app of `TestRemoveUnitsPriority`. -/
def ble : App where
  Name := "ble"
  Units := [{ Name := "ble/0", State := "started" }, { Name := "ble/1", State := "down" },
    { Name := "ble/2", State := "creating" }, { Name := "ble/3", State := "pending" },
    { Name := "ble/4", State := "error" }, { Name := "ble/5", State := "installing" }]

/-- A world in which the app `appname` belongs to two teams. -/
def twoTeamWorld : World where
  users := [{ Email := "whydidifall@thewho.com" }]
  teams := [{ Name := "otherteam", Users := ["someone@thewho.com"] },
    { Name := "tsuruteam", Users := ["whydidifall@thewho.com"] }]
  apps := [{ Name := "appname", Teams := ["otherteam", "tsuruteam"] }]

/-- The app of the two tests of `setEnvsToApp`. -/
def myapp : App where
  Name := "myapp"
  Units := [{ Machine := 1 }]
  Env := [("DATABASE_HOST", { Name := "DATABASE_HOST", Value := "localhost", Public := false })]

/-- The variables of the two tests of `setEnvsToApp`. -/
def myappEnvs : List EnvVar :=
  [{ Name := "DATABASE_HOST", Value := "remotehost", Public := true },
   { Name := "DATABASE_PASSWORD", Value := "123", Public := true }]

/-- The number a string of decimal digits denotes. -/
def decimalValue (cs : List Char) : Nat :=
  Nat.ofDigits 10 (cs.reverse.map (fun c => c.toNat - 48))

/-- The token `CreateApplicationToken` builds for an app at the time `now`. -/
def applicationToken (sys : Crypto) (v : AuthVars) (now : Int) (appName : String) : Token :=
  { ValidUntil := now + 365 * 24 * Hour, Token := token sys v now appName, AppName := appName }

/-- Two calls of `CreateApplicationToken` for the same app at the same reading
of the clock, then `DeleteToken` of the token string they returned. -/
def createTwiceThenDelete (sys : Crypto) (v : AuthVars) (w : World) (now : Int)
    (appName : String) : Option GoError × World :=
  DeleteToken (CreateApplicationToken sys v (CreateApplicationToken sys v w now appName).2 now
    appName).2 (token sys v now appName)

/-- A world in which `appname` belongs to `tsuruteam` alone and a second team
exists. -/
def loneTeamWorld : World where
  users := [{ Email := "whydidifall@thewho.com" }]
  teams := [{ Name := "otherteam", Users := ["someone@thewho.com"] },
    { Name := "tsuruteam", Users := ["whydidifall@thewho.com"] }]
  apps := [{ Name := "appname", Teams := ["tsuruteam"] }]

/-- A world in which `appname` belongs to two teams and a third team exists. -/
def thirdTeamWorld : World where
  users := [{ Email := "whydidifall@thewho.com" }]
  teams := [{ Name := "otherteam", Users := ["someone@thewho.com"] },
    { Name := "thirdteam", Users := ["nobody@thewho.com"] },
    { Name := "tsuruteam", Users := ["whydidifall@thewho.com"] }]
  apps := [{ Name := "appname", Teams := ["otherteam", "tsuruteam"] }]

/-- A world whose user is a member of no team. -/
def noTeamWorld : World where
  users := [{ Email := "whydidifall@thewho.com" }]
  teams := [{ Name := "otherteam", Users := ["someone@thewho.com"] }]

/-- A `CreateApp` that differs from the modelled one on a call with zero units
only. -/
def zeroUnitsCreateApp (w : World) (a : App) (units : Nat) (teams : List Team) :
    Option GoError × App × World :=
  if units = 0 then (none, a, w) else CreateApp sampleBackend w a units teams

/-- A world whose only app has no started unit. -/
def pendingWorld : World where
  apps := [{ Name := "anycolor", Units := [{ Name := "i-0900", State := "pending" }] }]

/-- A world whose app has a started unit among others
(`TestAppAvailableShouldReturnsTrueWhenOneUnitIsStarted`). -/
def startedWorld : World where
  apps := [{ Name := "anycolor", Units := [{ Name := "i-0800", State := "started" },
    { Name := "i-0900", State := "pending" }, { Name := "i-a00", State := "stopped" }] }]

/-- A stand-in for `App.SetCName`: it rejects a cname with a scheme or a leading
dot, fails for an app that is not stored and accepts any other cname. -/
def sampleSetCName (w : World) (a : App) (cname : String) : Option GoError × World :=
  if cname = "http://ktulu.mycompany.com" ∨ cname = ".ktulu.mycompany.com" then
    (some (.errorString "Invalid cname"), w)
  else
    match appsUpdate w a.Name { a with CName := cname } with
    | (some err, w) => (some err, w)
    | (none, w) => (none, w)

/-- A decoder that yields the given map. -/
def fixedDecode (v : List (String × String)) : String → Except GoError (List (String × String)) :=
  fun _ => .ok v

/-- A world whose database cannot be reached. -/
def unreachableWorld : World := { connErr := some "no reachable servers" }

/-- A store with one token that is valid until time 100. -/
def tokenWorld : World where
  tokens := [{ Token := "abc123", ValidUntil := 100, AppName := "tsuru-healer" }]

/-- A stand-in for the hash and the time layout. -/
def sampleCrypto : Crypto where
  sha1Sum := fun s i => ⟨(s.length + 7 * i.val) % 256, Nat.mod_lt _ (by decide)⟩
  UnixDate := fun seconds => toString seconds

/-- Settings with a salt and a hash cost but no token key. -/
def noTokenKey : Settings := { salt := some "tsuru-salt", hashCost := some 4 }

/-- A call of `AddUser` or of `RemoveUser`. -/
inductive TeamCall where
  | AddUser (u : User)
  | RemoveUser (u : User)
deriving DecidableEq, Repr

/-- The team after one call, whether the call failed or not. -/
def Team.after (t : Team) : TeamCall → Team
  | .AddUser u => (t.AddUser u).2
  | .RemoveUser u => (t.RemoveUser u).2

/-- The team after a sequence of calls, the oldest first. -/
def Team.afterAll (t : Team) (calls : List TeamCall) : Team :=
  calls.foldl Team.after t

/-- The team of the witnesses: `x` is a member twice. -/
def sampleTeam : Team := { Name := "cobrateam", Users := ["x", "y", "x", "z"] }

/-- A user with three keys, two of them with the same content. -/
def keyedUser : User where
  Email := "timeredbull@globo.com"
  Keys := [{ Name := "a", Content := "ssh-rsa 1" }, { Name := "b", Content := "ssh-rsa 2" },
    { Name := "c", Content := "ssh-rsa 2" }]

/-- Two teams that keep their access to an app. -/
def remainingTeams : List Team :=
  [{ Name := "a", Users := ["x", "y"] }, { Name := "b", Users := ["z"] }]

/-- A team that loses its access; `x` and `z` are in other teams too. -/
def revokedTeam : Team := { Name := "c", Users := ["w", "x", "w", "z", "q"] }

/-- The request as `Client.Do` sends it: with the token, when there is one. -/
def authorized (env : CmdEnv) (request : Request) : Request :=
  match env.readToken with
  | .ok token => { request with Header := request.Header.Set "Authorization" token }
  | .error _ => request

/-- The transport of the tests: it answers every request with the given message
and status. -/
def Transport (Message : String) (Status : Int) (Headers : Header) :
    Request → Except TransportError Response :=
  fun _ => .ok { StatusCode := Status, Header := Headers, Body := Message }

/-- An environment without a token file, in which a version is supported when
the server names none or names the current one. -/
def sampleEnv : CmdEnv where
  readToken := .error (.errorString "open ~/.tsuru_token: no such file or directory")
  target := "http://tsuru.google.com"
  validateVersion := fun supported current => supported == "" || supported == current

/-- The client of `TestShouldValidateVersion`, with the given transport. -/
def glb (transport : Request → Except TransportError Response) : Client where
  HttpClient := transport
  context := some { }
  progname := "glb"
  currentVersion := "0.2.1"
  versionHeader := "Supported-Tsuru"

/-- The client of `TestShouldReturnBodyMessageOnError`, with the given
transport: it has no context. -/
def bare (transport : Request → Except TransportError Response) : Client where
  HttpClient := transport
  context := none
  progname := "glb"
  currentVersion := "0.2.1"
  versionHeader := "Supported-Tsuru"

/-- The warning `TestShouldValidateVersion` expects on the standard error. -/
def expectedWarning : String :=
  "############################################################\n\n" ++
  "WARNING: You\x27re using an unsupported version of glb.\n\n" ++
  "You must have at least version 0.3, your current\n" ++
  "version is 0.2.1.\n\n" ++
  "Please go to http://tsuru.rtfd.org/client-install and\n" ++
  "download the last version.\n\n" ++
  "############################################################\n\n"

/-- The answer of the server in `TestShouldValidateVersion`. -/
def newerServer : Response := { StatusCode := 200, Header := [("Supported-Tsuru", ["0.3"])] }

/-- The variable stored under `name` for the app `appName`, if there is one. -/
def storedEnv (w : World) (appName name : String) : Option EnvVar :=
  (w.apps.find? (fun x => x.Name == appName)).bind (fun a => a.lookupEnv name)

/-- The app of the test of `UnsetEnvs`, owned by `tsuruteam`. -/
def envApp : App where
  Name := "myapp"
  Teams := ["tsuruteam"]
  Units := [{ Machine := 1 }]
  Env := [("DATABASE_HOST", { Name := "DATABASE_HOST", Value := "localhost", Public := false }),
    ("DATABASE_PASSWORD", { Name := "DATABASE_PASSWORD", Value := "123", Public := true })]

/-- A world that stores `envApp`, with the user and the team. -/
def envWorld : World where
  users := [{ Email := "whydidifall@thewho.com" }]
  teams := [{ Name := "tsuruteam", Users := ["whydidifall@thewho.com"] }]
  apps := [envApp]

/-- A decoder that yields the given list of names. -/
def fixedNames (names : List String) : String → Except GoError (List String) :=
  fun _ => .ok names

/-- Settings with all four values. -/
def fullSettings : Settings :=
  { salt := some "tsuru-salt", tokenKey := some "tsuru-key", hashCost := some 4 }

/-- A stand-in for the hashing libraries: a bcrypt hash is the password after
`bcrypt:`, the old hash is the password and the salt after `pbkdf2:`. -/
def samplePasswordLib : PasswordLib where
  ValidateLength := fun s min max => decide (min ≤ s.length ∧ s.length ≤ max)
  CompareHashAndPassword := fun hash password =>
    if hash = "bcrypt:" ++ password then none else some (.errorString "mismatch")
  GenerateFromPassword := fun password _ => .ok ("bcrypt:" ++ password)
  pbkdf2Hex := fun password salt _ _ => "pbkdf2:" ++ password ++ ":" ++ salt

/-- A user whose stored password is the old hash of `123456`. -/
def legacyUser : User := { Email := "timeredbull@globo.com", Password := "pbkdf2:123456:tsuru-salt" }

/-- A world that stores `legacyUser`. -/
def loginWorld : World := { users := [legacyUser] }

/-- Settings whose hash cost is below `bcrypt.MinCost`. -/
def lowCost : Settings :=
  { salt := some "tsuru-salt", tokenKey := some "tsuru-key", hashCost := some 3 }

/-! # Theorems -/

/-! ## Auxiliary facts about the handlers -/

/-- When `getApp` succeeds the database connection works. -/
theorem getApp_ok_connErr {w : World} {name : String} {u : User} {app : App}
    (h : getApp w name u = .ok app) : w.connErr = none := by
  unfold getApp App.Get at h
  cases hc : w.connErr with
  | none => rfl
  | some e => simp [hc] at h

/-- An update replaces the first stored app of that name, the one a lookup by
name finds, and leaves the other apps as they are. -/
theorem replaceApp_forall₂ {name : String} {app' : App} :
    ∀ {apps apps' : List App} {app : App}, replaceApp name app' apps = some apps' →
      apps.find? (fun x => x.Name == name) = some app →
      List.Forall₂ (fun a b => b = a ∨ (a = app ∧ b = app')) apps apps'
  | [], _, _, h, _ => by simp [replaceApp] at h
  | x :: rest, apps', app, h, hf => by
    unfold replaceApp at h
    by_cases hx : (x.Name == name) = true
    · simp only [hx, if_true, Option.some.injEq] at h
      subst h
      have hxa : x = app := by
        simpa [List.find?_cons, hx] using hf
      exact List.Forall₂.cons (Or.inr ⟨hxa, rfl⟩)
        (List.forall₂_same.2 (fun a _ => Or.inl rfl))
    · have hx' : (x.Name == name) = false := by simpa using hx
      simp only [hx', Bool.false_eq_true, if_false] at h
      cases hr : replaceApp name app' rest with
      | none => simp [hr] at h
      | some r =>
        simp only [hr, Option.map_some', Option.some.injEq] at h
        subst h
        have hf' : rest.find? (fun x => x.Name == name) = some app := by
          simpa [List.find?_cons, hx] using hf
        exact List.Forall₂.cons (Or.inl rfl) (replaceApp_forall₂ hr hf')

/-- The app `getApp` returns is the first stored app of that name. -/
theorem getApp_ok_find {w : World} {name : String} {u : User} {app : App}
    (h : getApp w name u = .ok app) : w.apps.find? (fun x => x.Name == name) = some app := by
  unfold getApp App.Get at h
  cases hc : w.connErr with
  | some e => simp [hc] at h
  | none =>
    simp only [hc] at h
    cases hf : w.apps.find? (fun x => x.Name == name) with
    | none => simp [hf] at h
    | some x =>
      simp only [hf] at h
      have hx : x = app := by
        split at h
        · simpa using h
        · split at h
          · simp at h
          · simpa using h
      rw [hx]

/-- `Revoke` does not touch the name of the app. -/
theorem Revoke_name {a a' : App} {team : Team} {err : Option GoError}
    (h : App.Revoke a team = (err, a')) : a'.Name = a.Name := by
  unfold App.Revoke at h
  simp only at h
  split at h
  · injection h with _ h; rw [← h]
  · injection h with _ h; rw [← h]

/-- The apps collection after `appsUpdate`, entry by entry. -/
theorem appsUpdate_forall₂ {w : World} {app app' : App} {name : String}
    (hf : w.apps.find? (fun x => x.Name == name) = some app) :
    List.Forall₂ (fun a b => b = a ∨ (a = app ∧ b = app')) w.apps (appsUpdate w name app').2.apps := by
  unfold appsUpdate
  cases hr : replaceApp name app' w.apps with
  | none => exact List.forall₂_same.2 (fun a _ => Or.inl rfl)
  | some apps => exact replaceApp_forall₂ hr hf

/-- A successful `Revoke` takes at most one name out of `Teams`. -/
theorem Revoke_teams_length {a a' : App} {team : Team}
    (h : App.Revoke a team = (none, a')) : a.Teams.length ≤ a'.Teams.length + 1 := by
  unfold App.Revoke at h
  simp only at h
  split at h
  · simp at h
  · injection h with _ h
    subst h
    simp only [List.length_eraseIdx]
    split <;> omega

/-- An occurrence of `sub` in `A ++ q :: B` lies in `A` or in `B` when `q` is not
a character of `sub`. -/
theorem infix_of_separator (sub A B : List Char) (q : Char) (hq : q ∉ sub)
    (h : sub <:+: A ++ q :: B) : sub <:+: A ∨ sub <:+: B := by
  obtain ⟨s, t, hst⟩ := h
  rw [List.append_eq_append_iff] at hst
  rcases hst with ⟨a', hA, ht⟩ | ⟨c', hs, hB⟩
  · -- A = (s ++ sub) ++ a'
    exact Or.inl ⟨s, a', hA.symm⟩
  · -- s ++ sub = A ++ c', q :: B = c' ++ t
    rw [List.append_eq_append_iff] at hs
    rcases hs with ⟨a'', hA, hsub⟩ | ⟨c'', hs', hc'⟩
    · -- A = s ++ a'', sub = a'' ++ c'
      cases c' with
      | nil =>
        simp only [List.append_nil] at hsub
        exact Or.inl ⟨s, [], by simp [hA, hsub]⟩
      | cons x xs =>
        simp only [List.cons_append, List.cons.injEq] at hB
        exfalso
        apply hq
        rw [hsub, hB.1]
        simp
    · -- s = A ++ c'', c' = c'' ++ sub
      rw [hc'] at hB
      cases c'' with
      | nil =>
        simp only [List.nil_append] at hB
        cases sub with
        | nil => exact Or.inl ⟨[], A, by simp⟩
        | cons x xs =>
          simp only [List.cons_append, List.cons.injEq] at hB
          exfalso
          apply hq
          rw [hB.1]
          simp
      | cons x xs =>
        simp only [List.cons_append, List.cons.injEq] at hB
        exact Or.inr ⟨xs, t, by rw [hB.2]⟩

/-- The characters of a valid name are quoted as themselves. -/
theorem quoteChar_nameChar (c : Char) (h : isNameChar c = true) : quoteChar c = [c] := by
  unfold quoteChar
  have h1 : c ≠ Char.ofNat 34 := by rintro rfl; revert h; decide
  have h2 : c ≠ Char.ofNat 92 := by rintro rfl; revert h; decide
  have h3 : c ≠ Char.ofNat 10 := by rintro rfl; revert h; decide
  have h4 : c ≠ Char.ofNat 13 := by rintro rfl; revert h; decide
  have h5 : c ≠ Char.ofNat 9 := by rintro rfl; revert h; decide
  have h6 : c ≠ Char.ofNat 7 := by rintro rfl; revert h; decide
  have h7 : c ≠ Char.ofNat 8 := by rintro rfl; revert h; decide
  have h8 : c ≠ Char.ofNat 12 := by rintro rfl; revert h; decide
  have h9 : c ≠ Char.ofNat 11 := by rintro rfl; revert h; decide
  have h10 : ¬ (c.toNat < 32 ∨ c.toNat = 127) := by
    simp only [isNameChar, Char.isLower, Char.isDigit, Bool.or_eq_true, Bool.and_eq_true,
      decide_eq_true_eq, beq_iff_eq] at h
    rcases h with (h | h) | h
    · have ha : 97 ≤ c.val.toNat := h.1
      have hb : c.val.toNat ≤ 122 := h.2
      show ¬ (c.val.toNat < 32 ∨ c.val.toNat = 127)
      omega
    · have ha : 48 ≤ c.val.toNat := h.1
      have hb : c.val.toNat ≤ 57 := h.2
      show ¬ (c.val.toNat < 32 ∨ c.val.toNat = 127)
      omega
    · rw [h]
      decide
  simp [h1, h2, h3, h4, h5, h6, h7, h8, h9, h10]

/-- A list of name characters is its own quoting. -/
theorem flatMap_quoteChar (l : List Char) (h : ∀ c ∈ l, isNameChar c = true) :
    l.flatMap quoteChar = l := by
  induction l with
  | nil => rfl
  | cons c cs ih =>
    simp only [List.flatMap_cons, quoteChar_nameChar c (h c (List.mem_cons_self _ _)),
      ih (fun x hx => h x (List.mem_cons_of_mem _ hx))]
    rfl

/-- A valid name consists of name characters. -/
theorem isValid_nameChars (a : App) (h : a.isValid = true) :
    ∀ c ∈ a.Name.toList, isNameChar c = true := by
  revert h
  unfold App.isValid
  cases hn : a.Name.toList with
  | nil => simp
  | cons c cs =>
    intro h
    simp only [Bool.and_eq_true, List.all_eq_true, decide_eq_true_eq] at h
    intro x hx
    rcases List.mem_cons.1 hx with hx | hx
    · subst hx
      simp [isNameChar, h.1.1]
    · exact h.1.2 x hx

set_option maxRecDepth 100000 in
/-- The text of the duplicate-name error does not contain `key error`. -/
theorem duplicate_error_has_no_key_error (name : String)
    (h : ∀ c ∈ name.toList, isNameChar c = true) :
    stringsContains
      (GoError.appCreationError name "there is already an app with this name.").Error
      "key error" = false := by
  have htext : (GoError.appCreationError name "there is already an app with this name.").Error.toList
      = "Tsuru failed to create the app ".toList ++ Char.ofNat 34 ::
        (name.toList ++ Char.ofNat 34 :: ": there is already an app with this name.".toList) := by
    have hflat := flatMap_quoteChar name.toList h
    simp only [String.toList] at hflat
    simp only [GoError.Error, goQuote, String.toList, String.data_append, hflat]
    simp
  unfold stringsContains
  rw [htext]
  simp only [decide_eq_false_iff_not]
  intro hinfix
  have hq : Char.ofNat 34 ∉ "key error".toList := by decide
  rcases infix_of_separator _ _ _ _ hq hinfix with h1 | h1
  · revert h1; decide
  · rcases infix_of_separator _ _ _ _ hq h1 with h2 | h2
    · have hsp : ' ' ∈ name.toList := h2.subset (by decide)
      have := h ' ' hsp
      revert this
      decide
    · revert h2; decide

/-- When the user of the token is found the database connection works. -/
theorem User_ok_connErr {lib : Library} {w : World} {t : Token} {u : User}
    (h : t.User lib w = .ok u) : w.connErr = none := by
  unfold Token.User GetUserByEmail at h
  cases hc : w.connErr with
  | none => rfl
  | some e =>
    rw [hc] at h
    split at h <;> simp at h

/-- `CreateApp` on a valid name that is already stored. -/
theorem CreateApp_duplicate (b : Backend) (w : World) (a : App) (units : Nat) (teams : List Team)
    (hunits : units ≠ 0) (hteams : teams ≠ []) (hvalid : a.isValid = true)
    (hconn : w.connErr = none) (hdup : w.apps.any (fun x => x.Name == a.Name) = true) :
    CreateApp b w a units teams =
      (some (.appCreationError a.Name "there is already an app with this name."), a, w) := by
  simp [CreateApp, hunits, hteams, hvalid, hconn, hdup]

/-- For every valid name that is already stored, the handler hands the error of
`CreateApp` on as it is: the branch that answers 409 is not taken. -/
theorem createApp_duplicate_name_handed_on (lib : Library) (b : Backend) (w : World)
    (body : String) (t : Token) (japp : jsonApp) (u : User) (teams : List Team)
    (hjson : lib.Unmarshal body = .ok japp)
    (huser : t.User lib w = .ok u)
    (hteams : u.Teams w = .ok teams)
    (hmember : 1 ≤ teams.length)
    (hvalid : App.isValid { Name := japp.Name, Framework := japp.Framework } = true)
    (hdup : w.apps.any (fun x => x.Name == japp.Name) = true) :
    createApp lib (CreateApp b) w (.ok body) t =
      (some (.appCreationError japp.Name "there is already an app with this name."), w) := by
  have hlt : ¬ teams.length < 1 := by omega
  have hne : teams ≠ [] := by
    intro h
    simp [h] at hmember
  have hunits : (if japp.Units = 0 then 1 else japp.Units) ≠ 0 := by
    split <;> omega
  have hcreate := CreateApp_duplicate b w { Name := japp.Name, Framework := japp.Framework }
    (if japp.Units = 0 then 1 else japp.Units) teams hunits hne hvalid (User_ok_connErr huser) hdup
  have hno := duplicate_error_has_no_key_error japp.Name (isValid_nameChars _ hvalid)
  simp only [createApp, hjson, huser, hteams, hlt, if_false, hcreate, hno]
  simp

/-! ## The handlers -/

/-- C1: whenever `app.CreateApp` returns a `*errors.ValidationError`, the
`createApp` handler returns an HTTP error with status 412 (Precondition Failed)
whose message is exactly the message of the validation error. -/
theorem createApp_validation_error_is_precondition_failed
    (lib : Library)
    (CreateApp : World → App → Nat → List Team → Option GoError × App × World)
    (w : World) (body : String) (t : Token) (japp : jsonApp) (u : User) (teams : List Team)
    (Message : String) (a' : App) (w' : World)
    (hjson : lib.Unmarshal body = .ok japp)
    (huser : t.User lib w = .ok u)
    (hteams : u.Teams w = .ok teams)
    (hmember : 1 ≤ teams.length)
    (hcreate : CreateApp w { Name := japp.Name, Framework := japp.Framework }
      (if japp.Units = 0 then 1 else japp.Units) teams = (some (.ValidationError Message), a', w')) :
    createApp lib CreateApp w (.ok body) t = (some (.Http 412 Message), w') := by
  have hlt : ¬ teams.length < 1 := by omega
  simp [createApp, hjson, huser, hteams, hlt, hcreate, StatusPreconditionFailed]

/-- The invalid name `1123app`: the modelled `CreateApp` rejects it with a
validation error and the handler answers 412 with that message. -/
theorem createApp_validation_error_witness :
    createApp (fixedLibrary { Name := "1123app", Framework := "ruby" }) (CreateApp sampleBackend)
      sampleWorld (.ok "") sampleToken = (some (.Http 412 invalidAppNameMsg), sampleWorld) :=
  createApp_validation_error_is_precondition_failed
    (fixedLibrary { Name := "1123app", Framework := "ruby" }) (CreateApp sampleBackend)
    sampleWorld "" sampleToken { Name := "1123app", Framework := "ruby" }
    { Email := "whydidifall@thewho.com" }
    [{ Name := "tsuruteam", Users := ["whydidifall@thewho.com"] }]
    invalidAppNameMsg { Name := "1123app", Framework := "ruby" } sampleWorld
    rfl rfl rfl (by decide) rfl

/-- C2: creating `appname` while an app of that name is stored.  `CreateApp`
fails with the error `TestCantCreateTwoAppsWithTheSameName` asserts; its text
does not contain `key error`, so the handler hands that error on as it is
instead of answering 409 (Conflict). -/
theorem createApp_duplicate_name_is_not_conflict :
    CreateApp sampleBackend sampleWorld { Name := "appname" } 1
        [{ Name := "tsuruteam", Users := ["whydidifall@thewho.com"] }]
      = (some (.appCreationError "appname" "there is already an app with this name."),
          { Name := "appname" }, sampleWorld) ∧
    createApp (fixedLibrary { Name := "appname" }) (CreateApp sampleBackend)
        sampleWorld (.ok "") sampleToken
      = (some (.appCreationError "appname" "there is already an app with this name."),
          sampleWorld) ∧
    stringsContains
      "Tsuru failed to create the app \"appname\": there is already an app with this name."
      "key error" = false ∧
    createApp (fixedLibrary { Name := "appname" }) (CreateApp sampleBackend)
        sampleWorld (.ok "") sampleToken
      ≠ (some (.Http 409 "There is already an app named \"appname\"."), sampleWorld) := by
  have h := createApp_duplicate_name_handed_on (fixedLibrary { Name := "appname" }) sampleBackend
    sampleWorld "" sampleToken { Name := "appname" } { Email := "whydidifall@thewho.com" }
    [{ Name := "tsuruteam", Users := ["whydidifall@thewho.com"] }] rfl rfl rfl (by decide)
    (by decide) (by decide)
  refine ⟨by decide, h, duplicate_error_has_no_key_error "appname" (by decide), ?_⟩
  rw [h]
  decide

/-- C3: for an app with exactly one team, `revokeAccessFromTeam` answers 403
and leaves the world as it was, whatever `Revoke` would do (it is not called,
nothing is updated, the repository host is not contacted); and every stored
app that has a team before a call has one after it, whether the call succeeds
or fails. -/
theorem revokeAccessFromTeam_never_orphans
    (lib : Library) (w : World) (appName teamName : String) (t : Token) :
    (∀ (Revoke : App → Team → Option GoError × App) (u : User) (app : App) (team : Team),
        t.User lib w = .ok u → getApp w appName u = .ok app →
        findTeam w teamName = some team → app.Teams.length = 1 →
        revokeAccessFromTeam lib Revoke w appName teamName t =
          (some (.Http 403
            ("You can not revoke the access from this team, because it is the unique team with " ++
             "access to the app, and an app can not be orphaned")), w)) ∧
    List.Forall₂ (fun a a' => a.Teams ≠ [] → a'.Teams ≠ []) w.apps
      (revokeAccessFromTeam lib App.Revoke w appName teamName t).2.apps := by
  constructor
  · intro Revoke u app team huser happ hteam hone
    have hconn := getApp_ok_connErr happ
    simp [revokeAccessFromTeam, huser, happ, hconn, hteam, hone, StatusForbidden]
  · have hsame : List.Forall₂ (fun a a' : App => a.Teams ≠ [] → a'.Teams ≠ []) w.apps w.apps :=
      List.forall₂_same.2 (fun a _ h => h)
    unfold revokeAccessFromTeam
    cases huser : t.User lib w with
    | error e => exact hsame
    | ok u =>
      simp only
      cases happ : getApp w appName u with
      | error e => exact hsame
      | ok app =>
        simp only
        have hconn := getApp_ok_connErr happ
        simp only [hconn]
        cases hteam : findTeam w teamName with
        | none => exact hsame
        | some team =>
          simp only
          by_cases hone : app.Teams.length = 1
          · simp only [hone, if_true]
            exact hsame
          · simp only [hone, if_false]
            rcases hrev : App.Revoke app team with ⟨err, app'⟩
            cases err with
            | some e => exact hsame
            | none =>
              simp only
              have hlen' := Revoke_teams_length hrev
              have hfind := getApp_ok_find happ
              have hname : app'.Name = appName := by
                rw [Revoke_name hrev]
                simpa using List.find?_some hfind
              rw [hname]
              have hupd := @appsUpdate_forall₂ w app app' appName hfind
              have key : List.Forall₂ (fun a a' : App => a.Teams ≠ [] → a'.Teams ≠ []) w.apps
                  (appsUpdate w appName app').2.apps := by
                refine hupd.imp ?_
                rintro a b (hab | ⟨ha, hb⟩) hne
                · rw [hab]; exact hne
                · subst ha hb
                  intro h
                  have h0 : a.Teams.length ≠ 0 := fun h' => hne (List.length_eq_zero.1 h')
                  rw [h] at hlen'
                  simp at hlen'
                  omega
              rcases hu : appsUpdate w appName app' with ⟨uerr, w1⟩
              rw [hu] at key
              cases uerr with
              | some e => exact key
              | none =>
                simp only
                split
                · split
                  · exact key
                  · exact key
                · exact key

/-- The single team of `appname` cannot be revoked; with two teams the call
goes through and the stored app keeps a team. -/
theorem revokeAccessFromTeam_never_orphans_witness :
    revokeAccessFromTeam (fixedLibrary { }) App.Revoke sampleWorld "appname" "tsuruteam"
        sampleToken =
      (some (.Http 403
        ("You can not revoke the access from this team, because it is the unique team with " ++
         "access to the app, and an app can not be orphaned")), sampleWorld) ∧
    List.Forall₂ (fun a a' => a.Teams ≠ [] → a'.Teams ≠ []) twoTeamWorld.apps
      (revokeAccessFromTeam (fixedLibrary { }) App.Revoke twoTeamWorld "appname" "tsuruteam"
        sampleToken).2.apps ∧
    (revokeAccessFromTeam (fixedLibrary { }) App.Revoke twoTeamWorld "appname" "tsuruteam"
        sampleToken).2.apps = [{ Name := "appname", Teams := ["otherteam"] }] :=
  ⟨(revokeAccessFromTeam_never_orphans (fixedLibrary { }) sampleWorld "appname" "tsuruteam"
      sampleToken).1 App.Revoke { Email := "whydidifall@thewho.com" }
      { Name := "appname", Teams := ["tsuruteam"] }
      { Name := "tsuruteam", Users := ["whydidifall@thewho.com"] } rfl rfl rfl rfl,
   (revokeAccessFromTeam_never_orphans (fixedLibrary { }) twoTeamWorld "appname" "tsuruteam"
      sampleToken).2,
   by decide⟩

/-- C10: when `Grant` fails, `grantAccessToTeam` answers 409 (Conflict) with
the text of that error and leaves the world as it was (no update of the stored
app, no call to the repository host); for a team whose name is among the app's
teams `Grant` fails with `This team already has access to this app`. -/
theorem grantAccessToTeam_conflict
    (lib : Library) (w : World) (appName teamName : String) (t : Token)
    (u : User) (app : App) (team : Team)
    (huser : t.User lib w = .ok u) (happ : getApp w appName u = .ok app)
    (hteam : findTeam w teamName = some team) :
    (∀ (Grant : App → Team → Option GoError × App) (err : GoError) (app' : App),
        Grant app team = (some err, app') →
        grantAccessToTeam lib Grant w appName teamName t = (some (.Http 409 err.Error), w)) ∧
    (team.Name ∈ app.Teams →
        App.Grant app team = (some (.errorString "This team already has access to this app"), app) ∧
        grantAccessToTeam lib App.Grant w appName teamName t =
          (some (.Http 409 "This team already has access to this app"), w)) := by
  have hconn := getApp_ok_connErr happ
  have gen : ∀ (Grant : App → Team → Option GoError × App) (err : GoError) (app' : App),
        Grant app team = (some err, app') →
        grantAccessToTeam lib Grant w appName teamName t = (some (.Http 409 err.Error), w) := by
    intro Grant err app' hgrant
    simp [grantAccessToTeam, huser, happ, hconn, hteam, hgrant, StatusConflict]
  refine ⟨gen, fun hmem => ?_⟩
  have hg : App.Grant app team =
      (some (.errorString "This team already has access to this app"), app) := by
    simp [App.Grant, App.find, hmem]
  exact ⟨hg, gen App.Grant _ _ hg⟩

/-- Granting `tsuruteam` access to `appname` a second time. -/
theorem grantAccessToTeam_conflict_witness :
    grantAccessToTeam (fixedLibrary { }) App.Grant sampleWorld "appname" "tsuruteam" sampleToken =
      (some (.Http 409 "This team already has access to this app"), sampleWorld) :=
  ((grantAccessToTeam_conflict (fixedLibrary { }) sampleWorld "appname" "tsuruteam" sampleToken
    { Email := "whydidifall@thewho.com" } { Name := "appname", Teams := ["tsuruteam"] }
    { Name := "tsuruteam", Users := ["whydidifall@thewho.com"] } rfl rfl rfl).2 (by decide)).2

/-! ## Removing units -/

/-- With no index given every unit is kept. -/
theorem unitsNotAt_nil (start : Nat) (units : List Unit) : unitsNotAt start units [] = units := by
  induction units generalizing start with
  | nil => rfl
  | cons x l ih =>
    have := ih (start + 1)
    simp only [unitsNotAt] at this ⊢
    simp [List.enumFrom_cons, this]

/-- An index before the first unit does not matter. -/
theorem unitsNotAt_cons_skip (start idx : Nat) (units : List Unit) (rest : List Nat)
    (h : idx < start) : unitsNotAt start units (idx :: rest) = unitsNotAt start units rest := by
  unfold unitsNotAt
  congr 1
  apply List.filter_congr
  intro p hp
  have := List.le_fst_of_mem_enumFrom hp
  have hne : p.1 ≠ idx := by omega
  simp [hne]

/-- When every index lies behind the first unit, that unit stays in front and the
loop works on the rest. -/
theorem removeUnitsFrom_cons (indices : List Nat) :
    ∀ (i : Nat) (l : List Unit) (x : Unit), indices.Sorted (· < ·) →
      (∀ idx ∈ indices, i < idx ∧ idx < i + (l.length + 1)) →
      removeUnitsFrom i (x :: l) indices = x :: removeUnitsFrom (i + 1) l indices := by
  induction indices with
  | nil => intro i l x _ _; rfl
  | cons idx rest ih =>
    intro i l x hs hr
    have hidx := hr idx (List.mem_cons_self _ _)
    obtain ⟨q, hq⟩ : ∃ q, idx - i = q + 1 := ⟨idx - i - 1, by omega⟩
    have hq' : idx - (i + 1) = q := by omega
    have hql : q < l.length := by omega
    have hrest : ∀ r ∈ rest, idx < r := fun r hr' => List.rel_of_sorted_cons hs r hr'
    simp only [removeUnitsFrom, hq, hq', List.length_cons]
    by_cases hc : q + 1 < l.length
    · have hc' : q + 1 + 1 < l.length + 1 := by omega
      simp only [hc, hc', if_true, List.eraseIdx_cons_succ]
      apply ih (i + 1) (l.eraseIdx q) x hs.of_cons
      intro r hr'
      have h1 := hrest r hr'
      have h2 := hr r (List.mem_cons_of_mem _ hr')
      rw [List.length_eraseIdx_of_lt hql]
      omega
    · have hc' : ¬ q + 1 + 1 < l.length + 1 := by omega
      have hne : l ≠ [] := by
        intro h; rw [h] at hql; simp at hql
      simp only [hc, hc', if_false, List.dropLast_cons_of_ne_nil hne]
      apply ih (i + 1) l.dropLast x hs.of_cons
      intro r hr'
      have h1 := hrest r hr'
      have h2 := hr r (List.mem_cons_of_mem _ hr')
      rw [List.length_dropLast]
      omega

/-- The compaction loop on strictly ascending indices within range keeps exactly
the units at the other indices. -/
theorem removeUnitsFrom_eq_unitsNotAt (l : List Unit) :
    ∀ (i : Nat) (indices : List Nat), indices.Sorted (· < ·) →
      (∀ idx ∈ indices, i ≤ idx ∧ idx < i + l.length) →
      removeUnitsFrom i l indices = unitsNotAt i l indices := by
  induction l with
  | nil =>
    intro i indices _ hr
    cases indices with
    | nil => rfl
    | cons idx rest =>
      have := hr idx (List.mem_cons_self _ _)
      simp at this
      omega
  | cons x l ih =>
    intro i indices hs hr
    cases indices with
    | nil => rw [unitsNotAt_nil]; rfl
    | cons idx rest =>
      have hidx := hr idx (List.mem_cons_self _ _)
      have hrest : ∀ r ∈ rest, idx < r := fun r hr' => List.rel_of_sorted_cons hs r hr'
      by_cases hi : idx = i
      · subst hi
        have hstep : removeUnitsFrom idx (x :: l) (idx :: rest) = removeUnitsFrom (idx + 1) l rest := by
          simp only [removeUnitsFrom, Nat.sub_self, List.length_cons, List.eraseIdx_cons_zero]
          by_cases hc : 0 + 1 < l.length + 1
          · simp [hc]
          · have : l = [] := List.length_eq_zero.1 (by omega)
            subst this
            simp
        rw [hstep, ih (idx + 1) rest hs.of_cons]
        · have hspec : unitsNotAt idx (x :: l) (idx :: rest) = unitsNotAt (idx + 1) l (idx :: rest) := by
            simp [unitsNotAt, List.enumFrom_cons]
          rw [hspec, unitsNotAt_cons_skip _ _ _ _ (Nat.lt_succ_self idx)]
        · intro r hr'
          have h1 := hrest r hr'
          have h2 := hr r (List.mem_cons_of_mem _ hr')
          simp only [List.length_cons] at h2
          omega
      · have hall : ∀ r ∈ idx :: rest, i < r ∧ r < i + (l.length + 1) := by
          intro r hr'
          have h2 := hr r hr'
          simp only [List.length_cons] at h2
          rcases List.mem_cons.1 hr' with h | h
          · subst h; omega
          · have := hrest r h; omega
        rw [removeUnitsFrom_cons (idx :: rest) i l x hs hall, ih (i + 1) (idx :: rest) hs]
        · have hnot : i ∉ idx :: rest := fun hmem => by
            have := (hall i hmem).1
            omega
          have h1 : i ≠ idx := fun h => hnot (h ▸ List.mem_cons_self _ _)
          have h2 : i ∉ rest := fun h => hnot (List.mem_cons_of_mem _ h)
          simp [unitsNotAt, List.enumFrom_cons, List.filter_cons, h1, h2]
        · intro r hr'
          have := hall r hr'
          omega

/-- C4: for an app with at least one unit, `RemoveUnits(n)` fails with its own
message when `n` is zero, when `n` is the number of units, and when `n` is
greater than the number of units; in each case the app comes back as it was,
whatever the provisioner would have answered. -/
theorem RemoveUnits_invalid_values (other : String → Nat) (RemoveUnit : Unit → Option GoError)
    (a : App) (n : Nat) (hM : 1 ≤ a.Units.length) :
    (n = 0 → a.RemoveUnits other RemoveUnit n =
        (some (.errorString "Cannot remove zero units."), a)) ∧
    (n = a.Units.length → a.RemoveUnits other RemoveUnit n =
        (some (.errorString "Cannot remove all units from an app."), a)) ∧
    (n > a.Units.length → a.RemoveUnits other RemoveUnit n =
        (some (.errorString ("Cannot remove " ++ toString n ++
          " units from this app, it has only " ++ toString a.Units.length ++ " units.")), a)) := by
  refine ⟨fun h0 => ?_, fun hall => ?_, fun hgt => ?_⟩
  · simp [App.RemoveUnits, h0]
  · have hn : n ≠ 0 := by omega
    have hne : a.Units ≠ [] := by
      intro h
      simp [h] at hM
    simp [App.RemoveUnits, hn, hall, hne]
  · have hn : n ≠ 0 := by omega
    have hne : a.Units.length ≠ n := by omega
    simp [App.RemoveUnits, hn, hne, hgt]

/-- The three rows of `TestRemoveUnitsInvalidValues` on the four units of
`chemistry`. -/
theorem RemoveUnits_invalid_values_witness :
    chemistry.RemoveUnits (fun _ => 0) (fun _ => none) 0 =
      (some (.errorString "Cannot remove zero units."), chemistry) ∧
    chemistry.RemoveUnits (fun _ => 0) (fun _ => none) 4 =
      (some (.errorString "Cannot remove all units from an app."), chemistry) ∧
    chemistry.RemoveUnits (fun _ => 0) (fun _ => none) 5 =
      (some (.errorString "Cannot remove 5 units from this app, it has only 4 units."), chemistry) :=
  ⟨(RemoveUnits_invalid_values (fun _ => 0) (fun _ => none) chemistry 0 (by decide)).1 rfl,
   (RemoveUnits_invalid_values (fun _ => 0) (fun _ => none) chemistry 4 (by decide)).2.1 rfl,
   (RemoveUnits_invalid_values (fun _ => 0) (fun _ => none) chemistry 5 (by decide)).2.2 (by decide)⟩

/-- C6: for a strictly ascending list of indices within range, `removeUnits`
leaves exactly the units whose index is not in the list, in their original
order. -/
theorem removeUnits_is_stable_compaction (a : App) (indices : List Nat)
    (hasc : indices.Sorted (· < ·)) (hrange : ∀ i ∈ indices, i < a.Units.length) :
    (a.removeUnits indices).Units =
      ((a.Units.enum.filter (fun p => decide (p.1 ∉ indices))).map Prod.snd) := by
  have := removeUnitsFrom_eq_unitsNotAt a.Units 0 indices hasc
    (fun idx h => ⟨Nat.zero_le _, by simpa using hrange idx h⟩)
  simpa [App.removeUnits, unitsNotAt, List.enum] using this

/-- The first row of `TestRemoveUnitsFromIndicesSlice`. -/
theorem removeUnits_is_stable_compaction_witness :
    (App.removeUnits { Units := [{ Name := "unit1" }, { Name := "unit2" }, { Name := "unit3" },
        { Name := "unit4" }] } [0, 1, 2]).Units = [{ Name := "unit4" }] :=
  removeUnits_is_stable_compaction _ [0, 1, 2] (by decide) (by decide)

/-- The removal order lists every index once. -/
theorem removalOrder_perm (other : String → Nat) (units : List Unit) :
    (removalOrder other units).Perm (List.range units.length) :=
  List.perm_insertionSort _ _

/-- The removal order is sorted by the removal priority. -/
theorem removalOrder_sorted (other : String → Nat) (units : List Unit) :
    (removalOrder other units).Sorted (removedBefore other units) :=
  List.sorted_insertionSort _ _

/-- There is one listing of the indices sorted by the removal priority. -/
theorem removalOrder_unique (other : String → Nat) (units : List Unit) (order : List Nat)
    (hperm : order.Perm (List.range units.length))
    (hsorted : order.Sorted (removedBefore other units)) : order = removalOrder other units :=
  List.eq_of_perm_of_sorted (hperm.trans (removalOrder_perm other units).symm) hsorted
    (removalOrder_sorted other units)

/-- The removal order has one entry per unit. -/
theorem removalOrder_length (other : String → Nat) (units : List Unit) :
    (removalOrder other units).length = units.length := by
  simpa using (removalOrder_perm other units).length_eq

/-- No index occurs twice in the removal order. -/
theorem removalOrder_nodup (other : String → Nat) (units : List Unit) :
    (removalOrder other units).Nodup :=
  (removalOrder_perm other units).nodup_iff.2 (List.nodup_range _)

/-- The removal order holds indices of units only. -/
theorem removalOrder_lt (other : String → Nat) (units : List Unit) :
    ∀ i ∈ removalOrder other units, i < units.length := by
  intro i hi
  exact List.mem_range.1 ((removalOrder_perm other units).mem_iff.1 hi)

/-- When no removal fails the provisioner has removed all chosen units. -/
theorem deprovision_ok (RemoveUnit : Unit → Option GoError) (units : List Unit) :
    ∀ chosen : List Nat, (∀ i ∈ chosen, i < units.length) →
      (deprovision RemoveUnit units chosen).2 = none →
      (deprovision RemoveUnit units chosen).1 = chosen := by
  intro chosen
  induction chosen with
  | nil => intro _ _; rfl
  | cons i rest ih =>
    intro hr hok
    have hi : i < units.length := hr i (List.mem_cons_self _ _)
    have hget : units[i]? = some units[i] := List.getElem?_eq_getElem hi
    unfold deprovision at hok ⊢
    simp only [hget] at hok ⊢
    cases hR : RemoveUnit units[i] with
    | some e => simp [hR] at hok
    | none =>
      simp only [hR, Prod.map_snd, id_eq, Prod.map_fst] at hok ⊢
      rw [ih (fun j hj => hr j (List.mem_cons_of_mem _ hj)) hok]

/-- Only the set of indices matters. -/
theorem unitsNotAt_congr (start : Nat) (units : List Unit) (s t : List Nat)
    (h : ∀ i, i ∈ s ↔ i ∈ t) : unitsNotAt start units s = unitsNotAt start units t := by
  unfold unitsNotAt
  congr 1
  apply List.filter_congr
  intro p _
  simp [h p.1]

/-- Each round of the compaction loop shortens the sequence by one. -/
theorem removeUnitsFrom_length (indices : List Nat) :
    ∀ (i : Nat) (l : List Unit), (removeUnitsFrom i l indices).length = l.length - indices.length := by
  induction indices with
  | nil => intro i l; rfl
  | cons idx rest ih =>
    intro i l
    simp only [removeUnitsFrom, ih, List.length_cons]
    split
    · rw [List.length_eraseIdx_of_lt (by omega)]
      omega
    · rw [List.length_dropLast]
      omega

/-- What a successful `RemoveUnits` leaves. -/
theorem RemoveUnits_ok (other : String → Nat) (RemoveUnit : Unit → Option GoError)
    (a : App) (n : Nat) (hn : 0 < n) (hlt : n < a.Units.length)
    (hok : (a.RemoveUnits other RemoveUnit n).1 = none) :
    (a.RemoveUnits other RemoveUnit n).2.Units =
        unitsNotAt 0 a.Units ((removalOrder other a.Units).take n) ∧
    (a.RemoveUnits other RemoveUnit n).2.Units.length = a.Units.length - n := by
  have h0 : n ≠ 0 := by omega
  have h1 : a.Units.length ≠ n := by omega
  have h2 : ¬ n > a.Units.length := by omega
  have hin : ∀ i ∈ (removalOrder other a.Units).take n, i < a.Units.length :=
    fun i hi => removalOrder_lt other a.Units i (List.mem_of_mem_take hi)
  unfold App.RemoveUnits at hok ⊢
  simp only [h0, h1, h2, if_false] at hok ⊢
  have hdone := deprovision_ok RemoveUnit a.Units _ hin hok
  rcases hd : deprovision RemoveUnit a.Units ((removalOrder other a.Units).take n) with ⟨removed, err⟩
  rw [hd] at hdone
  simp only at hdone
  subst hdone
  simp only [App.removeUnits]
  have hperm := List.perm_insertionSort (fun i j : Nat => i ≤ j) ((removalOrder other a.Units).take n)
  have hnodup : (((removalOrder other a.Units).take n).insertionSort (fun i j : Nat => i ≤ j)).Nodup :=
    hperm.nodup_iff.2 ((removalOrder_nodup other a.Units).sublist (List.take_sublist _ _))
  have hsorted : (((removalOrder other a.Units).take n).insertionSort (fun i j : Nat => i ≤ j)).Sorted
      (· < ·) := by
    have hle := List.sorted_insertionSort (fun i j : Nat => i ≤ j) ((removalOrder other a.Units).take n)
    exact (List.Sorted.lt_of_le hle hnodup)
  constructor
  · rw [removeUnitsFrom_eq_unitsNotAt a.Units 0 _ hsorted]
    · exact unitsNotAt_congr 0 a.Units _ _ (fun i => hperm.mem_iff)
    · intro idx hidx
      exact ⟨Nat.zero_le _, by simpa using hin idx (hperm.mem_iff.1 hidx)⟩
  · rw [removeUnitsFrom_length, hperm.length_eq, List.length_take, removalOrder_length]
    omega

/-- The kept units are a subsequence of the units. -/
theorem unitsNotAt_sublist (start : Nat) (units : List Unit) (indices : List Nat) :
    (unitsNotAt start units indices).Sublist units := by
  have h : ((units.enumFrom start).map Prod.snd) = units := List.enumFrom_map_snd _ _
  unfold unitsNotAt
  calc (((units.enumFrom start).filter (fun p => decide (p.1 ∉ indices))).map Prod.snd).Sublist
        ((units.enumFrom start).map Prod.snd) := (List.filter_sublist _).map _
    _ = units := h

/-- A unit whose index is not given is kept. -/
theorem mem_unitsNotAt (units : List Unit) (indices : List Nat) (i : Nat) (hi : i < units.length)
    (hnot : i ∉ indices) : units[i] ∈ unitsNotAt 0 units indices := by
  unfold unitsNotAt
  apply List.mem_map.2
  refine ⟨(i, units[i]), List.mem_filter.2 ⟨?_, by simpa using hnot⟩, rfl⟩
  rw [List.mk_mem_enumFrom_iff_le_and_getElem?_sub]
  simp [List.getElem?_eq_getElem hi]

/-- A unit heavier than all others is the last to be removed. -/
theorem heaviest_not_in_take (other : String → Nat) (units : List Unit) (n i : Nat)
    (hlt : n < units.length) (hi : i < units.length)
    (hmax : ∀ j, j < units.length → j ≠ i →
      unitWeight other units j < unitWeight other units i) :
    i ∉ (removalOrder other units).take n := by
  intro hmem
  have hsplit := List.take_append_drop n (removalOrder other units)
  have hsorted := removalOrder_sorted other units
  have hnodup := removalOrder_nodup other units
  rw [← hsplit] at hsorted hnodup
  have hdrop : (removalOrder other units).drop n ≠ [] := by
    intro h
    have := congrArg List.length h
    simp [removalOrder_length] at this
    omega
  obtain ⟨j, hj⟩ := List.exists_mem_of_ne_nil _ hdrop
  have hrel : removedBefore other units i j :=
    (List.pairwise_append.1 hsorted).2.2 i hmem j hj
  have hne : j ≠ i := by
    intro h
    subst h
    exact (List.nodup_append.1 hnodup).2.2 hmem hj
  have hjlt : j < units.length := removalOrder_lt other units j (List.mem_of_mem_drop hj)
  have := hmax j hjlt hne
  unfold removedBefore at hrel
  omega

/-- A successful `RemoveUnits` keeps a unit that is heavier than all others. -/
theorem RemoveUnits_keeps_heaviest (other : String → Nat) (RemoveUnit : Unit → Option GoError)
    (a : App) (n : Nat) (hn : 0 < n) (hlt : n < a.Units.length)
    (hok : (a.RemoveUnits other RemoveUnit n).1 = none) (i : Nat) (hi : i < a.Units.length)
    (hmax : ∀ j, j < a.Units.length → j ≠ i →
      unitWeight other a.Units j < unitWeight other a.Units i) :
    a.Units[i] ∈ (a.RemoveUnits other RemoveUnit n).2.Units := by
  rw [(RemoveUnits_ok other RemoveUnit a n hn hlt hok).1]
  exact mem_unitsNotAt _ _ i hi (heaviest_not_in_take other a.Units n i hlt hi hmax)

/-- Among the six statuses `started` is the heaviest. -/
theorem statusWeight_lt_started (other : String → Nat) (s : String) (hs : s ∈ priorityStatuses)
    (hne : s ≠ "started") : statusWeight other s < statusWeight other "started" := by
  simp only [priorityStatuses, List.mem_cons, List.mem_singleton, List.not_mem_nil, or_false] at hs
  rcases hs with h | h | h | h | h | h
  all_goals first | (subst h; exact absurd rfl hne) | (subst h; simp [statusWeight])

/-- One step: among units with distinct statuses out of the six, a successful
removal keeps the started unit. -/
theorem RemoveUnits_keeps_started (other : String → Nat) (RemoveUnit : Unit → Option GoError)
    (a : App) (n : Nat) (hn : 0 < n) (hlt : n < a.Units.length)
    (hok : (a.RemoveUnits other RemoveUnit n).1 = none)
    (hnodup : (a.Units.map (fun u => u.State)).Nodup)
    (hsix : ∀ u ∈ a.Units, u.State ∈ priorityStatuses)
    (u : Unit) (hu : u ∈ a.Units) (hstarted : u.State = "started") :
    u ∈ (a.RemoveUnits other RemoveUnit n).2.Units ∧
    (a.RemoveUnits other RemoveUnit n).2.Units.Sublist a.Units ∧
    (a.RemoveUnits other RemoveUnit n).2.Units.length = a.Units.length - n := by
  have hres := RemoveUnits_ok other RemoveUnit a n hn hlt hok
  refine ⟨?_, ?_, hres.2⟩
  · obtain ⟨i, hi, hget⟩ := List.getElem_of_mem hu
    have hmax : ∀ j, j < a.Units.length → j ≠ i →
        unitWeight other a.Units j < unitWeight other a.Units i := by
      intro j hj hne
      have hwj : unitWeight other a.Units j = statusWeight other a.Units[j].State := by
        simp [unitWeight, List.getElem?_eq_getElem hj]
      have hwi : unitWeight other a.Units i = statusWeight other "started" := by
        simp [unitWeight, List.getElem?_eq_getElem hi, hget, hstarted]
      rw [hwj, hwi]
      apply statusWeight_lt_started other _ (hsix _ (List.getElem_mem hj))
      intro hst
      apply hne
      have hj' : j < (a.Units.map (fun u => u.State)).length := by simpa using hj
      have hi' : i < (a.Units.map (fun u => u.State)).length := by simpa using hi
      have heq : (a.Units.map (fun u => u.State))[j] = (a.Units.map (fun u => u.State))[i] := by
        simp [hst, hget, hstarted]
      exact (List.Nodup.getElem_inj_iff hnodup).1 heq
    have := RemoveUnits_keeps_heaviest other RemoveUnit a n hn hlt hok i hi hmax
    rwa [hget] at this
  · rw [hres.1]
    exact unitsNotAt_sublist 0 a.Units _

/-- Removing the units one by one until one is left leaves the started unit. -/
theorem removeOneByOne_leaves_started (other : String → Nat) (RemoveUnit : Unit → Option GoError)
    (u : Unit) (hstarted : u.State = "started") :
    ∀ (k : Nat) (a : App), a.Units.length = k + 1 →
      (a.Units.map (fun u => u.State)).Nodup → (∀ v ∈ a.Units, v.State ∈ priorityStatuses) →
      u ∈ a.Units → (removeOneByOne other RemoveUnit k a).1 = none →
      (removeOneByOne other RemoveUnit k a).2.Units = [u] := by
  intro k
  induction k with
  | zero =>
    intro a hlen _ _ hu _
    simp only [removeOneByOne]
    obtain ⟨v, hv⟩ := List.length_eq_one.1 hlen
    rw [hv] at hu ⊢
    rw [List.mem_singleton.1 hu]
  | succ k ih =>
    intro a hlen hnodup hsix hu hok
    unfold removeOneByOne at hok ⊢
    rcases hr : a.RemoveUnits other RemoveUnit 1 with ⟨err, a'⟩
    rw [hr] at hok
    cases err with
    | some e => simp at hok
    | none =>
      simp only at hok ⊢
      have hok1 : (a.RemoveUnits other RemoveUnit 1).1 = none := by rw [hr]
      have hstep := RemoveUnits_keeps_started other RemoveUnit a 1 (by omega) (by omega) hok1
        hnodup hsix u hu hstarted
      rw [hr] at hstep
      simp only at hstep
      apply ih a' (by omega) ((hstep.2.1.map _).nodup hnodup)
        (fun v hv => hsix v (hstep.2.1.subset hv)) hstep.1 hok

/-- C5: when `RemoveUnits(n)` succeeds for `0 < n <` number of units, the units
left are exactly those whose index is not among the first `n` of the units
listed in removal priority (by status weight, ties by ascending index), in
their original order; and for an app with one unit in each of the six statuses,
removing five units at once or one after the other leaves exactly the started
unit. -/
theorem RemoveUnits_removes_by_priority (other : String → Nat)
    (RemoveUnit : Unit → Option GoError) (a : App) :
    (∀ n, 0 < n → n < a.Units.length → (a.RemoveUnits other RemoveUnit n).1 = none →
      ∀ order : List Nat, order.Perm (List.range a.Units.length) →
        order.Sorted (removedBefore other a.Units) →
        (a.RemoveUnits other RemoveUnit n).2.Units =
          (a.Units.enum.filter (fun p => decide (p.1 ∉ order.take n))).map Prod.snd) ∧
    ((a.Units.map (fun u => u.State)).Perm priorityStatuses →
      ∃ u ∈ a.Units, u.State = "started" ∧
        ((a.RemoveUnits other RemoveUnit 5).1 = none →
          (a.RemoveUnits other RemoveUnit 5).2.Units = [u]) ∧
        ((removeOneByOne other RemoveUnit 5 a).1 = none →
          (removeOneByOne other RemoveUnit 5 a).2.Units = [u])) := by
  constructor
  · intro n hn hlt hok order hperm hsorted
    rw [removalOrder_unique other a.Units order hperm hsorted]
    exact (RemoveUnits_ok other RemoveUnit a n hn hlt hok).1
  · intro hperm
    have hlen : a.Units.length = 6 := by
      have := hperm.length_eq
      simpa [priorityStatuses] using this
    have hnodup : (a.Units.map (fun u => u.State)).Nodup :=
      hperm.nodup_iff.2 (by decide)
    have hsix : ∀ v ∈ a.Units, v.State ∈ priorityStatuses := fun v hv =>
      hperm.mem_iff.1 (List.mem_map_of_mem _ hv)
    have hst : "started" ∈ a.Units.map (fun u => u.State) :=
      hperm.mem_iff.2 (by decide)
    obtain ⟨u, hu, hstarted⟩ := List.mem_map.1 hst
    refine ⟨u, hu, hstarted, fun hok => ?_, fun hok =>
      removeOneByOne_leaves_started other RemoveUnit u hstarted 5 a hlen hnodup hsix hu hok⟩
    have hstep := RemoveUnits_keeps_started other RemoveUnit a 5 (by omega) (by omega) hok
      hnodup hsix u hu hstarted
    obtain ⟨v, hv⟩ := List.length_eq_one.1 (show _ = 1 by rw [hstep.2.2, hlen])
    have := hstep.1
    rw [hv] at this ⊢
    rw [List.mem_singleton.1 this]

/-- The units of `TestRemoveUnitsPriority`: the removal order is error, down,
pending, creating, installing, started; removing two units takes `ble/4` and
`ble/1`, and removing five leaves the started unit. -/
theorem RemoveUnits_removes_by_priority_witness :
    (ble.RemoveUnits (fun _ => 0) (fun _ => none) 2).2.Units =
      [{ Name := "ble/0", State := "started" }, { Name := "ble/2", State := "creating" },
       { Name := "ble/3", State := "pending" }, { Name := "ble/5", State := "installing" }] ∧
    (ble.RemoveUnits (fun _ => 0) (fun _ => none) 5).2.Units.map (fun u => u.State) =
      ["started"] ∧
    (removeOneByOne (fun _ => 0) (fun _ => none) 5 ble).2.Units.map (fun u => u.State) =
      ["started"] := by
  have h := RemoveUnits_removes_by_priority (fun _ => 0) (fun _ => none) ble
  refine ⟨?_, ?_, ?_⟩
  · rw [h.1 2 (by decide) (by decide) (by decide) [4, 1, 3, 2, 5, 0] (by decide) (by decide)]
    decide
  · obtain ⟨u, _, hstarted, h5, _⟩ := h.2 (by decide)
    rw [h5 (by decide)]
    simp [hstarted]
  · obtain ⟨u, _, hstarted, _, h1⟩ := h.2 (by decide)
    rw [h1 (by decide)]
    simp [hstarted]

/-! ## Teams and names -/

/-- The order used for team names is the order of `String`. -/
theorem lexLE_iff_le (a b : String) : lexLE a b ↔ a ≤ b := String.le_iff_toList_le.symm

/-- C9: for an app whose teams are sorted lexicographically, `Grant` of a team
whose name is not among them succeeds, the teams become the old names and the
new one, sorted, and nothing else of the app changes; `Grant` of a team whose
name is among them fails with `This team already has access to this app` and
the app is unchanged. -/
theorem Grant_keeps_teams_sorted (a : App) (team : Team) (hsorted : a.Teams.Sorted lexLE) :
    (team.Name ∉ a.Teams →
        (a.Grant team).1 = none ∧
        (a.Grant team).2.Teams.Perm (team.Name :: a.Teams) ∧
        (a.Grant team).2.Teams.Sorted lexLE ∧
        (a.Grant team).2 = { a with Teams := (a.Grant team).2.Teams }) ∧
    (team.Name ∈ a.Teams →
        a.Grant team = (some (.errorString "This team already has access to this app"), a)) := by
  constructor
  · intro hnot
    have hg : a.Grant team = (none, { a with Teams := a.Teams.orderedInsert lexLE team.Name }) := by
      simp [App.Grant, App.find, hnot]
    rw [hg]
    exact ⟨rfl, List.perm_orderedInsert _ _ _, hsorted.orderedInsert _ _, rfl⟩
  · intro hmem
    simp [App.Grant, App.find, hmem]

/-- The apps of `TestGrantAccessKeepTeamsSorted` and
`TestGrantAccessFailsIfTheTeamAlreadyHasAccessToTheApp`. -/
theorem Grant_keeps_teams_sorted_witness :
    (sortedTeamsApp.Grant { Name := "tsuruteam" }).2.Teams = ["acid-rain", "tsuruteam", "zito"] ∧
    (sortedTeamsApp.Grant { Name := "tsuruteam" }).2.Teams.Sorted lexLE ∧
    grantedApp.Grant { Name := "tsuruteam" } =
      (some (.errorString "This team already has access to this app"), grantedApp) :=
  ⟨by decide,
   ((Grant_keeps_teams_sorted sortedTeamsApp { Name := "tsuruteam" } (by decide)).1
      (by decide)).2.2.1,
   (Grant_keeps_teams_sorted grantedApp { Name := "tsuruteam" } (by decide)).2 (by decide)⟩

/-- C7, as stated, fails: `my-app` is a valid name (`TestIsValid` expects so)
and `CreateApp` accepts it, although it does not consist of lowercase letters
and digits only. -/
theorem isValid_accepts_hyphen :
    App.isValid { Name := "my-app" } = true ∧
    (CreateApp sampleBackend { } { Name := "my-app" } 1 [{ Name := "tsuruteam" }]).1 = none ∧
    ¬ (∀ c ∈ "my-app".toList, c.isLower = true ∨ c.isDigit = true) := by
  decide

/-- C7, amended: a name is valid exactly when it consists of lowercase
letters, digits and hyphens, starts with a lowercase letter and has at most 63
characters; and for a creation with at least one unit and one team, `CreateApp`
rejects the name with the `ValidationError` `Invalid app name, ...` exactly
when it is not valid. -/
theorem isValid_iff_grammar (a : App) :
    (a.isValid = true ↔
      ((∀ c ∈ a.Name.toList, c.isLower = true ∨ c.isDigit = true ∨ c = '-') ∧
        (∃ c, a.Name.toList.head? = some c ∧ c.isLower = true) ∧
        a.Name.length ≤ 63)) ∧
    (∀ (b : Backend) (w : World) (units : Nat) (teams : List Team),
      1 ≤ units → 1 ≤ teams.length →
      ((CreateApp b w a units teams).1 = some (.ValidationError invalidAppNameMsg) ↔
        a.isValid = false)) := by
  constructor
  · have hlen : a.Name.length = a.Name.toList.length := rfl
    rw [hlen]
    unfold App.isValid
    cases hn : a.Name.toList with
    | nil => simp
    | cons c cs =>
      simp only [Bool.and_eq_true, List.all_eq_true, decide_eq_true_eq, List.mem_cons,
        List.head?_cons, Option.some.injEq, exists_eq_left', List.length_cons, isNameChar,
        Bool.or_eq_true, beq_iff_eq, forall_eq_or_imp]
      constructor
      · rintro ⟨⟨h1, h2⟩, h3⟩
        refine ⟨⟨Or.inl h1, fun x hx => ?_⟩, h1, by omega⟩
        rcases h2 x hx with (h | h) | h
        · exact Or.inl h
        · exact Or.inr (Or.inl h)
        · exact Or.inr (Or.inr h)
      · rintro ⟨⟨_, h2⟩, h1, h3⟩
        refine ⟨⟨h1, fun x hx => ?_⟩, by omega⟩
        rcases h2 x hx with h | h | h
        · exact Or.inl (Or.inl h)
        · exact Or.inl (Or.inr h)
        · exact Or.inr h
  · intro b w units teams hu ht
    have hu' : units ≠ 0 := by omega
    have ht' : teams ≠ [] := by
      intro h; simp [h] at ht
    unfold CreateApp
    cases hv : a.isValid with
    | false => simp [hu', ht']
    | true =>
      simp only [hu', ht', if_false, List.length_eq_zero, Bool.not_true, Bool.false_eq_true]
      cases hc : w.connErr with
      | some e => simp
      | none =>
        simp only
        split
        · simp
        · split <;> simp

/-- The name `myapp` is valid; `1123app` is rejected by `CreateApp`
(`TestCantCreateAppWithInvalidName`). -/
theorem isValid_iff_grammar_witness :
    App.isValid { Name := "myapp" } = true ∧
    (CreateApp sampleBackend { } { Name := "1123app", Framework := "ruby" } 1
      [{ Name := "tsuruteam" }]).1 = some (.ValidationError invalidAppNameMsg) :=
  ⟨(isValid_iff_grammar { Name := "myapp" }).1.2 ⟨by decide, ⟨'m', rfl, rfl⟩, by decide⟩,
   ((isValid_iff_grammar { Name := "1123app", Framework := "ruby" }).2 sampleBackend { } 1
      [{ Name := "tsuruteam" }] (by decide) (by decide)).2 (by decide)⟩

/-! ## Environment variables -/

/-- Lookup after the entries of one name have been dropped. -/
theorem lookup_filter_ne (name k : String) (l : List (String × EnvVar)) :
    (l.filter (fun p => p.1 != name)).lookup k = if k = name then none else l.lookup k := by
  induction l with
  | nil => simp
  | cons p l ih =>
    obtain ⟨n, e⟩ := p
    by_cases hn : n = name
    · subst hn
      by_cases hk : k = n
      · subst hk
        simpa [List.filter_cons] using ih
      · have hk' : (k == n) = false := by simpa using hk
        simp only [List.filter_cons, bne_self_eq_false, Bool.false_eq_true, if_false, ih,
          List.lookup_cons, hk']
    · have hn' : (n != name) = true := by simpa using hn
      simp only [List.filter_cons, hn', if_true, List.lookup_cons, ih]
      by_cases hk : k = n
      · subst hk
        simp [hn]
      · have hk' : (k == n) = false := by simpa using hk
        simp [hk']

/-- `setEnv` is the map assignment. -/
theorem lookupEnv_setEnv (a : App) (env : EnvVar) (k : String) :
    (a.setEnv env).lookupEnv k = if k = env.Name then some env else a.lookupEnv k := by
  unfold App.setEnv App.lookupEnv
  by_cases hk : k = env.Name
  · subst hk
    simp [List.lookup_cons]
  · have hk' : (k == env.Name) = false := by simpa using hk
    simp only [List.lookup_cons, hk', lookup_filter_ne, hk, if_false]

/-- The loop of `setEnvsToApp`, one round unfolded. -/
theorem setEnvsToApp_cons (a : App) (env : EnvVar) (envs : List EnvVar) (publicOnly : Bool) :
    a.setEnvsToApp (env :: envs) publicOnly = (setEnvStep publicOnly a env).setEnvsToApp envs publicOnly :=
  rfl

/-- A round of the loop leaves the other names alone. -/
theorem lookupEnv_setEnvStep_other (publicOnly : Bool) (a : App) (env : EnvVar) (k : String)
    (hk : k ≠ env.Name) : (setEnvStep publicOnly a env).lookupEnv k = a.lookupEnv k := by
  unfold setEnvStep
  split
  · split
    · rfl
    · simp [lookupEnv_setEnv, hk]
  · simp [lookupEnv_setEnv, hk]

/-- What a round of the loop does to the name of its variable. -/
theorem lookupEnv_setEnvStep_self (publicOnly : Bool) (a : App) (env : EnvVar) :
    (setEnvStep publicOnly a env).lookupEnv env.Name =
      match a.lookupEnv env.Name with
      | some e => if publicOnly && !e.Public then some e else some env
      | none => some env := by
  unfold setEnvStep
  cases h : a.lookupEnv env.Name with
  | none => simp [lookupEnv_setEnv]
  | some e =>
    simp only
    split
    · exact h
    · simp [lookupEnv_setEnv]

/-- Names that are not given keep their entry. -/
theorem lookupEnv_setEnvsToApp_other (envs : List EnvVar) (publicOnly : Bool) (k : String) :
    ∀ a : App, k ∉ envs.map (fun v => v.Name) →
      (a.setEnvsToApp envs publicOnly).lookupEnv k = a.lookupEnv k := by
  induction envs with
  | nil => intro a _; rfl
  | cons env envs ih =>
    intro a hk
    simp only [List.map_cons, List.mem_cons, not_or] at hk
    rw [setEnvsToApp_cons, ih _ hk.2, lookupEnv_setEnvStep_other _ _ _ _ hk.1]

/-- With `publicOnly` an existing private variable keeps its entry. -/
theorem lookupEnv_setEnvsToApp_private (envs : List EnvVar) (k : String) (e : EnvVar)
    (hpriv : e.Public = false) :
    ∀ a : App, a.lookupEnv k = some e → (a.setEnvsToApp envs true).lookupEnv k = some e := by
  induction envs with
  | nil => intro a h; exact h
  | cons env envs ih =>
    intro a h
    rw [setEnvsToApp_cons]
    apply ih
    by_cases hk : k = env.Name
    · subst hk
      rw [lookupEnv_setEnvStep_self, h]
      simp [hpriv]
    · rw [lookupEnv_setEnvStep_other _ _ _ _ hk, h]

/-- The entry of a given variable when the given names are pairwise distinct. -/
theorem lookupEnv_setEnvsToApp_given (envs : List EnvVar) (publicOnly : Bool)
    (hnodup : (envs.map (fun v => v.Name)).Nodup) :
    ∀ a : App, ∀ v ∈ envs, (a.setEnvsToApp envs publicOnly).lookupEnv v.Name =
      match a.lookupEnv v.Name with
      | some e => if publicOnly && !e.Public then some e else some v
      | none => some v := by
  induction envs with
  | nil => intro a v hv; simp at hv
  | cons env envs ih =>
    intro a v hv
    simp only [List.map_cons, List.nodup_cons] at hnodup
    rw [setEnvsToApp_cons]
    rcases List.mem_cons.1 hv with h | h
    · subst h
      rw [lookupEnv_setEnvsToApp_other _ _ _ _ hnodup.1, lookupEnv_setEnvStep_self]
    · have hne : v.Name ≠ env.Name := by
        intro heq
        exact hnodup.1 (heq ▸ List.mem_map_of_mem _ h)
      rw [ih hnodup.2 _ v h, lookupEnv_setEnvStep_other _ _ _ _ hne]

/-- C8: with `publicOnly` a variable that exists and is private stays exactly as
it was, for every list; for a list of variables, each named once as in the map
the handler builds the list from, with `publicOnly` every given variable that is
not an existing private one is set to the given value, and without `publicOnly`
every given variable is; a variable not named in the list is unchanged in both
cases. -/
theorem setEnvsToApp_respects_publicOnly (a : App) (vars : List EnvVar) :
    (∀ (name : String) (e : EnvVar), a.lookupEnv name = some e → e.Public = false →
        (a.setEnvsToApp vars true).lookupEnv name = some e) ∧
    ((vars.map (fun v => v.Name)).Nodup →
      (∀ v ∈ vars, (¬ ∃ e, a.lookupEnv v.Name = some e ∧ e.Public = false) →
          (a.setEnvsToApp vars true).lookupEnv v.Name = some v) ∧
      (∀ v ∈ vars, (a.setEnvsToApp vars false).lookupEnv v.Name = some v)) ∧
    (∀ (publicOnly : Bool) (name : String), name ∉ vars.map (fun v => v.Name) →
        (a.setEnvsToApp vars publicOnly).lookupEnv name = a.lookupEnv name) := by
  refine ⟨fun name e h hpriv => lookupEnv_setEnvsToApp_private vars name e hpriv a h,
    fun hnodup => ⟨fun v hv hnot => ?_, fun v hv => ?_⟩,
    fun publicOnly name h => lookupEnv_setEnvsToApp_other vars publicOnly name a h⟩
  · rw [lookupEnv_setEnvsToApp_given vars true hnodup a v hv]
    cases h : a.lookupEnv v.Name with
    | none => rfl
    | some e =>
      have : e.Public = true := by
        cases hp : e.Public with
        | true => rfl
        | false => exact absurd ⟨e, h, hp⟩ hnot
      simp [this]
  · rw [lookupEnv_setEnvsToApp_given vars false hnodup a v hv]
    cases h : a.lookupEnv v.Name <;> simp

/-- The two tests of `setEnvsToApp`: with `publicOnly` the private
`DATABASE_HOST` keeps `localhost` and `DATABASE_PASSWORD` is set; without it
`DATABASE_HOST` becomes `remotehost`. -/
theorem setEnvsToApp_respects_publicOnly_witness :
    (myapp.setEnvsToApp myappEnvs true).lookupEnv "DATABASE_HOST" =
      some { Name := "DATABASE_HOST", Value := "localhost", Public := false } ∧
    (myapp.setEnvsToApp myappEnvs true).lookupEnv "DATABASE_PASSWORD" =
      some { Name := "DATABASE_PASSWORD", Value := "123", Public := true } ∧
    (myapp.setEnvsToApp myappEnvs false).lookupEnv "DATABASE_HOST" =
      some { Name := "DATABASE_HOST", Value := "remotehost", Public := true } ∧
    (myapp.setEnvsToApp myappEnvs false).lookupEnv "PATH" = none :=
  ⟨(setEnvsToApp_respects_publicOnly myapp myappEnvs).1 "DATABASE_HOST"
      { Name := "DATABASE_HOST", Value := "localhost", Public := false } rfl rfl,
   ((setEnvsToApp_respects_publicOnly myapp myappEnvs).2.1 (by decide)).1
      { Name := "DATABASE_PASSWORD", Value := "123", Public := true } (by decide) (by decide),
   ((setEnvsToApp_respects_publicOnly myapp myappEnvs).2.1 (by decide)).2
      { Name := "DATABASE_HOST", Value := "remotehost", Public := true } (by decide),
   (setEnvsToApp_respects_publicOnly myapp myappEnvs).2.2 false "PATH" (by decide)⟩

/-! ## Handlers: team access, creation, units, cname, availability -/

/-- C11, as stated, fails: `appname` has one team, `tsuruteam`; revoking the
access of the existing team `otherteam`, which has none, is answered by the
single-team guard with 403, not with 404. -/
theorem revokeAccessFromTeam_single_team_without_access :
    findTeam loneTeamWorld "otherteam" = some { Name := "otherteam", Users := ["someone@thewho.com"] } ∧
    "otherteam" ∉ ["tsuruteam"] ∧
    revokeAccessFromTeam (fixedLibrary { }) App.Revoke loneTeamWorld "appname" "otherteam"
        sampleToken =
      (some (.Http 403
        ("You can not revoke the access from this team, because it is the unique team with " ++
         "access to the app, and an app can not be orphaned")), loneTeamWorld) := by
  decide

/-- C11, amended: for an accessible app whose `Teams` list does not have exactly
one entry and an existing team, when `Revoke` fails `revokeAccessFromTeam`
answers 404 (Not Found) with the text of that error and leaves the world as it
was; for a team whose name is not among the app's teams `Revoke` fails with
`This team does not have access to this app`. -/
theorem revokeAccessFromTeam_without_access
    (lib : Library) (w : World) (appName teamName : String) (t : Token)
    (u : User) (app : App) (team : Team)
    (huser : t.User lib w = .ok u) (happ : getApp w appName u = .ok app)
    (hteam : findTeam w teamName = some team) (hguard : app.Teams.length ≠ 1) :
    (∀ (Revoke : App → Team → Option GoError × App) (err : GoError) (app' : App),
        Revoke app team = (some err, app') →
        revokeAccessFromTeam lib Revoke w appName teamName t = (some (.Http 404 err.Error), w)) ∧
    (team.Name ∉ app.Teams →
        App.Revoke app team =
          (some (.errorString "This team does not have access to this app"), app) ∧
        revokeAccessFromTeam lib App.Revoke w appName teamName t =
          (some (.Http 404 "This team does not have access to this app"), w)) := by
  have hconn := getApp_ok_connErr happ
  have gen : ∀ (Revoke : App → Team → Option GoError × App) (err : GoError) (app' : App),
        Revoke app team = (some err, app') →
        revokeAccessFromTeam lib Revoke w appName teamName t = (some (.Http 404 err.Error), w) := by
    intro Revoke err app' hrev
    simp [revokeAccessFromTeam, huser, happ, hconn, hteam, hguard, hrev, StatusNotFound]
  refine ⟨gen, fun hmem => ?_⟩
  have hr : App.Revoke app team =
      (some (.errorString "This team does not have access to this app"), app) := by
    simp [App.Revoke, App.find, hmem]
  exact ⟨hr, gen App.Revoke _ _ hr⟩

/-- Revoking the access of `thirdteam`, which has none, from an app of two
teams. -/
theorem revokeAccessFromTeam_without_access_witness :
    revokeAccessFromTeam (fixedLibrary { }) App.Revoke thirdTeamWorld "appname" "thirdteam"
        sampleToken =
      (some (.Http 404 "This team does not have access to this app"), thirdTeamWorld) :=
  ((revokeAccessFromTeam_without_access (fixedLibrary { }) thirdTeamWorld "appname" "thirdteam"
    sampleToken { Email := "whydidifall@thewho.com" }
    { Name := "appname", Teams := ["otherteam", "tsuruteam"] }
    { Name := "thirdteam", Users := ["nobody@thewho.com"] } rfl rfl rfl (by decide)).2
    (by decide)).2

/-- C13: for a well-formed request of a user who is in no team, `createApp`
answers 403 and leaves the world as it was, whatever `CreateApp` would do (it
is not called, no app is created); and `createApp` behaves the same with any
two `CreateApp` that agree on the calls with at least one unit and one team, so
it never calls `CreateApp` with zero units. -/
theorem createApp_requires_team_and_unit (lib : Library) (w : World) (t : Token) :
    (∀ (CreateApp : World → App → Nat → List Team → Option GoError × App × World)
        (body : String) (japp : jsonApp) (u : User),
        lib.Unmarshal body = .ok japp → t.User lib w = .ok u → u.Teams w = .ok [] →
        createApp lib CreateApp w (.ok body) t =
          (some (.Http 403
            "In order to create an app, you should be member of at least one team"), w)) ∧
    (∀ (CreateApp CreateApp' : World → App → Nat → List Team → Option GoError × App × World)
        (body : Except GoError String),
        (∀ (w' : World) (a : App) (units : Nat) (teams : List Team), 1 ≤ units →
          1 ≤ teams.length → CreateApp w' a units teams = CreateApp' w' a units teams) →
        createApp lib CreateApp w body t = createApp lib CreateApp' w body t) := by
  constructor
  · intro CreateApp body japp u hjson huser hteams
    simp [createApp, hjson, huser, hteams, StatusForbidden]
  · intro CreateApp CreateApp' body hagree
    unfold createApp
    cases body with
    | error e => rfl
    | ok body =>
      simp only
      cases hjson : lib.Unmarshal body with
      | error e => rfl
      | ok japp =>
        simp only
        cases huser : t.User lib w with
        | error e => rfl
        | ok u =>
          simp only
          cases hteams : u.Teams w with
          | error e => rfl
          | ok teams =>
            simp only
            by_cases hlt : teams.length < 1
            · simp [hlt]
            · have hunits : 1 ≤ (if japp.Units = 0 then 1 else japp.Units) := by
                split <;> omega
              simp only [hlt, if_false]
              rw [hagree w _ _ teams hunits (by omega)]

/-- A user without teams gets 403; a `CreateApp` that differs on zero units only
makes no difference to the handler. -/
theorem createApp_requires_team_and_unit_witness :
    createApp (fixedLibrary { Name := "beyond" }) (CreateApp sampleBackend) noTeamWorld (.ok "")
        sampleToken =
      (some (.Http 403 "In order to create an app, you should be member of at least one team"),
        noTeamWorld) ∧
    createApp (fixedLibrary { Name := "paradisum" }) (CreateApp sampleBackend) sampleWorld (.ok "")
        sampleToken =
      createApp (fixedLibrary { Name := "paradisum" }) zeroUnitsCreateApp sampleWorld (.ok "")
        sampleToken :=
  ⟨(createApp_requires_team_and_unit (fixedLibrary { Name := "beyond" }) noTeamWorld
      sampleToken).1 (CreateApp sampleBackend) "" { Name := "beyond" }
      { Email := "whydidifall@thewho.com" } rfl rfl rfl,
   (createApp_requires_team_and_unit (fixedLibrary { Name := "paradisum" }) sampleWorld
      sampleToken).2 (CreateApp sampleBackend) zeroUnitsCreateApp (.ok "")
      (fun w' a units teams hu _ => by
        have h0 : units ≠ 0 := by omega
        simp [zeroUnitsCreateApp, h0])⟩

/-- The empty string denotes zero. -/
theorem decimalValue_nil : decimalValue [] = 0 := rfl

/-- The value of a digit string, first digit split off. -/
theorem decimalValue_cons (d : Char) (cs : List Char) :
    decimalValue (d :: cs) = (d.toNat - 48) * 10 ^ cs.length + decimalValue cs := by
  simp only [decimalValue, List.reverse_cons, List.map_append, List.map_cons, List.map_nil,
    Nat.ofDigits_append, Nat.ofDigits_singleton, List.length_map, List.length_reverse]
  ring

/-- A decimal digit has its value. -/
theorem digitValue_of_isDigit (d : Char) (h : d.isDigit = true) :
    digitValue d = some (d.toNat - 48) := by
  have h' : '0' ≤ d ∧ d ≤ '9' := by
    simp only [Char.isDigit, Bool.and_eq_true, decide_eq_true_eq] at h
    exact ⟨h.1, h.2⟩
  simp [digitValue, h']

/-- The value of a decimal digit is below ten. -/
theorem toNat_sub_lt_of_isDigit (d : Char) (h : d.isDigit = true) : d.toNat - 48 < 10 := by
  simp only [Char.isDigit, Bool.and_eq_true, decide_eq_true_eq] at h
  have h2 : d.val.toNat ≤ 57 := h.2
  show d.val.toNat - 48 < 10
  omega

/-- Any other character is no digit, or a digit of a base above ten. -/
theorem digitValue_of_not_isDigit (d : Char) (h : d.isDigit = false) :
    digitValue d = none ∨ ∃ v, digitValue d = some v ∧ 10 ≤ v := by
  have h' : ¬ ('0' ≤ d ∧ d ≤ '9') := by
    intro hd
    have : d.isDigit = true := by
      simp only [Char.isDigit, Bool.and_eq_true, decide_eq_true_eq]
      exact ⟨hd.1, hd.2⟩
    rw [this] at h
    cases h
  unfold digitValue
  simp only [h', if_false]
  split
  · exact Or.inr ⟨_, rfl, by omega⟩
  · split
    · exact Or.inr ⟨_, rfl, by omega⟩
    · exact Or.inl rfl

/-- The digit loop in base ten and 32 bits succeeds exactly on decimal digits
whose value fits. -/
theorem parseUintLoop_ok_iff (s : String) (cs : List Char) :
    ∀ (n m : Nat), n ≤ 2 ^ 32 - 1 →
      (parseUintLoop s 10 (2 ^ 32 - 1) n cs = .ok m ↔
        (∀ c ∈ cs, c.isDigit = true) ∧ m = n * 10 ^ cs.length + decimalValue cs ∧
          m ≤ 2 ^ 32 - 1) := by
  induction cs with
  | nil =>
    intro n m hn
    simp only [parseUintLoop, Except.ok.injEq, List.not_mem_nil, false_implies, implies_true,
      List.length_nil, pow_zero, mul_one, decimalValue_nil, add_zero, true_and]
    constructor
    · intro h; subst h; exact ⟨rfl, hn⟩
    · intro h; exact h.1.symm
  | cons d rest ih =>
    intro n m hn
    have hpos : 0 < 10 ^ rest.length := Nat.pow_pos (by norm_num)
    cases hd : d.isDigit with
    | false =>
      have hmem : ¬ ∀ c ∈ d :: rest, c.isDigit = true := by
        intro h
        have := h d (List.mem_cons_self _ _)
        rw [hd] at this
        cases this
      rcases digitValue_of_not_isDigit d hd with h | ⟨v, hv, hge⟩
      · simp [parseUintLoop, h, hd]
      · have hv' : v ≥ 10 := hge
        simp [parseUintLoop, hv, hv', hd]
    | true =>
      have hv := digitValue_of_isDigit d hd
      have hlt := toNat_sub_lt_of_isDigit d hd
      have hval : n * 10 ^ (d :: rest).length + decimalValue (d :: rest) =
          (n * 10 + (d.toNat - 48)) * 10 ^ rest.length + decimalValue rest := by
        rw [decimalValue_cons, List.length_cons, pow_succ]
        ring
      have hall : (∀ c ∈ d :: rest, c.isDigit = true) ↔ ∀ c ∈ rest, c.isDigit = true := by
        simp [hd]
      rw [hval, hall]
      have h1 : ¬ (d.toNat - 48 ≥ 10) := by omega
      have h2 : ¬ (n ≥ (2 ^ 64 - 1) / 10 + 1) := by
        norm_num at hn ⊢
        omega
      have h3 : ¬ (n * 10 + (d.toNat - 48) ≥ 2 ^ 64) := by
        norm_num at hn ⊢
        omega
      simp only [parseUintLoop, hv, h1, h2, h3, if_false, false_or]
      by_cases hbig : n * 10 + (d.toNat - 48) > 2 ^ 32 - 1
      · simp only [hbig, if_true]
        constructor
        · intro h; cases h
        · rintro ⟨_, hm, hle⟩
          exfalso
          have : (n * 10 + (d.toNat - 48)) * 1 ≤ (n * 10 + (d.toNat - 48)) * 10 ^ rest.length :=
            Nat.mul_le_mul_left _ hpos
          omega
      · simp only [hbig, if_false]
        exact ih _ m (by omega)

/-- The empty string is the one without characters. -/
theorem toList_eq_nil_iff (s : String) : s.toList = [] ↔ s = "" := by
  constructor
  · intro h
    apply String.ext
    simpa using h
  · intro h
    subst h
    rfl

/-- `ParseUint(s, 10, 32)` succeeds exactly on a non-empty string of decimal
digits whose value fits in 32 bits. -/
theorem ParseUint_ok_iff (s : String) (m : Nat) :
    ParseUint s 10 32 = .ok m ↔
      s.toList ≠ [] ∧ (∀ c ∈ s.toList, c.isDigit = true) ∧ decimalValue s.toList = m ∧
        m ≤ 4294967295 := by
  unfold ParseUint
  by_cases hs : s.toList = []
  · rw [if_pos hs]
    constructor
    · intro h; cases h
    · rintro ⟨h, _⟩
      exact absurd hs h
  · rw [if_neg hs]
    simp only [ne_eq, hs, not_false_eq_true, true_and]
    rw [parseUintLoop_ok_iff s s.toList 0 m (by norm_num)]
    simp only [zero_mul, zero_add]
    constructor
    · rintro ⟨h1, h2, h3⟩
      exact ⟨h1, h2.symm, by norm_num at h3; exact h3⟩
    · rintro ⟨h1, h2, h3⟩
      exact ⟨h1, h2.symm, by norm_num; exact h3⟩

/-- The bodies `numberOfUnits` accepts. -/
theorem numberOfUnits_ok_iff (s : String) (n : Nat) :
    numberOfUnits (some (.ok s)) = .ok n ↔
      s.toList ≠ [] ∧ (∀ c ∈ s.toList, c.isDigit = true) ∧ decimalValue s.toList = n ∧
        1 ≤ n ∧ n ≤ 4294967295 := by
  unfold numberOfUnits
  by_cases hs : s = ""
  · have hl : s.toList = [] := (toList_eq_nil_iff s).2 hs
    simp [hs, hl]
  · simp only [hs, if_false]
    cases hp : ParseUint s 10 32 with
    | error e =>
      have hno : ¬ (s.toList ≠ [] ∧ (∀ c ∈ s.toList, c.isDigit = true) ∧
          decimalValue s.toList = n ∧ n ≤ 4294967295) := by
        rw [← ParseUint_ok_iff, hp]
        intro h
        cases h
      constructor
      · intro h; cases h
      · rintro ⟨h1, h2, h3, _, h5⟩
        exact absurd ⟨h1, h2, h3, h5⟩ hno
    | ok m =>
      have hm := (ParseUint_ok_iff s m).1 hp
      by_cases h0 : m = 0
      · simp only [h0, if_true]
        constructor
        · intro h; cases h
        · rintro ⟨_, _, h3, h4, _⟩
          rw [hm.2.2.1, h0] at h3
          omega
      · simp only [h0, if_false, Except.ok.injEq]
        constructor
        · intro h
          subst h
          exact ⟨hm.1, hm.2.1, hm.2.2.1, by omega, hm.2.2.2⟩
        · rintro ⟨_, _, h3, _, _⟩
          rw [← hm.2.2.1, h3]

/-- `numberOfUnits` never returns zero. -/
theorem numberOfUnits_pos {body : Option (Except GoError String)} {n : Nat}
    (h : numberOfUnits body = .ok n) : 1 ≤ n := by
  match body, h with
  | some (.ok s), h => exact ((numberOfUnits_ok_iff s n).1 h).2.2.2.1
  | some (.error e), h => simp [numberOfUnits] at h
  | none, h => simp [numberOfUnits] at h

/-- A non-empty body that is not accepted gets the message about an invalid
number. -/
theorem numberOfUnits_error (s : String) (hs : s ≠ "") (e : GoError)
    (h : numberOfUnits (some (.ok s)) = .error e) :
    e = .Http 400 "Invalid number of units: the number must be an integer greater than 0." := by
  unfold numberOfUnits at h
  simp only [hs, if_false] at h
  cases hp : ParseUint s 10 32 with
  | error e' =>
    simp only [hp, Except.error.injEq] at h
    exact h.symm
  | ok m =>
    simp only [hp] at h
    split at h
    · simp only [Except.error.injEq] at h
      exact h.symm
    · cases h

/-- C12: `numberOfUnits` returns `n` for a readable body `s` exactly when `s` is a
non-empty string of decimal digits that denotes `n` and `1 <= n <= 4294967295`;
a nil or empty body gets 400 `You must provide the number of units.`, every
other body 400 `Invalid number of units: ...`; and the handlers `addUnits` and
`removeUnits` behave the same with any two `AddUnits` (`RemoveUnits`) that
agree on the calls with `n >= 1`, so they never call them with 0. -/
theorem numberOfUnits_accepts_positive_decimal (lib : Library) (w : World)
    (body : Option (Except GoError String)) (appName : String) (t : Token) :
    (∀ (s : String) (n : Nat), numberOfUnits (some (.ok s)) = .ok n ↔
      (s.toList ≠ [] ∧ (∀ c ∈ s.toList, c.isDigit = true) ∧ decimalValue s.toList = n ∧
        1 ≤ n ∧ n ≤ 4294967295)) ∧
    numberOfUnits none = .error (.Http 400 "You must provide the number of units.") ∧
    numberOfUnits (some (.ok "")) = .error (.Http 400 "You must provide the number of units.") ∧
    (∀ (s : String), s ≠ "" →
      ¬ ((∀ c ∈ s.toList, c.isDigit = true) ∧ 1 ≤ decimalValue s.toList ∧
        decimalValue s.toList ≤ 4294967295) →
      numberOfUnits (some (.ok s)) = .error (.Http 400
        "Invalid number of units: the number must be an integer greater than 0.")) ∧
    (∀ (AddUnits AddUnits' : World → App → Nat → Option GoError × World),
      (∀ (w' : World) (app : App) (n : Nat), 1 ≤ n → AddUnits w' app n = AddUnits' w' app n) →
      addUnits lib AddUnits w body appName t = addUnits lib AddUnits' w body appName t) ∧
    (∀ (RemoveUnits RemoveUnits' : World → App → Nat → Option GoError × World),
      (∀ (w' : World) (app : App) (n : Nat), 1 ≤ n →
        RemoveUnits w' app n = RemoveUnits' w' app n) →
      removeUnits lib RemoveUnits w body appName t =
        removeUnits lib RemoveUnits' w body appName t) := by
  refine ⟨numberOfUnits_ok_iff, rfl, rfl, fun s hs hnot => ?_, fun A A' hagree => ?_,
    fun R R' hagree => ?_⟩
  · cases h : numberOfUnits (some (.ok s)) with
    | error e => rw [numberOfUnits_error s hs e h]
    | ok n =>
      exfalso
      have := (numberOfUnits_ok_iff s n).1 h
      apply hnot
      refine ⟨this.2.1, ?_, ?_⟩
      · rw [this.2.2.1]; exact this.2.2.2.1
      · rw [this.2.2.1]; exact this.2.2.2.2
  · unfold addUnits
    cases hn : numberOfUnits body with
    | error e => rfl
    | ok n =>
      simp only
      cases t.User lib w with
      | error e => rfl
      | ok u =>
        simp only
        cases getApp w appName u with
        | error e => rfl
        | ok app => exact hagree w app n (numberOfUnits_pos hn)
  · unfold removeUnits
    cases hn : numberOfUnits body with
    | error e => rfl
    | ok n =>
      simp only
      cases t.User lib w with
      | error e => rfl
      | ok u =>
        simp only
        cases getApp w appName u with
        | error e => rfl
        | ok app => exact hagree w app n (numberOfUnits_pos hn)

/-- The bodies `3`, `0` and `4294967296`. -/
theorem numberOfUnits_accepts_positive_decimal_witness :
    numberOfUnits (some (.ok "3")) = .ok 3 ∧
    numberOfUnits (some (.ok "0")) = .error (.Http 400
      "Invalid number of units: the number must be an integer greater than 0.") ∧
    numberOfUnits (some (.ok "4294967296")) = .error (.Http 400
      "Invalid number of units: the number must be an integer greater than 0.") :=
  ⟨((numberOfUnits_accepts_positive_decimal (fixedLibrary { }) sampleWorld none "appname"
      sampleToken).1 "3" 3).2 ⟨by decide, by decide, by decide, by decide, by decide⟩,
   (numberOfUnits_accepts_positive_decimal (fixedLibrary { }) sampleWorld none "appname"
      sampleToken).2.2.2.1 "0" (by decide) (by decide),
   (numberOfUnits_accepts_positive_decimal (fixedLibrary { }) sampleWorld none "appname"
      sampleToken).2.2.2.1 "4294967296" (by decide) (by decide)⟩

/-- C14: for a body whose JSON object has the key `cname`, a user that is found
and an app that is accessible: when `SetCName` fails with the text
`Invalid cname` the `setCName` handler answers 412 with that message, when it
fails with any other text the handler returns that error unchanged, and when it
succeeds the handler returns nil; for a body without the key `cname` the handler
answers 400 `You must provide the cname.`, whatever `SetCName` would do. -/
theorem setCName_error_mapping (lib : Library)
    (Decode : String → Except GoError (List (String × String)))
    (SetCName : World → App → String → Option GoError × World)
    (w : World) (body appName : String) (t : Token) (v : List (String × String))
    (hjson : Decode body = .ok v) :
    (∀ (cname : String) (u : User) (app : App), v.lookup "cname" = some cname →
        t.User lib w = .ok u → getApp w appName u = .ok app →
        (∀ (err : GoError) (w' : World), SetCName w app cname = (some err, w') →
          (err.Error = "Invalid cname" →
            setCName lib Decode SetCName w (some body) appName t =
              (some (.Http 412 "Invalid cname"), w')) ∧
          (err.Error ≠ "Invalid cname" →
            setCName lib Decode SetCName w (some body) appName t = (some err, w'))) ∧
        (∀ (w' : World), SetCName w app cname = (none, w') →
          setCName lib Decode SetCName w (some body) appName t = (none, w'))) ∧
    (v.lookup "cname" = none →
        ∀ (SetCName' : World → App → String → Option GoError × World),
          setCName lib Decode SetCName' w (some body) appName t =
            (some (.Http 400 "You must provide the cname."), w)) := by
  constructor
  · intro cname u app hcname huser happ
    refine ⟨fun err w' hset => ⟨fun htext => ?_, fun htext => ?_⟩, fun w' hset => ?_⟩
    · simp [setCName, hjson, hcname, huser, happ, hset, htext, StatusPreconditionFailed]
    · simp [setCName, hjson, hcname, huser, happ, hset, htext]
    · simp [setCName, hjson, hcname, huser, happ, hset]
  · intro hnone SetCName'
    simp [setCName, hjson, hnone, StatusBadRequest]

/-- An invalid cname, a valid cname and a body without the key. -/
theorem setCName_error_mapping_witness :
    setCName (fixedLibrary { }) (fixedDecode [("cname", "http://ktulu.mycompany.com")])
        sampleSetCName sampleWorld (some "") "appname" sampleToken =
      (some (.Http 412 "Invalid cname"), sampleWorld) ∧
    (setCName (fixedLibrary { }) (fixedDecode [("cname", "ktulu.mycompany.com")])
        sampleSetCName sampleWorld (some "") "appname" sampleToken).1 = none ∧
    setCName (fixedLibrary { }) (fixedDecode [("name", "ktulu.mycompany.com")])
        sampleSetCName sampleWorld (some "") "appname" sampleToken =
      (some (.Http 400 "You must provide the cname."), sampleWorld) :=
  ⟨(((setCName_error_mapping (fixedLibrary { })
      (fixedDecode [("cname", "http://ktulu.mycompany.com")]) sampleSetCName sampleWorld ""
      "appname" sampleToken _ rfl).1 "http://ktulu.mycompany.com"
      { Email := "whydidifall@thewho.com" } { Name := "appname", Teams := ["tsuruteam"] }
      rfl rfl rfl).1 (.errorString "Invalid cname") sampleWorld rfl).1 rfl,
   congrArg Prod.fst (((setCName_error_mapping (fixedLibrary { })
      (fixedDecode [("cname", "ktulu.mycompany.com")]) sampleSetCName sampleWorld ""
      "appname" sampleToken _ rfl).1 "ktulu.mycompany.com"
      { Email := "whydidifall@thewho.com" } { Name := "appname", Teams := ["tsuruteam"] }
      rfl rfl rfl).2 _ rfl),
   (setCName_error_mapping (fixedLibrary { })
      (fixedDecode [("name", "ktulu.mycompany.com")]) sampleSetCName sampleWorld ""
      "appname" sampleToken _ rfl).2 rfl sampleSetCName⟩

/-- C15, as stated, fails: for a stored app without a started unit the handler
returns the error built by `fmt.Errorf`, which is no HTTP error, with status 412
or any other. -/
theorem appIsAvailable_unavailable_is_generic :
    appIsAvailable App.Available pendingWorld "anycolor" =
      (some (.errorString "App must be avaliable to receive pushs."), pendingWorld) ∧
    ¬ ∃ Message, (appIsAvailable App.Available pendingWorld "anycolor").1 =
      some (.Http 412 Message) := by
  have h : appIsAvailable App.Available pendingWorld "anycolor" =
      (some (.errorString "App must be avaliable to receive pushs."), pendingWorld) := by decide
  refine ⟨h, ?_⟩
  rintro ⟨Message, hm⟩
  rw [h] at hm
  cases hm

/-- C15, amended: for an existing app that is not available `appIsAvailable`
fails with the generic error `App must be avaliable to receive pushs.` and
writes nothing; for an existing available app it writes the status 200 and
returns nil. -/
theorem appIsAvailable_outcomes (Available : App → Bool) (w : World) (appname : String)
    (app : App) (hget : App.Get w { Name := appname } = .ok app) :
    (Available app = false →
        appIsAvailable Available w appname =
          (some (.errorString "App must be avaliable to receive pushs."), w)) ∧
    (Available app = true →
        appIsAvailable Available w appname =
          (none, { w with effects := w.effects ++ [Effect.WriteHeader 200] })) := by
  constructor
  · intro h
    simp [appIsAvailable, hget, h]
  · intro h
    simp [appIsAvailable, hget, h, StatusOK]

/-- An app with a pending unit only, and the app of
`TestAppAvailableShouldReturnsTrueWhenOneUnitIsStarted`. -/
theorem appIsAvailable_outcomes_witness :
    appIsAvailable App.Available pendingWorld "anycolor" =
      (some (.errorString "App must be avaliable to receive pushs."), pendingWorld) ∧
    appIsAvailable App.Available startedWorld "anycolor" =
      (none, { startedWorld with effects := [Effect.WriteHeader 200] }) :=
  ⟨(appIsAvailable_outcomes App.Available pendingWorld "anycolor" _ rfl).1 (by decide),
   (appIsAvailable_outcomes App.Available startedWorld "anycolor" _ rfl).2 (by decide)⟩

/-! ## Logs -/

/-- Splitting on newlines gives back the lines a message is made of, up to the
empty lines. -/
theorem splitOn_lines (message : String) (lines : List (List Char))
    (hjoin : [newline].intercalate lines = message.toList)
    (hline : ∀ l ∈ lines, newline ∉ l) :
    (message.toList.splitOn newline).filter (fun msg => msg ≠ []) =
      lines.filter (fun msg => msg ≠ []) := by
  cases lines with
  | nil =>
    have : message.toList = [] := by rw [← hjoin]; rfl
    rw [this]
    rfl
  | cons l ls =>
    rw [← hjoin, List.splitOn_intercalate (l :: ls) newline hline (List.cons_ne_nil _ _)]

/-- C16: write the message as lines joined by newline characters, no line
holding a newline.  When the database is reachable `Log` returns nil and adds
to the stored logs exactly one record per non-empty line, in the order of the
lines, each with the app's name and the source, and changes nothing else; when
every line is empty it stores nothing and returns nil. -/
theorem Log_one_record_per_line (w : World) (now : Int) (a : App) (message source : String)
    (lines : List (List Char))
    (hjoin : [newline].intercalate lines = message.toList)
    (hline : ∀ l ∈ lines, newline ∉ l) :
    (w.connErr = none →
      (a.Log w now message source).1 = none ∧
      (a.Log w now message source).2.logs = w.logs ++
        (lines.filter (fun l => l ≠ [])).map (fun l => Applog.mk now (String.mk l) source a.Name) ∧
      (a.Log w now message source).2 = { w with logs := (a.Log w now message source).2.logs }) ∧
    ((∀ l ∈ lines, l = []) → a.Log w now message source = (none, w)) := by
  have hsplit := splitOn_lines message lines hjoin hline
  constructor
  · intro hconn
    unfold App.Log
    rw [hsplit]
    by_cases hrows : lines.filter (fun msg => msg ≠ []) = []
    · rw [hrows]
      exact ⟨rfl, by simp, rfl⟩
    · have hpos : (List.map (fun msg => Applog.mk now (String.mk msg) source a.Name)
          (lines.filter (fun msg => msg ≠ []))).length > 0 := by
        rw [List.length_map]
        exact List.length_pos.2 hrows
      simp only [hpos, if_true]
      rw [hconn]
      exact ⟨rfl, rfl, rfl⟩
  · intro hempty
    have hfilter : lines.filter (fun msg => msg ≠ []) = [] := by
      apply List.filter_eq_nil_iff.2
      intro l hl
      simp [hempty l hl]
    unfold App.Log
    rw [hsplit, hfilter]
    rfl

/-- The message of `TestLogShouldAddOneRecordByLine`, and a message of empty
lines. -/
theorem Log_one_record_per_line_witness :
    (App.Log { } 7 { Name := "newApp" } "last log msg\nfirst log" "source").2.logs =
      [Applog.mk 7 "last log msg" "source" "newApp", Applog.mk 7 "first log" "source" "newApp"] ∧
    App.Log unreachableWorld 7 { Name := "ich" } "\n\n" "" = (none, unreachableWorld) :=
  ⟨((Log_one_record_per_line { } 7 { Name := "newApp" } "last log msg\nfirst log" "source"
      ["last log msg".toList, "first log".toList] (by decide) (by decide)).1 rfl).2.1,
   (Log_one_record_per_line unreachableWorld 7 { Name := "ich" } "\n\n" ""
      [[], [], []] (by decide) (by decide)).2 (by decide)⟩

/-! ## Tokens and configuration -/

/-- A duration is below one nanosecond exactly when the time is not later. -/
theorem timeSub_lt_one (t u : Int) : timeSub t u < 1 ↔ t ≤ u := by
  unfold timeSub
  split
  · constructor
    · intro h; norm_num at h
    · intro h; omega
  · split
    · constructor
      · intro _; omega
      · intro _; norm_num
    · omega

/-- C17: when `GetToken(s)` returns a token, that token is stored, has the
token string `s` and is valid until strictly after the current time; with the
database reachable, when no stored token has the string `s` the error is
`Token not found`, when the token the query finds is valid until the current
time or before the error is `Token has expired`, and otherwise that token is
returned. -/
theorem GetToken_outcomes (w : World) (now : Int) (s : String) :
    (∀ t : Token, GetToken w now s = .ok t →
        t ∈ w.tokens ∧ t.Token = s ∧ now < t.ValidUntil) ∧
    (w.connErr = none →
      ((∀ t ∈ w.tokens, t.Token ≠ s) →
          GetToken w now s = .error (.errorString "Token not found")) ∧
      (∀ t : Token, w.tokens.find? (fun x => x.Token == s) = some t → t.ValidUntil ≤ now →
          GetToken w now s = .error (.errorString "Token has expired")) ∧
      (∀ t : Token, w.tokens.find? (fun x => x.Token == s) = some t → now < t.ValidUntil →
          GetToken w now s = .ok t)) := by
  constructor
  · intro t h
    unfold GetToken at h
    cases hc : w.connErr with
    | some e => simp [hc] at h
    | none =>
      simp only [hc] at h
      cases hf : w.tokens.find? (fun x => x.Token == s) with
      | none => simp [hf] at h
      | some x =>
        simp only [hf] at h
        split at h
        · cases h
        · rename_i hexp
          injection h with h
          subst h
          refine ⟨List.mem_of_find?_eq_some hf, by simpa using List.find?_some hf, ?_⟩
          have := (timeSub_lt_one x.ValidUntil now).not.1 hexp
          omega
  · intro hconn
    refine ⟨fun hnone => ?_, fun t hf hexp => ?_, fun t hf hvalid => ?_⟩
    · have hf : w.tokens.find? (fun x => x.Token == s) = none := by
        apply List.find?_eq_none.2
        intro x hx
        simpa using hnone x hx
      simp [GetToken, hconn, hf]
    · have := (timeSub_lt_one t.ValidUntil now).2 hexp
      simp [GetToken, hconn, hf, this]
    · have : ¬ timeSub t.ValidUntil now < 1 := by
        rw [timeSub_lt_one]
        omega
      simp [GetToken, hconn, hf, this]

/-- A store with one token: the empty string, the time 100 and the time 99. -/
theorem GetToken_outcomes_witness :
    GetToken tokenWorld 50 "" = .error (.errorString "Token not found") ∧
    GetToken tokenWorld 100 "abc123" = .error (.errorString "Token has expired") ∧
    GetToken tokenWorld 99 "abc123" =
      .ok { Token := "abc123", ValidUntil := 100, AppName := "tsuru-healer" } :=
  ⟨((GetToken_outcomes tokenWorld 50 "").2 rfl).1 (by decide),
   ((GetToken_outcomes tokenWorld 100 "abc123").2 rfl).2.1 _ rfl (by decide),
   ((GetToken_outcomes tokenWorld 99 "abc123").2 rfl).2.2 _ rfl (by decide)⟩

/-- C18: `newUserToken` returns no token and the error `User is nil` for the nil
user, and no token and the error
`Impossible to generate tokens for users without email` for a user without
email, for all settings and all values of the package variables, which it
leaves as they are. -/
theorem newUserToken_rejects_nil_and_no_email (sys : Crypto) (cfg : Settings) (v : AuthVars)
    (now : Int) :
    newUserToken sys cfg v now none = (.error (.errorString "User is nil"), v) ∧
    (∀ u : User, u.Email = "" →
      newUserToken sys cfg v now (some u) =
        (.error (.errorString "Impossible to generate tokens for users without email"), v)) := by
  refine ⟨rfl, fun u hu => ?_⟩
  simp [newUserToken, hu]

/-- The user of
`TestNewTokenReturnsErroWhenUserReferenceDoesNotContainsEmail`. -/
theorem newUserToken_rejects_nil_and_no_email_witness :
    newUserToken sampleCrypto { } { } 0 (some { Email := "" }) =
      (.error (.errorString "Impossible to generate tokens for users without email"), { }) :=
  (newUserToken_rejects_nil_and_no_email sampleCrypto { } { } 0).2 { Email := "" } rfl

/-- C19: with `auth:salt` defined and `auth:token-key` undefined, the first call
of `newUserToken` fails with `Setting "auth:token-key" is undefined.` and
leaves `salt` set; the second call finds `salt` non-empty, reads no setting and
returns a token made with the empty token key. -/
theorem newUserToken_second_call_ignores_missing_key (sys : Crypto) (now : Int) :
    newUserToken sys noTokenKey { } now (some { Email := "gopher@golang.org" }) =
      (.error (.errorString "Setting \"auth:token-key\" is undefined."),
        { salt := "tsuru-salt", tokenExpire := defaultExpiration }) ∧
    newUserToken sys noTokenKey { salt := "tsuru-salt", tokenExpire := defaultExpiration } now
        (some { Email := "gopher@golang.org" }) =
      (.ok { Token := sys.sha1Hex ("gopher@golang.org" ++ "" ++ sys.UnixDate (now / Second)),
             ValidUntil := now + defaultExpiration, UserEmail := "gopher@golang.org" },
        { salt := "tsuru-salt", tokenExpire := defaultExpiration }) := by
  constructor <;> rfl

/-- After two equal tokens have been appended, taking the first match out leaves
a match. -/
theorem find?_eraseP_append_twice (p : Token → Bool) (t : Token) (hp : p t = true) :
    ∀ l : List Token, ((l ++ [t, t]).eraseP p).find? p ≠ none := by
  intro l
  induction l with
  | nil => simp [List.eraseP_cons_of_pos, hp]
  | cons x l ih =>
    by_cases hx : p x = true
    · rw [List.cons_append, List.eraseP_cons_of_pos hx]
      intro h
      exact List.find?_eq_none.1 h t (by simp) hp
    · rw [List.cons_append, List.eraseP_cons_of_neg hx, List.find?_cons_of_neg _ hx]
      exact ih

/-- The store after two creations and the deletion. -/
theorem createTwiceThenDelete_eq (sys : Crypto) (v : AuthVars) (now : Int) (appName : String)
    (tokens : List Token) :
    createTwiceThenDelete sys v { tokens := tokens } now appName =
      (none, { tokens := (tokens ++ [applicationToken sys v now appName,
        applicationToken sys v now appName]).eraseP (fun t => t.Token == token sys v now appName) }) := by
  simp [createTwiceThenDelete, CreateApplicationToken, DeleteToken, applicationToken]

/-- An application token is valid at the time it is created. -/
theorem applicationToken_valid (sys : Crypto) (v : AuthVars) (now : Int) (appName : String) :
    ¬ timeSub (applicationToken sys v now appName).ValidUntil now < 1 := by
  unfold timeSub applicationToken Hour
  simp only
  split
  · norm_num
  · split <;> omega

/-- C20: two calls of `CreateApplicationToken` for `tsuru-healer` at the same
reading of the clock store two tokens with the same token string; `DeleteToken`
of that string returns nil and takes one of them out, and `GetToken` of the
string does not answer `Token not found` afterwards, whatever the store held
before; on a store that was empty it returns the token. -/
theorem DeleteToken_leaves_duplicate (sys : Crypto) (v : AuthVars) (now : Int)
    (tokens : List Token) :
    (CreateApplicationToken sys v { tokens := tokens } now "tsuru-healer").1 =
      .ok (applicationToken sys v now "tsuru-healer") ∧
    (createTwiceThenDelete sys v { tokens := tokens } now "tsuru-healer").1 = none ∧
    GetToken (createTwiceThenDelete sys v { tokens := tokens } now "tsuru-healer").2 now
        (applicationToken sys v now "tsuru-healer").Token ≠
      .error (.errorString "Token not found") ∧
    GetToken (createTwiceThenDelete sys v { } now "tsuru-healer").2 now
        (applicationToken sys v now "tsuru-healer").Token =
      .ok (applicationToken sys v now "tsuru-healer") := by
  refine ⟨rfl, ?_, ?_, ?_⟩
  · rw [createTwiceThenDelete_eq]
  · rw [createTwiceThenDelete_eq]
    have hne := find?_eraseP_append_twice (fun t => t.Token == token sys v now "tsuru-healer")
      (applicationToken sys v now "tsuru-healer") (by simp [applicationToken]) tokens
    unfold GetToken
    simp only
    have htok : (applicationToken sys v now "tsuru-healer").Token =
        token sys v now "tsuru-healer" := rfl
    rw [htok]
    generalize List.find? (fun t => t.Token == token sys v now "tsuru-healer")
      (List.eraseP (fun t => t.Token == token sys v now "tsuru-healer")
        (tokens ++ [applicationToken sys v now "tsuru-healer",
          applicationToken sys v now "tsuru-healer"])) = found at hne ⊢
    cases found with
    | none => exact absurd rfl hne
    | some x =>
      simp only
      split
      · intro h
        injection h with h
        injection h with h
        exact absurd h (by decide)
      · intro h
        cases h
  · have h := createTwiceThenDelete_eq sys v now "tsuru-healer" []
    rw [h]
    have hexp := applicationToken_valid sys v now "tsuru-healer"
    have htok : (applicationToken sys v now "tsuru-healer").Token =
        token sys v now "tsuru-healer" := rfl
    simp [GetToken, List.eraseP_cons_of_pos, htok, hexp]

/-- When at most one element matches, none does after the first match is taken
out. -/
theorem find?_eraseP_of_unique (p : Token → Bool) :
    ∀ l : List Token, (l.filter p).length ≤ 1 → (l.eraseP p).find? p = none := by
  intro l
  induction l with
  | nil => intro _; rfl
  | cons x l ih =>
    intro h
    by_cases hx : p x = true
    · rw [List.eraseP_cons_of_pos hx]
      rw [List.filter_cons_of_pos hx, List.length_cons] at h
      have hnil : l.filter p = [] := List.length_eq_zero.1 (by omega)
      apply List.find?_eq_none.2
      intro y hy hpy
      have : y ∈ l.filter p := List.mem_filter.2 ⟨hy, hpy⟩
      rw [hnil] at this
      cases this
    · rw [List.eraseP_cons_of_neg hx, List.find?_cons_of_neg _ hx]
      apply ih
      rwa [List.filter_cons_of_neg hx] at h

/-- When at most one stored token has the token string, a successful
`DeleteToken` makes `GetToken` answer `Token not found`. -/
theorem DeleteToken_of_unique (w : World) (now : Int) (s : String)
    (hunique : (w.tokens.filter (fun t => t.Token == s)).length ≤ 1)
    (hdel : (DeleteToken w s).1 = none) :
    GetToken (DeleteToken w s).2 now s = .error (.errorString "Token not found") := by
  unfold DeleteToken at hdel ⊢
  cases hc : w.connErr with
  | some e => simp [hc] at hdel
  | none =>
    simp only [hc] at hdel ⊢
    split at hdel
    · rename_i hany
      simp only [hany, if_true, GetToken, hc, find?_eraseP_of_unique _ _ hunique]
    · simp at hdel

/-! ## Team members and user keys -/

/-- Taking out the element at a position of the slice. -/
theorem removeAt_eq {α : Type} (s : List α) (index : Nat) (h : index < s.length) :
    removeAt s index = s.take index ++ s.drop (index + 1) := by
  unfold removeAt goCopy
  have h1 : (List.drop (index + 1) s).take (List.drop index s).length = List.drop (index + 1) s := by
    apply List.take_of_length_le
    simp; omega
  rw [h1]
  have h2 : (s.take index ++ (List.drop (index + 1) s ++
      List.drop (List.drop (index + 1) s).length (List.drop index s))) =
      (s.take index ++ List.drop (index + 1) s) ++
      List.drop (List.drop (index + 1) s).length (List.drop index s) := by simp
  rw [h2]
  apply List.take_left'
  simp; omega

/-- What the index loop finds. -/
theorem firstIndexFrom_spec {α : Type} (p : α → Bool) (l : List α) : ∀ i : Nat,
    ((∀ x ∈ l, p x = false) ∧ firstIndexFrom p i l = -1) ∨
    (∃ before x after, l = before ++ x :: after ∧ (∀ y ∈ before, p y = false) ∧ p x = true ∧
      firstIndexFrom p i l = ((i + before.length : Nat) : Int)) := by
  induction l with
  | nil => intro i; left; simp [firstIndexFrom]
  | cons a l ih =>
    intro i
    by_cases ha : p a = true
    · right
      exact ⟨[], a, l, rfl, by simp, ha, by simp [firstIndexFrom, ha]⟩
    · have ha' : p a = false := by simpa using ha
      rcases ih (i + 1) with ⟨hall, hidx⟩ | ⟨before, x, after, hl, hb, hx, hidx⟩
      · left
        refine ⟨?_, by simp [firstIndexFrom, ha', hidx]⟩
        intro y hy
        rcases List.mem_cons.1 hy with rfl | hy
        · exact ha'
        · exact hall y hy
      · right
        refine ⟨a :: before, x, after, by simp [hl], ?_, hx, ?_⟩
        · intro y hy
          rcases List.mem_cons.1 hy with rfl | hy
          · exact ha'
          · exact hb y hy
        · simp only [firstIndexFrom, ha', Bool.false_eq_true, if_false, hidx, List.length_cons]
          congr 1; omega

/-- Taking out the element that follows `before`. -/
theorem removeAt_append_cons {α : Type} (before after : List α) (x : α) :
    removeAt (before ++ x :: after) before.length = before ++ after := by
  rw [removeAt_eq _ _ (by simp)]
  simp

/-- What the loop of `FindKey` finds. -/
theorem findKeyFrom_spec (key : Key) (l : List Key) : ∀ i : Nat,
    ((∀ k ∈ l, k.Content ≠ key.Content) ∧ findKeyFrom key i l = ({ Name := "", Content := "" }, -1)) ∨
    (∃ before k after, l = before ++ k :: after ∧ (∀ x ∈ before, x.Content ≠ key.Content) ∧
      k.Content = key.Content ∧ findKeyFrom key i l = (k, ((i + before.length : Nat) : Int))) := by
  induction l with
  | nil => intro i; left; simp [findKeyFrom]
  | cons a l ih =>
    intro i
    by_cases ha : a.Content = key.Content
    · right
      exact ⟨[], a, l, rfl, by simp, ha, by simp [findKeyFrom, ha]⟩
    · rcases ih (i + 1) with ⟨hall, hidx⟩ | ⟨before, x, after, hl, hb, hx, hidx⟩
      · left
        refine ⟨?_, by simp [findKeyFrom, ha, hidx]⟩
        intro y hy
        rcases List.mem_cons.1 hy with rfl | hy
        · exact ha
        · exact hall y hy
      · right
        refine ⟨a :: before, x, after, by simp [hl], ?_, hx, ?_⟩
        · intro y hy
          rcases List.mem_cons.1 hy with rfl | hy
          · exact ha
          · exact hb y hy
        · simp only [findKeyFrom, beq_iff_eq, ha, if_false, hidx, List.length_cons]
          congr 2; omega

/-- The scan of `ContainsUser` is list membership. -/
theorem ContainsUser_iff (t : Team) (u : User) : t.ContainsUser u = true ↔ u.Email ∈ t.Users := by
  simp [Team.ContainsUser]

/-- The outcome of `RemoveUser` for a user who is not in the team. -/
theorem RemoveUser_absent (t : Team) (u : User) (h : u.Email ∉ t.Users) :
    t.RemoveUser u =
      (some (.errorString ("User " ++ u.Email ++ " is not in the team " ++ t.Name ++ ".")), t) := by
  rcases firstIndexFrom_spec (fun user => u.Email == user) t.Users 0 with
    ⟨_, hidx⟩ | ⟨before, x, after, hl, _, hx, _⟩
  · simp [Team.RemoveUser, hidx]
  · exfalso
    apply h
    rw [hl]
    have : u.Email = x := by simpa using hx
    simp [this]

/-- The outcome of `RemoveUser` for a user who is in the team. -/
theorem RemoveUser_present (t : Team) (u : User) (h : u.Email ∈ t.Users) :
    ∃ before after, t.Users = before ++ u.Email :: after ∧ u.Email ∉ before ∧
      t.RemoveUser u = (none, { t with Users := before ++ after }) := by
  rcases firstIndexFrom_spec (fun user => u.Email == user) t.Users 0 with
    ⟨hall, _⟩ | ⟨before, x, after, hl, hb, hx, hidx⟩
  · exfalso
    have := hall _ h
    simp at this
  · have hxe : u.Email = x := by simpa using hx
    subst hxe
    refine ⟨before, after, hl, ?_, ?_⟩
    · intro hmem
      have := hb _ hmem
      simp at this
    · have hnn : ¬ ((0 + before.length : Nat) : Int) < 0 := by omega
      simp only [Team.RemoveUser, hidx, hnn, if_false, Int.toNat_ofNat, Nat.zero_add]
      rw [hl, removeAt_append_cons]
      have hnn' : ¬ ((before.length : Nat) : Int) < 0 := by omega
      rw [if_neg hnn']

/-- C25: `Team.RemoveUser` fails, with the text naming the user and the team,
exactly when the user's email is not in `Users`, and then leaves the team as it
was; otherwise it takes out the first occurrence of the email and nothing else,
so that `Users` is one shorter and the others keep their order; and when
`Users` had no duplicates `ContainsUser` is false afterwards. -/
theorem RemoveUser_removes_first_occurrence (t : Team) (u : User) :
    ((t.RemoveUser u).1 ≠ none ↔ u.Email ∉ t.Users) ∧
    (u.Email ∉ t.Users → t.RemoveUser u =
      (some (.errorString ("User " ++ u.Email ++ " is not in the team " ++ t.Name ++ ".")), t)) ∧
    (u.Email ∈ t.Users →
      ∃ before after, t.Users = before ++ u.Email :: after ∧ u.Email ∉ before ∧
        t.RemoveUser u = (none, { t with Users := before ++ after }) ∧
        (t.RemoveUser u).2.Users.length + 1 = t.Users.length) ∧
    (u.Email ∈ t.Users → t.Users.Nodup → (t.RemoveUser u).2.ContainsUser u = false) := by
  refine ⟨?_, RemoveUser_absent t u, ?_, ?_⟩
  · constructor
    · intro hne hmem
      obtain ⟨before, after, _, _, hr⟩ := RemoveUser_present t u hmem
      rw [hr] at hne
      exact hne rfl
    · intro h
      rw [RemoveUser_absent t u h]
      simp
  · intro hmem
    obtain ⟨before, after, hl, hb, hr⟩ := RemoveUser_present t u hmem
    refine ⟨before, after, hl, hb, hr, ?_⟩
    rw [hr, hl]
    simp
    omega
  · intro hmem hnd
    obtain ⟨before, after, hl, hb, hr⟩ := RemoveUser_present t u hmem
    rw [hr]
    rw [hl] at hnd
    have hnd' : u.Email ∉ before ∧ u.Email ∉ after := by
      have h1 := List.nodup_append.1 hnd
      refine ⟨hb, ?_⟩
      exact (List.nodup_cons.1 h1.2.1).1
    cases hc : Team.ContainsUser { t with Users := before ++ after } u with
    | false => rfl
    | true =>
      rw [ContainsUser_iff] at hc
      simp at hc
      rcases hc with hc | hc
      · exact absurd hc hnd'.1
      · exact absurd hc hnd'.2

/-- C25 at the team `cobrateam`: taking `x` out removes the first `x`. -/
theorem RemoveUser_removes_first_occurrence_witness :
    "x" ∈ sampleTeam.Users ∧
    ∃ before after, sampleTeam.Users = before ++ "x" :: after ∧ "x" ∉ before ∧
      sampleTeam.RemoveUser { Email := "x" } = (none, { sampleTeam with Users := before ++ after }) ∧
      (sampleTeam.RemoveUser { Email := "x" }).2.Users.length + 1 = sampleTeam.Users.length :=
  ⟨by decide, (RemoveUser_removes_first_occurrence sampleTeam { Email := "x" }).2.2.1 (by decide)⟩

/-- A call of `AddUser` or of `RemoveUser` keeps `Users` free of duplicates. -/
theorem after_nodup (t : Team) (call : TeamCall) (h : t.Users.Nodup) : (t.after call).Users.Nodup := by
  cases call with
  | AddUser u =>
    show (t.AddUser u).2.Users.Nodup
    cases hc : t.ContainsUser u with
    | true =>
      have : t.AddUser u = (some (.errorString
          ("User " ++ u.Email ++ " is already in the team " ++ t.Name ++ ".")), t) := by
        simp [Team.AddUser, hc]
      rw [this]
      exact h
    | false =>
      have hnot : u.Email ∉ t.Users := by
        intro hmem
        rw [(ContainsUser_iff t u).2 hmem] at hc
        cases hc
      have : t.AddUser u = (none, { t with Users := t.Users ++ [u.Email] }) := by
        simp [Team.AddUser, hc]
      rw [this]
      exact List.Nodup.append h (List.nodup_singleton _) (by simpa using hnot)
  | RemoveUser u =>
    show (t.RemoveUser u).2.Users.Nodup
    by_cases hmem : u.Email ∈ t.Users
    · obtain ⟨before, after, hl, _, hr⟩ := RemoveUser_present t u hmem
      rw [hr]
      rw [hl] at h
      exact h.sublist (List.Sublist.append_left (List.sublist_cons_self _ _) _)
    · rw [RemoveUser_absent t u hmem]
      exact h

/-- C26: `Team.AddUser` fails, with the text naming the user and the team,
exactly when `ContainsUser` is true, and then leaves the team as it was;
otherwise the user's email is appended to `Users`.  So a `Users` list without
duplicates has none after any sequence of `AddUser` and `RemoveUser` calls, and
`AddUser` of a user who is not a member followed by `RemoveUser` of that user
gives the team back as it was. -/
theorem AddUser_appends_new_member (t : Team) (u : User) :
    ((t.AddUser u).1 ≠ none ↔ t.ContainsUser u = true) ∧
    (t.ContainsUser u = true → t.AddUser u =
      (some (.errorString ("User " ++ u.Email ++ " is already in the team " ++ t.Name ++ ".")), t)) ∧
    (t.ContainsUser u = false → t.AddUser u = (none, { t with Users := t.Users ++ [u.Email] })) ∧
    (t.Users.Nodup → ∀ calls : List TeamCall, (t.afterAll calls).Users.Nodup) ∧
    (t.ContainsUser u = false → (t.AddUser u).2.RemoveUser u = (none, t)) := by
  refine ⟨?_, ?_, ?_, ?_, ?_⟩
  · cases hc : t.ContainsUser u <;> simp [Team.AddUser, hc]
  · intro hc
    simp [Team.AddUser, hc]
  · intro hc
    simp [Team.AddUser, hc]
  · intro hnd calls
    unfold Team.afterAll
    induction calls generalizing t with
    | nil => exact hnd
    | cons call calls ih => exact ih (t.after call) (after_nodup t call hnd)
  · intro hc
    have hnot : u.Email ∉ t.Users := by
      intro hmem
      rw [(ContainsUser_iff t u).2 hmem] at hc
      cases hc
    have hadd : t.AddUser u = (none, { t with Users := t.Users ++ [u.Email] }) := by
      simp [Team.AddUser, hc]
    rw [hadd]
    obtain ⟨before, after, hl, hb, hr⟩ :=
      RemoveUser_present { t with Users := t.Users ++ [u.Email] } u (by simp)
    rw [hr]
    have hl' : t.Users ++ [u.Email] = before ++ u.Email :: after := hl
    have hba : before = t.Users ∧ after = [] := by
      have happ := List.append_eq_append_iff.1 hl'
      rcases happ with ⟨a', h1, h2⟩ | ⟨c', h1, h2⟩
      · -- before = t.Users ++ a', [u.Email] = a' ++ u.Email :: after
        cases a' with
        | nil =>
          simp at h1 h2
          exact ⟨h1, h2⟩
        | cons a a' =>
          exfalso
          simp at h2
      · -- t.Users = before ++ c', u.Email :: after = c' ++ [u.Email]
        cases c' with
        | nil =>
          simp at h1 h2
          exact ⟨h1.symm, h2.symm ▸ rfl⟩
        | cons c c' =>
          exfalso
          simp at h2
          apply hnot
          rw [h1, h2.1]
          simp
    rw [hba.1, hba.2]
    simp

/-- C26 at the team `cobrateam`: a new member is appended and taking the member
out again gives the team back. -/
theorem AddUser_appends_new_member_witness :
    sampleTeam.ContainsUser { Email := "w" } = false ∧
    sampleTeam.AddUser { Email := "w" } = (none, { sampleTeam with Users := sampleTeam.Users ++ ["w"] }) ∧
    (sampleTeam.AddUser { Email := "w" }).2.RemoveUser { Email := "w" } = (none, sampleTeam) :=
  ⟨by decide, (AddUser_appends_new_member sampleTeam { Email := "w" }).2.2.1 (by decide),
    (AddUser_appends_new_member sampleTeam { Email := "w" }).2.2.2.2 (by decide)⟩

/-- The loop of `FindKey` looks at the content of the key only. -/
theorem findKeyFrom_congr (key other : Key) (h : other.Content = key.Content) (l : List Key) :
    ∀ i : Nat, findKeyFrom other i l = findKeyFrom key i l := by
  induction l with
  | nil => intro i; rfl
  | cons a l ih => intro i; simp only [findKeyFrom, h, ih]

/-- The outcome of `FindKey` and `RemoveKey` when no key has the content. -/
theorem FindKey_absent (u : User) (key : Key) (h : ∀ k ∈ u.Keys, k.Content ≠ key.Content) :
    u.FindKey key = ({ Name := "", Content := "" }, -1) ∧
    u.RemoveKey key = (some (.errorString "Key not found"), u) := by
  rcases findKeyFrom_spec key u.Keys 0 with ⟨_, hidx⟩ | ⟨before, k, after, hl, _, hk, _⟩
  · exact ⟨hidx, by simp [User.RemoveKey, User.FindKey, hidx]⟩
  · exact absurd hk (h k (by simp [hl]))

/-- The outcome of `FindKey` and `RemoveKey` when some key has the content. -/
theorem FindKey_present (u : User) (key : Key) (h : ∃ k ∈ u.Keys, k.Content = key.Content) :
    ∃ before k after, u.Keys = before ++ k :: after ∧ (∀ x ∈ before, x.Content ≠ key.Content) ∧
      k.Content = key.Content ∧ u.FindKey key = (k, (before.length : Int)) ∧
      u.RemoveKey key = (none, { u with Keys := before ++ after }) := by
  rcases findKeyFrom_spec key u.Keys 0 with ⟨hall, _⟩ | ⟨before, k, after, hl, hb, hk, hidx⟩
  · obtain ⟨k, hmem, hk⟩ := h
    exact absurd hk (hall k hmem)
  · rw [Nat.zero_add] at hidx
    refine ⟨before, k, after, hl, hb, hk, hidx, ?_⟩
    have hnn : ¬ ((before.length : Nat) : Int) < 0 := by omega
    simp only [User.RemoveKey, User.FindKey, hidx, hnn, if_false, Int.toNat_ofNat]
    rw [hl, removeAt_append_cons]

/-- C27: the keys of a user are told apart by `Content` alone.  `FindKey`
returns the first key with the content of its argument and the position of that
key, or the empty key and -1 when there is none; `HasKey` is true exactly when
there is one; `RemoveKey` fails with `Key not found` exactly when there is none,
leaving the user as it was, and otherwise takes out that first key and nothing
else, so that `Keys` is one shorter and the others keep their order. -/
theorem keys_are_told_apart_by_content (u : User) (key : Key) :
    (∀ other : Key, other.Content = key.Content →
      u.FindKey other = u.FindKey key ∧ u.HasKey other = u.HasKey key ∧
      u.RemoveKey other = u.RemoveKey key) ∧
    (u.HasKey key = true ↔ ∃ k ∈ u.Keys, k.Content = key.Content) ∧
    ((u.RemoveKey key).1 ≠ none ↔ ¬ ∃ k ∈ u.Keys, k.Content = key.Content) ∧
    ((¬ ∃ k ∈ u.Keys, k.Content = key.Content) →
      u.FindKey key = ({ Name := "", Content := "" }, -1) ∧
      u.RemoveKey key = (some (.errorString "Key not found"), u)) ∧
    ((∃ k ∈ u.Keys, k.Content = key.Content) →
      ∃ before k after, u.Keys = before ++ k :: after ∧ (∀ x ∈ before, x.Content ≠ key.Content) ∧
        k.Content = key.Content ∧ u.FindKey key = (k, (before.length : Int)) ∧
        u.RemoveKey key = (none, { u with Keys := before ++ after }) ∧
        (u.RemoveKey key).2.Keys.length + 1 = u.Keys.length) := by
  have habs : (¬ ∃ k ∈ u.Keys, k.Content = key.Content) → ∀ k ∈ u.Keys, k.Content ≠ key.Content :=
    fun h k hk hc => h ⟨k, hk, hc⟩
  refine ⟨?_, ?_, ?_, fun h => FindKey_absent u key (habs h), ?_⟩
  · intro other h
    have hf : u.FindKey other = u.FindKey key := findKeyFrom_congr key other h u.Keys 0
    exact ⟨hf, by simp only [User.HasKey, hf], by simp only [User.RemoveKey, hf]⟩
  · constructor
    · intro hh
      by_contra hne
      rw [User.HasKey, (FindKey_absent u key (habs hne)).1] at hh
      simp at hh
    · intro h
      obtain ⟨before, k, after, _, _, _, hf, _⟩ := FindKey_present u key h
      rw [User.HasKey, hf]
      simp
      omega
  · constructor
    · intro hne h
      obtain ⟨before, k, after, _, _, _, _, hr⟩ := FindKey_present u key h
      rw [hr] at hne
      exact hne rfl
    · intro h
      rw [(FindKey_absent u key (habs h)).2]
      simp
  · intro h
    obtain ⟨before, k, after, hl, hb, hk, hf, hr⟩ := FindKey_present u key h
    refine ⟨before, k, after, hl, hb, hk, hf, hr, ?_⟩
    rw [hr, hl]
    simp
    omega

/-- C27 at a user with two keys of one content: a key of that content and
another name finds the first of them, and `RemoveKey` takes that one out. -/
theorem keys_are_told_apart_by_content_witness :
    (∃ k ∈ keyedUser.Keys, k.Content = "ssh-rsa 2") ∧
    ∃ before k after, keyedUser.Keys = before ++ k :: after ∧
      (∀ x ∈ before, x.Content ≠ "ssh-rsa 2") ∧ k.Content = "ssh-rsa 2" ∧
      keyedUser.FindKey { Name := "other", Content := "ssh-rsa 2" } = (k, (before.length : Int)) ∧
      keyedUser.RemoveKey { Name := "other", Content := "ssh-rsa 2" } =
        (none, { keyedUser with Keys := before ++ after }) ∧
      (keyedUser.RemoveKey { Name := "other", Content := "ssh-rsa 2" }).2.Keys.length + 1 =
        keyedUser.Keys.length :=
  ⟨by decide, (keys_are_told_apart_by_content keyedUser { Name := "other", Content := "ssh-rsa 2" }).2.2.2.2
    (by decide)⟩

/-! ## The emails sent to the repository host on a revocation -/

/-- The flag after the loop over the users of one team. -/
theorem scanUsers_eq (email : String) (found : Bool) (l : List String) :
    scanUsers email found l = (found || decide (email ∈ l)) := by
  induction l with
  | nil => simp [scanUsers]
  | cons user rest ih =>
    by_cases h : user = email
    · simp [scanUsers, h]
    · have h' : ¬ email = user := fun e => h e.symm
      simp [scanUsers, h, h', ih]

/-- The flag after the loop over the teams. -/
theorem scanTeams_eq (email : String) (teams : List Team) : ∀ found : Bool,
    scanTeams email found teams = (found || decide (∃ team ∈ teams, email ∈ team.Users)) := by
  induction teams with
  | nil => intro found; simp [scanTeams]
  | cons team rest ih =>
    intro found
    rw [scanTeams, ih, scanUsers_eq]
    by_cases h : email ∈ team.Users <;> simp [h, Bool.or_assoc]

/-- Writing at position `i` and reading one more than `i` elements. -/
theorem take_set_succ (users : List String) (i : Nat) (email : String) (h : i < users.length) :
    (users.set i email).take (i + 1) = users.take i ++ [email] := by
  rw [List.take_succ]
  have h1 : List.take i (users.set i email) = List.take i users := by
    apply List.ext_getElem?
    intro n
    by_cases hn : n < i
    · rw [List.getElem?_take_of_lt hn, List.getElem?_take_of_lt hn, List.getElem?_set_ne (by omega)]
    · rw [List.getElem?_take_eq_none (by omega), List.getElem?_take_eq_none (by omega)]
  rw [h1]
  simp [List.getElem?_set, h]

/-- The state of the outer loop: the emails kept so far are the first `i`
entries of `users`. -/
theorem collectEmails_take (teams : List Team) (rest : List String) :
    ∀ (users : List String) (i : Nat), i + rest.length ≤ users.length →
      (collectEmails teams (users, i) rest).1.take (collectEmails teams (users, i) rest).2 =
        users.take i ++ rest.filter (fun email => !scanTeams email false teams) := by
  induction rest with
  | nil => intro users i _; simp [collectEmails]
  | cons email rest ih =>
    intro users i hlen
    simp only [List.length_cons] at hlen
    cases hk : scanTeams email false teams with
    | false =>
      simp only [collectEmails, hk, Bool.not_false, if_true, List.filter_cons_of_pos]
      rw [ih _ _ (by simp; omega), take_set_succ _ _ _ (by omega)]
      simp
    | true =>
      simp only [collectEmails, hk, Bool.not_true, Bool.false_eq_true, if_false]
      rw [ih users i (by omega)]
      simp [hk]

/-- The emails `getEmailsForRevoking` returns, as a selection from `t.Users`. -/
theorem getEmailsForRevoking_eq_filter (teams : List Team) (t : Team) :
    getEmailsForRevoking teams t =
      t.Users.filter (fun email => decide (∀ team ∈ teams, email ∉ team.Users)) := by
  unfold getEmailsForRevoking
  rw [collectEmails_take teams t.Users _ 0 (by simp)]
  simp only [List.take_zero, List.nil_append]
  apply List.filter_congr
  intro email _
  rw [scanTeams_eq]
  by_cases h : ∃ team ∈ teams, email ∈ team.Users
  · have h' : ¬ ∀ team ∈ teams, email ∉ team.Users := by
      intro hall
      obtain ⟨team, hm, he⟩ := h
      exact hall team hm he
    simp only [Bool.false_or, decide_eq_true h, Bool.not_true, decide_eq_false h']
  · have h' : ∀ team ∈ teams, email ∉ team.Users := fun team hm he => h ⟨team, hm, he⟩
    simp only [Bool.false_or, decide_eq_false h, Bool.not_false, decide_eq_true h']

/-- What `appsUpdate` changes: a failed update nothing, a successful one the
apps and the record of effects. -/
theorem appsUpdate_effects {w w1 : World} {name : String} {app : App} {err : Option GoError}
    (h : appsUpdate w name app = (err, w1)) :
    w1.teams = w.teams ∧
    ((err ≠ none ∧ w1 = w) ∨ (err = none ∧ w1.effects = w.effects ++ [Effect.appsUpdate name app])) := by
  unfold appsUpdate at h
  cases hr : replaceApp name app w.apps with
  | none =>
    rw [hr] at h
    simp only [Prod.mk.injEq] at h
    obtain ⟨h1, h2⟩ := h
    subst h1 h2
    exact ⟨rfl, Or.inl ⟨by simp, rfl⟩⟩
  | some apps =>
    rw [hr] at h
    simp only [Prod.mk.injEq] at h
    obtain ⟨h1, h2⟩ := h
    subst h1 h2
    exact ⟨rfl, Or.inr ⟨rfl, rfl⟩⟩

/-- The effects `revokeAccessFromTeam` adds: a call of `RevokeAccess` among
them comes after a successful `Revoke` and carries what
`getEmailsForRevoking` returns for the teams the app has then. -/
theorem revokeAccessFromTeam_effects (lib : Library) (Revoke : App → Team → Option GoError × App)
    (w : World) (appName teamName : String) (tok : Token) :
    ∃ added, (revokeAccessFromTeam lib Revoke w appName teamName tok).2.effects = w.effects ++ added ∧
      ∀ apps users, Effect.RevokeAccess apps users ∈ added →
        ∃ u app team app', tok.User lib w = .ok u ∧ getApp w appName u = .ok app ∧
          findTeam w teamName = some team ∧ Revoke app team = (none, app') ∧
          users = getEmailsForRevoking (app'.GetTeams w) team := by
  unfold revokeAccessFromTeam
  cases huser : tok.User lib w with
  | error e => exact ⟨[], by simp, by simp⟩
  | ok u =>
    simp only
    cases happ : getApp w appName u with
    | error e => exact ⟨[], by simp, by simp⟩
    | ok app =>
      simp only
      have hconn := getApp_ok_connErr happ
      simp only [hconn]
      cases hteam : findTeam w teamName with
      | none => exact ⟨[], by simp, by simp⟩
      | some team =>
        simp only
        by_cases hone : app.Teams.length = 1
        · simp only [hone, if_true]
          exact ⟨[], by simp, by simp⟩
        · simp only [hone, if_false]
          rcases hrev : Revoke app team with ⟨err, app'⟩
          cases err with
          | some e => exact ⟨[], by simp, by simp⟩
          | none =>
            simp only
            rcases hu : appsUpdate w app'.Name app' with ⟨uerr, w1⟩
            obtain ⟨hteams, hcase⟩ := appsUpdate_effects hu
            have hget : app'.GetTeams w1 = app'.GetTeams w := by
              simp only [App.GetTeams, hteams]
            cases uerr with
            | some e =>
              rcases hcase with ⟨_, hw⟩ | ⟨h, _⟩
              · simp only [hw]
                exact ⟨[], by simp, by simp⟩
              · cases h
            | none =>
              rcases hcase with ⟨h, _⟩ | ⟨_, heff⟩
              · exact absurd rfl h
              · simp only [hget]
                split
                · split
                  · refine ⟨[Effect.appsUpdate app'.Name app', Effect.RevokeAccess [app'.Name]
                      (getEmailsForRevoking (app'.GetTeams w) team)], by simp [heff], ?_⟩
                    intro apps users hmem
                    simp at hmem
                    exact ⟨u, app, team, app', rfl, happ, rfl, hrev, hmem.2⟩
                  · refine ⟨[Effect.appsUpdate app'.Name app', Effect.RevokeAccess [app'.Name]
                      (getEmailsForRevoking (app'.GetTeams w) team)], by simp [heff], ?_⟩
                    intro apps users hmem
                    simp at hmem
                    exact ⟨u, app, team, app', rfl, happ, rfl, hrev, hmem.2⟩
                · exact ⟨[Effect.appsUpdate app'.Name app'], heff, by simp⟩

/-- C24: for every team being revoked and every list of teams that
`app.GetTeams()` returns, `getEmailsForRevoking` returns the emails of
`t.Users` that are in none of those teams, in their order and as often as they
occur; so an email is returned exactly when it is in `t.Users` and in none of
the teams, and every list the handler sends to `RevokeAccess` holds no user of
a team the app still has. -/
theorem getEmailsForRevoking_spares_remaining_members (teams : List Team) (t : Team) :
    getEmailsForRevoking teams t =
      t.Users.filter (fun email => decide (∀ team ∈ teams, email ∉ team.Users)) ∧
    (∀ email, email ∈ getEmailsForRevoking teams t ↔
      email ∈ t.Users ∧ ∀ team ∈ teams, email ∉ team.Users) ∧
    (∀ email, (getEmailsForRevoking teams t).count email =
      if ∀ team ∈ teams, email ∉ team.Users then t.Users.count email else 0) ∧
    (∀ (lib : Library) (Revoke : App → Team → Option GoError × App) (w : World)
        (appName teamName : String) (tok : Token),
      ∃ added,
        (revokeAccessFromTeam lib Revoke w appName teamName tok).2.effects = w.effects ++ added ∧
        ∀ apps users, Effect.RevokeAccess apps users ∈ added →
          ∃ u app team app', tok.User lib w = .ok u ∧ getApp w appName u = .ok app ∧
            findTeam w teamName = some team ∧ Revoke app team = (none, app') ∧
            ∀ email ∈ users, email ∈ team.Users ∧ ∀ other ∈ app'.GetTeams w, email ∉ other.Users) := by
  have hmem : ∀ (teams : List Team) (t : Team) (email : String),
      email ∈ getEmailsForRevoking teams t ↔
        email ∈ t.Users ∧ ∀ team ∈ teams, email ∉ team.Users := by
    intro teams t email
    rw [getEmailsForRevoking_eq_filter, List.mem_filter]
    simp
  refine ⟨getEmailsForRevoking_eq_filter teams t, hmem teams t, ?_, ?_⟩
  · intro email
    rw [getEmailsForRevoking_eq_filter]
    by_cases h : ∀ team ∈ teams, email ∉ team.Users
    · rw [if_pos h, List.count_filter (by simpa using h)]
    · rw [if_neg h, List.count_eq_zero]
      intro hm
      exact h (by simpa using (List.mem_filter.1 hm).2)
  · intro lib Revoke w appName teamName tok
    obtain ⟨added, heff, hall⟩ := revokeAccessFromTeam_effects lib Revoke w appName teamName tok
    refine ⟨added, heff, ?_⟩
    intro apps users hin
    obtain ⟨u, app, team, app', h1, h2, h3, h4, h5⟩ := hall apps users hin
    refine ⟨u, app, team, app', h1, h2, h3, h4, ?_⟩
    intro email he
    rw [h5] at he
    exact (hmem _ _ _).1 he

set_option maxRecDepth 100000 in
/-- C24 at a team of five entries, two of them members of a remaining team, and
at the handler on an app of two teams. -/
theorem getEmailsForRevoking_spares_remaining_members_witness :
    getEmailsForRevoking remainingTeams revokedTeam = ["w", "w", "q"] ∧
    ("x" ∈ getEmailsForRevoking remainingTeams revokedTeam ↔
      "x" ∈ revokedTeam.Users ∧ ∀ team ∈ remainingTeams, "x" ∉ team.Users) ∧
    (revokeAccessFromTeam (fixedLibrary { }) App.Revoke twoTeamWorld "appname" "otherteam"
        sampleToken).2.effects =
      [Effect.appsUpdate "appname" { Name := "appname", Teams := ["tsuruteam"] },
        Effect.RevokeAccess ["appname"] ["someone@thewho.com"]] :=
  ⟨by decide, (getEmailsForRevoking_spares_remaining_members remainingTeams revokedTeam).2.1 "x",
    by decide⟩

/-! ## The client -/

/-- The result of `Client.Do` after a round trip that succeeds, on a client that
has a context whenever the version is not supported: a nil response and an
error whose text is the body of the response when the status code is 400 or
more, and the response with a nil error when it is 399 or less; an unsupported
version adds the warning to the standard error of the context and nothing else,
and the result is the same whatever `validateVersion` answers. -/
theorem Do_result_of_status (env : CmdEnv) (c : Client) (request : Request)
    (response : Response)
    (hround : c.HttpClient (authorized env request) = .ok response)
    (hctx : c.context = none →
      env.validateVersion (response.Header.Get c.versionHeader) c.currentVersion = true) :
    (400 ≤ response.StatusCode →
      (Client.Do env c request).1 = .returns (none, some (.errorString response.Body))) ∧
    (response.StatusCode ≤ 399 → (Client.Do env c request).1 = .returns (some response, none)) ∧
    (Client.Do env c request).2.2 =
      (if env.validateVersion (response.Header.Get c.versionHeader) c.currentVersion then c.context
       else c.context.map (fun ctx => Context.mk (ctx.Stderr ++
         versionWarning c.progname (response.Header.Get c.versionHeader) c.currentVersion))) ∧
    (∀ validateVersion : String → String → Bool,
      (c.context = none →
        validateVersion (response.Header.Get c.versionHeader) c.currentVersion = true) →
      (Client.Do { env with validateVersion := validateVersion } c request).1 =
        (Client.Do env c request).1) := by
  have hround' : ∀ v : String → String → Bool,
      c.HttpClient (authorized { env with validateVersion := v } request) = .ok response := by
    intro v
    exact hround
  have key : ∀ v : String → String → Bool,
      (c.context = none → v (response.Header.Get c.versionHeader) c.currentVersion = true) →
      (Client.Do { env with validateVersion := v } c request).1 =
        if response.StatusCode > 399 then .returns (none, some (.errorString response.Body))
        else .returns (some response, none) := by
    intro v hv
    have h := hround' v
    unfold authorized at h
    unfold Client.Do
    simp only [h, Client.detectClientError]
    cases hval : v (response.Header.Get c.versionHeader) c.currentVersion with
    | true =>
      simp only [Bool.not_true, Bool.false_eq_true, if_false]
      split <;> rfl
    | false =>
      cases hc : c.context with
      | none =>
        rw [hv hc] at hval
        cases hval
      | some ctx =>
        simp only [Bool.not_false, if_true]
        split <;> rfl
  have key0 := key env.validateVersion hctx
  refine ⟨?_, ?_, ?_, ?_⟩
  · intro h
    rw [key0, if_pos (by omega)]
  · intro h
    rw [key0, if_neg (by omega)]
  · have h := hround
    unfold authorized at h
    unfold Client.Do
    simp only [h, Client.detectClientError]
    cases hval : env.validateVersion (response.Header.Get c.versionHeader) c.currentVersion with
    | true =>
      simp only [Bool.not_true, Bool.false_eq_true, if_false, if_true]
      split <;> rfl
    | false =>
      cases hc : c.context with
      | none =>
        rw [hctx hc] at hval
        cases hval
      | some ctx =>
        simp only [Bool.not_false, if_true, Bool.false_eq_true, if_false, Option.map_some']
        split <;> rfl
  · intro v hv
    rw [key v hv, key0]

/-- On a client whose context is nil, a round trip that succeeds with a version
that is not supported ends in the run-time error of the nil pointer. -/
theorem Do_without_context (env : CmdEnv) (c : Client) (request : Request) (response : Response)
    (hround : c.HttpClient (authorized env request) = .ok response) (hctx : c.context = none)
    (hver : env.validateVersion (response.Header.Get c.versionHeader) c.currentVersion = false) :
    (Client.Do env c request).1 = .panics nilDereference := by
  unfold authorized at hround
  unfold Client.Do
  simp only [hround, Client.detectClientError, hctx, hver, Bool.not_false, if_true]

/-- The header of `TestShouldValidateVersion` is read under either spelling of
its name. -/
theorem Get_supported :
    newerServer.Header.Get "Supported-Tsuru" = "0.3" ∧
    newerServer.Header.Get "supported-tsuru" = "0.3" := by
  constructor <;> decide

/-- C21 fails on the code.  A client built without a context, as
`TestShouldReturnBodyMessageOnError` builds it, meets a server that answers with
status 200 and `Supported-Tsuru: 0.3` while the client has version 0.2.1, which
`validateVersion` refuses: the call ends in the run-time error of the nil
pointer, under either spelling of the name of the header.  The client of
`TestShouldValidateVersion`, which has a context, returns the response and a nil
error for the same answer and writes the warning the test expects. -/
theorem Do_panics_on_nil_context (env : CmdEnv)
    (hver : env.validateVersion "0.3" "0.2.1" = false) :
    (Client.Do env (bare (Transport "" 200 [("Supported-Tsuru", ["0.3"])])) { }).1 =
      .panics nilDereference ∧
    (Client.Do env { bare (Transport "" 200 [("Supported-Tsuru", ["0.3"])]) with
        versionHeader := "supported-tsuru" } { }).1 = .panics nilDereference ∧
    (Client.Do env (glb (Transport "" 200 [("Supported-Tsuru", ["0.3"])])) { }).1 =
      .returns (some newerServer, none) ∧
    (Client.Do env (glb (Transport "" 200 [("Supported-Tsuru", ["0.3"])])) { }).2.2 =
      some { Stderr := expectedWarning } := by
  have h1 := Get_supported.1
  have h2 := Get_supported.2
  unfold newerServer at h1 h2
  refine ⟨?_, ?_, ?_, ?_⟩
  · simp only [Client.Do, Transport, bare, Client.detectClientError, h1, hver]
    rfl
  · simp only [Client.Do, Transport, bare, Client.detectClientError, h2, hver]
    rfl
  · simp only [Client.Do, Transport, glb, Client.detectClientError, h1, hver]
    rfl
  · simp only [Client.Do, Transport, glb, Client.detectClientError, h1, hver]
    rfl

/-- C21 at an environment without a token file. -/
theorem Do_panics_on_nil_context_witness :
    sampleEnv.validateVersion "0.3" "0.2.1" = false ∧
    (Client.Do sampleEnv (bare (Transport "" 200 [("Supported-Tsuru", ["0.3"])])) { }).1 =
      .panics nilDereference :=
  ⟨by decide, (Do_panics_on_nil_context sampleEnv (by decide)).1⟩

/-! ## Setting and unsetting variables through the handlers -/

/-- The loop that builds `envs` in `setEnv`: one variable per entry, in the order of
the entries. -/
theorem envs_of_entries (vars : List (String × String)) : ∀ acc : List EnvVar,
    vars.foldl (fun envs kv => envs ++ [{ Name := kv.1, Value := kv.2, Public := true }]) acc =
      acc ++ vars.map (fun kv => { Name := kv.1, Value := kv.2, Public := true }) := by
  induction vars with
  | nil => intro acc; simp
  | cons kv vars ih => intro acc; simp [List.foldl_cons, ih]

/-- A lookup by name after an update that replaced an app by one of the same
name. -/
theorem find?_replaceApp {name : String} {app' : App} (hname : app'.Name = name) (n : String) :
    ∀ {apps apps' : List App}, replaceApp name app' apps = some apps' →
      apps'.find? (fun x => x.Name == n) =
        if n = name then some app' else apps.find? (fun x => x.Name == n)
  | [], _, h => by simp [replaceApp] at h
  | x :: rest, apps', h => by
    unfold replaceApp at h
    by_cases hx : x.Name = name
    · simp only [hx, beq_self_eq_true, if_true, Option.some.injEq] at h
      subst h
      by_cases hn : n = name
      · simp [List.find?_cons, hn, hname]
      · have h1 : ¬ app'.Name = n := by rw [hname]; exact fun e => hn e.symm
        have h2 : ¬ x.Name = n := by rw [hx]; exact fun e => hn e.symm
        simp [List.find?_cons, hn, h1, h2]
    · have hx' : (x.Name == name) = false := by simpa using hx
      simp only [hx', Bool.false_eq_true, if_false] at h
      cases hr : replaceApp name app' rest with
      | none => simp [hr] at h
      | some r =>
        simp only [hr, Option.map_some', Option.some.injEq] at h
        subst h
        have ih := find?_replaceApp hname n hr
        by_cases hn : n = name
        · subst hn
          rw [if_pos rfl] at ih
          rw [if_pos rfl, List.find?_cons_of_neg _ (by simpa using hx), ih]
        · by_cases hxn : x.Name = n
          · simp [List.find?_cons, hxn, hn]
          · simp only [List.find?_cons, beq_iff_eq, hxn, ih, hn, if_false]

/-- An update of a stored app by an app of the same name that keeps the private
variables keeps every private variable of the store. -/
theorem appsUpdate_keeps_private {w : World} {a a' : App}
    (hfind : w.apps.find? (fun x => x.Name == a.Name) = some a) (hname : a'.Name = a.Name)
    (hkeep : ∀ k e, a.lookupEnv k = some e → e.Public = false → a'.lookupEnv k = some e) :
    ∀ appName name e, storedEnv w appName name = some e → e.Public = false →
      storedEnv (appsUpdate w a.Name a').2 appName name = some e := by
  intro appName name e hst hpriv
  unfold appsUpdate
  cases hr : replaceApp a.Name a' w.apps with
  | none => exact hst
  | some apps =>
    simp only [storedEnv]
    rw [find?_replaceApp hname appName hr]
    by_cases hn : appName = a.Name
    · rw [if_pos hn]
      simp only [Option.some_bind]
      apply hkeep _ _ _ hpriv
      rw [storedEnv, hn, hfind] at hst
      simpa using hst
    · rw [if_neg hn]
      exact hst

/-- The loop of `setEnvsToApp` does not touch the name of the app. -/
theorem setEnvsToApp_name (envs : List EnvVar) (publicOnly : Bool) :
    ∀ a : App, (a.setEnvsToApp envs publicOnly).Name = a.Name := by
  induction envs with
  | nil => intro a; rfl
  | cons env envs ih =>
    intro a
    rw [setEnvsToApp_cons, ih]
    unfold setEnvStep App.setEnv
    split
    · split <;> rfl
    · rfl

/-- A round of the loop of `UnsetEnvs` does not touch the name of the app. -/
theorem unsetEnvStep_name (publicOnly : Bool) (a : App) (name : String) :
    (unsetEnvStep publicOnly a name).Name = a.Name := by
  unfold unsetEnvStep
  split
  · split <;> rfl
  · rfl

/-- With `publicOnly` a round of the loop of `UnsetEnvs` keeps a private
variable. -/
theorem unsetEnvStep_private (a : App) (name k : String) (e : EnvVar)
    (hpriv : e.Public = false) (h : a.lookupEnv k = some e) :
    (unsetEnvStep true a name).lookupEnv k = some e := by
  unfold unsetEnvStep
  cases hl : a.lookupEnv name with
  | none => exact h
  | some e' =>
    simp only [Bool.not_true, Bool.false_or]
    by_cases hp : e'.Public = true
    · simp only [hp, if_true]
      have hk : k ≠ name := by
        intro hk
        rw [hk, hl] at h
        have : e' = e := by simpa using h
        rw [this, hpriv] at hp
        cases hp
      unfold App.lookupEnv
      simp only
      rw [lookup_filter_ne, if_neg hk]
      exact h
    · simp only [hp, Bool.false_eq_true, if_false]
      exact h

/-- With `publicOnly` the loop of `UnsetEnvs` keeps the name of the app and
every private variable. -/
theorem unsetEnvs_private (names : List String) (k : String) (e : EnvVar)
    (hpriv : e.Public = false) :
    ∀ a : App, a.lookupEnv k = some e →
      (names.foldl (unsetEnvStep true) a).Name = a.Name ∧
      (names.foldl (unsetEnvStep true) a).lookupEnv k = some e := by
  induction names with
  | nil => intro a h; exact ⟨rfl, h⟩
  | cons name names ih =>
    intro a h
    rw [List.foldl_cons]
    have := ih _ (unsetEnvStep_private a name k e hpriv h)
    exact ⟨by rw [this.1, unsetEnvStep_name], this.2⟩

/-- The loop of `UnsetEnvs` does not touch the name of the app. -/
theorem unsetEnvs_name (publicOnly : Bool) (names : List String) :
    ∀ a : App, (names.foldl (unsetEnvStep publicOnly) a).Name = a.Name := by
  induction names with
  | nil => intro a; rfl
  | cons name names ih => intro a; rw [List.foldl_cons, ih, unsetEnvStep_name]

/-- `App.SetEnvs` with `publicOnly` on a stored app keeps every private variable of
the store. -/
theorem SetEnvs_keeps_private {w : World} {a : App} (envs : List EnvVar)
    (hfind : w.apps.find? (fun x => x.Name == a.Name) = some a) :
    ∀ appName name e, storedEnv w appName name = some e → e.Public = false →
      storedEnv (App.SetEnvs w a envs true).2 appName name = some e := by
  unfold App.SetEnvs
  cases w.connErr with
  | some err => intro _ _ _ h _; exact h
  | none =>
    exact appsUpdate_keeps_private hfind (setEnvsToApp_name envs true a)
      (fun k e h hp => lookupEnv_setEnvsToApp_private envs k e hp a h)

/-- `App.UnsetEnvs` with `publicOnly` on a stored app keeps every private variable
of the store. -/
theorem UnsetEnvs_keeps_private {w : World} {a : App} (names : List String)
    (hfind : w.apps.find? (fun x => x.Name == a.Name) = some a) :
    ∀ appName name e, storedEnv w appName name = some e → e.Public = false →
      storedEnv (App.UnsetEnvs w a names true).2 appName name = some e := by
  unfold App.UnsetEnvs
  cases w.connErr with
  | some err => intro _ _ _ h _; exact h
  | none =>
    exact appsUpdate_keeps_private hfind (unsetEnvs_name true names a)
      (fun k e h hp => (unsetEnvs_private names k e hp a h).2)

/-- The name of the app `getApp` returns. -/
theorem getApp_ok_name {w : World} {name : String} {u : User} {app : App}
    (h : getApp w name u = .ok app) : app.Name = name := by
  simpa using List.find?_some (getApp_ok_find h)

/-- What `setEnv` hands to `SetEnvs` once the body is decoded and the app is
read. -/
theorem setEnv_call (lib : Library) (Decode : String → Except GoError (List (String × String)))
    (SetEnvs : World → App → List EnvVar → Bool → Option GoError × World)
    (w : World) (body appName : String) (t : Token) (vars : List (String × String))
    (u : User) (app : App) (hdec : Decode body = .ok vars) (huser : t.User lib w = .ok u)
    (happ : getApp w appName u = .ok app) :
    setEnv lib Decode SetEnvs w (some body) appName t =
      SetEnvs w app (vars.map (fun kv => { Name := kv.1, Value := kv.2, Public := true })) true := by
  simp only [setEnv, hdec, huser, happ, envs_of_entries, List.nil_append]

/-- What `unsetEnv` hands to `UnsetEnvs` once the body is decoded and the app is
read. -/
theorem unsetEnv_call (lib : Library) (Decode : String → Except GoError (List String))
    (UnsetEnvs : World → App → List String → Bool → Option GoError × World)
    (w : World) (body appName : String) (t : Token) (names : List String)
    (u : User) (app : App) (hdec : Decode body = .ok names) (hne : names ≠ [])
    (huser : t.User lib w = .ok u) (happ : getApp w appName u = .ok app) :
    unsetEnv lib Decode UnsetEnvs w (some body) appName t = UnsetEnvs w app names true := by
  have hlen : ¬ names.length = 0 := fun h => hne (List.length_eq_zero.1 h)
  simp only [unsetEnv, hdec, huser, happ, hlen, if_false]

/-- The handler `setEnv` either leaves the world as it is or ends with one call of
`SetEnvs` on the stored app, with variables that are all public and with
`publicOnly` set. -/
theorem setEnv_cases (lib : Library) (Decode : String → Except GoError (List (String × String)))
    (SetEnvs : World → App → List EnvVar → Bool → Option GoError × World)
    (w : World) (body : Option String) (appName : String) (t : Token) :
    (setEnv lib Decode SetEnvs w body appName t).2 = w ∨
    ∃ app envs, w.apps.find? (fun x => x.Name == app.Name) = some app ∧
      (∀ env ∈ envs, env.Public = true) ∧
      setEnv lib Decode SetEnvs w body appName t = SetEnvs w app envs true := by
  cases body with
  | none => left; rfl
  | some body =>
    cases hdec : Decode body with
    | error e => left; simp only [setEnv, hdec]
    | ok vars =>
      cases huser : t.User lib w with
      | error e => left; simp only [setEnv, hdec, huser]
      | ok u =>
        cases happ : getApp w appName u with
        | error e => left; simp only [setEnv, hdec, huser, happ]
        | ok app =>
          right
          refine ⟨app, _, ?_, ?_, setEnv_call lib Decode SetEnvs w body appName t vars u app hdec huser happ⟩
          · rw [getApp_ok_name happ]
            exact getApp_ok_find happ
          · intro env henv
            obtain ⟨kv, _, rfl⟩ := List.mem_map.1 henv
            rfl

/-- The handler `unsetEnv` either leaves the world as it is or ends with one call
of `UnsetEnvs` on the stored app, with a list that is not empty and with
`publicOnly` set. -/
theorem unsetEnv_cases (lib : Library) (Decode : String → Except GoError (List String))
    (UnsetEnvs : World → App → List String → Bool → Option GoError × World)
    (w : World) (body : Option String) (appName : String) (t : Token) :
    (unsetEnv lib Decode UnsetEnvs w body appName t).2 = w ∨
    ∃ app names, w.apps.find? (fun x => x.Name == app.Name) = some app ∧ names ≠ [] ∧
      unsetEnv lib Decode UnsetEnvs w body appName t = UnsetEnvs w app names true := by
  cases body with
  | none => left; rfl
  | some body =>
    cases hdec : Decode body with
    | error e => left; simp only [unsetEnv, hdec]
    | ok names =>
      by_cases hne : names = []
      · left
        simp [unsetEnv, hdec, hne]
      · cases huser : t.User lib w with
        | error e =>
          left
          have hlen : ¬ names.length = 0 := fun h => hne (List.length_eq_zero.1 h)
          simp only [unsetEnv, hdec, huser, hlen, if_false]
        | ok u =>
          cases happ : getApp w appName u with
          | error e =>
            left
            have hlen : ¬ names.length = 0 := fun h => hne (List.length_eq_zero.1 h)
            simp only [unsetEnv, hdec, huser, happ, hlen, if_false]
          | ok app =>
            right
            refine ⟨app, names, ?_, hne,
              unsetEnv_call lib Decode UnsetEnvs w body appName t names u app hdec hne huser happ⟩
            rw [getApp_ok_name happ]
            exact getApp_ok_find happ

/-- C22: `setEnv` hands to `App.SetEnvs` one variable per entry of the decoded
object, with the name and the value of the entry and `Public` set, and
`publicOnly` set; `unsetEnv` answers an empty list of names with status 400 and
hands the names on with `publicOnly` set; neither handler can tell two
functions apart that agree on the calls with `publicOnly` set.  Hence a private
variable that is stored for an app is stored unchanged after either handler. -/
theorem env_handlers_keep_private_variables (lib : Library) (w : World) (appName : String)
    (t : Token) :
    (∀ (Decode : String → Except GoError (List (String × String)))
        (SetEnvs : World → App → List EnvVar → Bool → Option GoError × World)
        (body : String) (vars : List (String × String)) (u : User) (app : App),
      Decode body = .ok vars → t.User lib w = .ok u → getApp w appName u = .ok app →
      setEnv lib Decode SetEnvs w (some body) appName t =
        SetEnvs w app (vars.map (fun kv => { Name := kv.1, Value := kv.2, Public := true })) true) ∧
    (∀ (Decode : String → Except GoError (List (String × String)))
        (SetEnvs SetEnvs' : World → App → List EnvVar → Bool → Option GoError × World)
        (body : Option String),
      (∀ w a envs, SetEnvs w a envs true = SetEnvs' w a envs true) →
      setEnv lib Decode SetEnvs w body appName t = setEnv lib Decode SetEnvs' w body appName t) ∧
    (∀ (Decode : String → Except GoError (List String))
        (UnsetEnvs : World → App → List String → Bool → Option GoError × World) (body : String),
      Decode body = .ok [] →
      unsetEnv lib Decode UnsetEnvs w (some body) appName t =
        (some (.Http 400 "You must provide the list of environment variables, in JSON format"), w)) ∧
    (∀ (Decode : String → Except GoError (List String))
        (UnsetEnvs : World → App → List String → Bool → Option GoError × World)
        (body : String) (names : List String) (u : User) (app : App),
      Decode body = .ok names → names ≠ [] → t.User lib w = .ok u → getApp w appName u = .ok app →
      unsetEnv lib Decode UnsetEnvs w (some body) appName t = UnsetEnvs w app names true) ∧
    (∀ (Decode : String → Except GoError (List String))
        (UnsetEnvs UnsetEnvs' : World → App → List String → Bool → Option GoError × World)
        (body : Option String),
      (∀ w a names, UnsetEnvs w a names true = UnsetEnvs' w a names true) →
      unsetEnv lib Decode UnsetEnvs w body appName t =
        unsetEnv lib Decode UnsetEnvs' w body appName t) ∧
    (∀ (Decode : String → Except GoError (List (String × String))) (body : Option String)
        (app name : String) (e : EnvVar),
      storedEnv w app name = some e → e.Public = false →
      storedEnv (setEnv lib Decode App.SetEnvs w body appName t).2 app name = some e) ∧
    (∀ (Decode : String → Except GoError (List String)) (body : Option String)
        (app name : String) (e : EnvVar),
      storedEnv w app name = some e → e.Public = false →
      storedEnv (unsetEnv lib Decode App.UnsetEnvs w body appName t).2 app name = some e) := by
  refine ⟨?_, ?_, ?_, ?_, ?_, ?_, ?_⟩
  · intro Decode SetEnvs body vars u app hdec huser happ
    exact setEnv_call lib Decode SetEnvs w body appName t vars u app hdec huser happ
  · intro Decode SetEnvs SetEnvs' body hagree
    unfold setEnv
    simp only [hagree]
  · intro Decode UnsetEnvs body hdec
    simp only [unsetEnv, hdec, List.length_nil, if_true]
    rfl
  · intro Decode UnsetEnvs body names u app hdec hne huser happ
    exact unsetEnv_call lib Decode UnsetEnvs w body appName t names u app hdec hne huser happ
  · intro Decode UnsetEnvs UnsetEnvs' body hagree
    unfold unsetEnv
    simp only [hagree]
  · intro Decode body app name e hst hpriv
    rcases setEnv_cases lib Decode App.SetEnvs w body appName t with h | ⟨a, envs, hfind, _, h⟩
    · rw [h]; exact hst
    · rw [h]; exact SetEnvs_keeps_private envs hfind app name e hst hpriv
  · intro Decode body app name e hst hpriv
    rcases unsetEnv_cases lib Decode App.UnsetEnvs w body appName t with h | ⟨a, names, hfind, _, h⟩
    · rw [h]; exact hst
    · rw [h]; exact UnsetEnvs_keeps_private names hfind app name e hst hpriv

set_option maxRecDepth 100000 in
/-- C22 at the app of the test of `UnsetEnvs`: the private `DATABASE_HOST` stays as
it is when `setEnv` is given a value for it and when `unsetEnv` names it. -/
theorem env_handlers_keep_private_variables_witness :
    storedEnv envWorld "myapp" "DATABASE_HOST" =
      some { Name := "DATABASE_HOST", Value := "localhost", Public := false } ∧
    storedEnv (setEnv (fixedLibrary { }) (fixedDecode [("DATABASE_HOST", "remotehost"), ("X", "1")])
        App.SetEnvs envWorld (some "") "myapp" sampleToken).2 "myapp" "DATABASE_HOST" =
      some { Name := "DATABASE_HOST", Value := "localhost", Public := false } ∧
    storedEnv (unsetEnv (fixedLibrary { }) (fixedNames ["DATABASE_HOST", "DATABASE_PASSWORD"])
        App.UnsetEnvs envWorld (some "") "myapp" sampleToken).2 "myapp" "DATABASE_HOST" =
      some { Name := "DATABASE_HOST", Value := "localhost", Public := false } ∧
    storedEnv (unsetEnv (fixedLibrary { }) (fixedNames ["DATABASE_HOST", "DATABASE_PASSWORD"])
        App.UnsetEnvs envWorld (some "") "myapp" sampleToken).2 "myapp" "DATABASE_PASSWORD" = none :=
  ⟨by decide,
   (env_handlers_keep_private_variables (fixedLibrary { }) envWorld "myapp" sampleToken).2.2.2.2.2.1
     (fixedDecode [("DATABASE_HOST", "remotehost"), ("X", "1")]) (some "") "myapp" "DATABASE_HOST"
     { Name := "DATABASE_HOST", Value := "localhost", Public := false } (by decide) rfl,
   (env_handlers_keep_private_variables (fixedLibrary { }) envWorld "myapp" sampleToken).2.2.2.2.2.2
     (fixedNames ["DATABASE_HOST", "DATABASE_PASSWORD"]) (some "") "myapp" "DATABASE_HOST"
     { Name := "DATABASE_HOST", Value := "localhost", Public := false } (by decide) rfl,
   by decide⟩

/-! ## Passwords -/

/-- C23: for a password whose length passes the check and with settings that
load, a stored password that is not a bcrypt hash of the password but is its old
hash makes `CheckPassword` return nil and, when bcrypt gives a hash, puts that
hash in `u.Password` (and writes the user to the store); a stored password that
matches under neither scheme makes it return `AuthenticationFailure` and leaves
the user as it was. -/
theorem CheckPassword_migrates_old_hash (plib : PasswordLib) (cfg : Settings) (v v' : AuthVars)
    (w : World) (u : User) (p : String)
    (hlen : plib.ValidateLength p 6 50 = true)
    (hbcrypt : plib.CompareHashAndPassword u.Password p ≠ none)
    (hcfg : loadConfig cfg v = (none, v')) :
    hashPassword plib cfg v p =
      (.returns (plib.pbkdf2Hex p v'.salt 4096 (v'.salt.utf8ByteSize * 8)), v') ∧
    (u.Password = plib.pbkdf2Hex p v'.salt 4096 (v'.salt.utf8ByteSize * 8) →
      (u.CheckPassword plib cfg v w p).1 = .returns none ∧
      (∀ hash, plib.GenerateFromPassword p v'.cost = .ok hash →
        u.CheckPassword plib cfg v w p =
          (.returns none, { u with Password := hash }, v',
            (User.Update w { u with Password := hash }).2)) ∧
      (∀ err, plib.GenerateFromPassword p v'.cost = .error err →
        u.CheckPassword plib cfg v w p = (.returns none, u, v', w))) ∧
    (u.Password ≠ plib.pbkdf2Hex p v'.salt 4096 (v'.salt.utf8ByteSize * 8) →
      u.CheckPassword plib cfg v w p = (.returns (some .AuthenticationFailure), u, v', w)) := by
  have hhash : hashPassword plib cfg v p =
      (.returns (plib.pbkdf2Hex p v'.salt 4096 (v'.salt.utf8ByteSize * 8)), v') := by
    simp only [hashPassword, hcfg]
  refine ⟨hhash, ?_, ?_⟩
  · intro hold
    refine ⟨?_, ?_, ?_⟩
    · simp only [User.CheckPassword, passwordMinLen, passwordMaxLen, hlen, hbcrypt, hhash,
        Bool.not_true, Bool.false_eq_true, if_false, ← hold, if_true]
      split <;> rfl
    · intro hash hgen
      simp only [User.CheckPassword, passwordMinLen, passwordMaxLen, hlen, hbcrypt, hhash,
        Bool.not_true, Bool.false_eq_true, if_false, ← hold, if_true, hgen]
    · intro err hgen
      simp only [User.CheckPassword, passwordMinLen, passwordMaxLen, hlen, hbcrypt, hhash,
        Bool.not_true, Bool.false_eq_true, if_false, ← hold, if_true, hgen]
  · intro hne
    simp only [User.CheckPassword, passwordMinLen, passwordMaxLen, hlen, hbcrypt, hhash,
      Bool.not_true, Bool.false_eq_true, if_false, hne]

/-- When the settings do not load, `hashPassword` panics with the error of
`loadConfig`, and so does `CheckPassword` for a password of the right length
that is not a bcrypt match. -/
theorem CheckPassword_without_settings (plib : PasswordLib) (cfg : Settings) (v v' : AuthVars)
    (w : World) (u : User) (p : String) (err : GoError)
    (hlen : plib.ValidateLength p 6 50 = true)
    (hbcrypt : plib.CompareHashAndPassword u.Password p ≠ none)
    (hcfg : loadConfig cfg v = (some err, v')) :
    u.CheckPassword plib cfg v w p = (.panics err.Error, u, v', w) := by
  simp only [User.CheckPassword, passwordMinLen, passwordMaxLen, hlen, hbcrypt, hashPassword, hcfg,
    Bool.not_true, Bool.false_eq_true, if_false]

/-- C23 at a user stored with the old hash of `123456`: the right password is
accepted and the stored password becomes the bcrypt hash; a wrong password of
the right length is refused. -/
theorem CheckPassword_migrates_old_hash_witness :
    legacyUser.CheckPassword samplePasswordLib fullSettings { } loginWorld "123456" =
      (.returns none, { legacyUser with Password := "bcrypt:123456" },
        { salt := "tsuru-salt", tokenKey := "tsuru-key", tokenExpire := defaultExpiration, cost := 4 },
        { users := [{ legacyUser with Password := "bcrypt:123456" }] }) ∧
    legacyUser.CheckPassword samplePasswordLib fullSettings { } loginWorld "1234567" =
      (.returns (some .AuthenticationFailure), legacyUser,
        { salt := "tsuru-salt", tokenKey := "tsuru-key", tokenExpire := defaultExpiration, cost := 4 },
        loginWorld) :=
  ⟨((CheckPassword_migrates_old_hash samplePasswordLib fullSettings { }
      { salt := "tsuru-salt", tokenKey := "tsuru-key", tokenExpire := defaultExpiration, cost := 4 }
      loginWorld legacyUser "123456" (by decide) (by decide) rfl).2.1 (by decide)).2.1
        "bcrypt:123456" rfl,
   (CheckPassword_migrates_old_hash samplePasswordLib fullSettings { }
      { salt := "tsuru-salt", tokenKey := "tsuru-key", tokenExpire := defaultExpiration, cost := 4 }
      loginWorld legacyUser "1234567" (by decide) (by decide) rfl).2.2 (by decide)⟩

/-! ## The settings and the token string -/

/-- A first call of `loadConfig`, on the zero values of the package variables,
that returns nil has read all four settings, and the cost is in range. -/
theorem loadConfig_first_call (cfg : Settings) (v : AuthVars)
    (h : loadConfig cfg { } = (none, v)) :
    cfg.salt = some v.salt ∧ cfg.tokenKey = some v.tokenKey ∧ cfg.hashCost = some v.cost ∧
    bcryptMinCost ≤ v.cost ∧ v.cost ≤ bcryptMaxCost := by
  unfold loadConfig at h
  simp only [and_self, if_true] at h
  cases hs : cfg.salt with
  | none => simp [hs] at h
  | some salt =>
    cases hk : cfg.tokenKey with
    | none => simp [hs, hk] at h
    | some key =>
      cases hc : cfg.hashCost with
      | none => simp [hs, hk, hc] at h
      | some cost =>
        simp only [hs, hk, hc] at h
        by_cases hr : cost < bcryptMinCost ∨ cost > bcryptMaxCost
        · simp [hr] at h
        · simp only [hr, if_false, Prod.mk.injEq, true_and] at h
          subst h
          simp only [not_or, not_lt] at hr
          exact ⟨rfl, rfl, rfl, hr.1, by simpa using hr.2⟩

/-- C28 fails on the code: with `auth:token-key` undefined the first call of
`loadConfig` reports it and leaves `salt` set, and the second call returns nil
with the token key still empty; with a hash cost of 3 the first call reports the
value and the second returns nil with the cost still 3. -/
theorem loadConfig_nil_after_failed_load :
    loadConfig noTokenKey { } =
      (some (.errorString "Setting \"auth:token-key\" is undefined."),
        { salt := "tsuru-salt", tokenExpire := defaultExpiration }) ∧
    loadConfig noTokenKey { salt := "tsuru-salt", tokenExpire := defaultExpiration } =
      (none, { salt := "tsuru-salt", tokenKey := "", tokenExpire := defaultExpiration }) ∧
    noTokenKey.tokenKey = none ∧
    loadConfig lowCost { } =
      (some (.errorString
        "Invalid value for setting \"auth:hash-cost\": it must be between 4 and 31."),
        { salt := "tsuru-salt", tokenKey := "tsuru-key", tokenExpire := defaultExpiration, cost := 3 }) ∧
    loadConfig lowCost
        { salt := "tsuru-salt", tokenKey := "tsuru-key", tokenExpire := defaultExpiration, cost := 3 } =
      (none,
        { salt := "tsuru-salt", tokenKey := "tsuru-key", tokenExpire := defaultExpiration, cost := 3 }) ∧
    (3 : Int) < bcryptMinCost :=
  ⟨by decide, by decide, rfl, by decide, by decide, by decide⟩

/-- The digits the verb `%x` writes. -/
theorem hexDigit_mem (n : Nat) (h : n < 16) : hexDigit n ∈ "0123456789abcdef".toList := by
  interval_cases n <;> decide

/-- The rendering of the SHA-1 sum: 40 characters, each a digit or a letter from
`a` to `f`. -/
theorem sha1Hex_format (sys : Crypto) (s : String) :
    (sys.sha1Hex s).length = 40 ∧ ∀ c ∈ (sys.sha1Hex s).toList, c ∈ "0123456789abcdef".toList := by
  constructor
  · unfold Crypto.sha1Hex
    rw [String.length_mk, List.length_flatMap]
    have hconst : List.map (List.length ∘ hexByte) (List.ofFn (sys.sha1Sum s)) =
        List.replicate 20 2 := by
      apply List.ext_getElem
      · simp
      · intro n h1 h2
        simp [hexByte]
    rw [hconst]
    rfl
  · intro c hc
    unfold Crypto.sha1Hex at hc
    have hc' : c ∈ (List.ofFn (sys.sha1Sum s)).flatMap hexByte := hc
    rw [List.mem_flatMap] at hc'
    have hc := hc'
    obtain ⟨b, _, hb⟩ := hc
    simp only [hexByte, List.mem_cons, List.mem_singleton, List.not_mem_nil, or_false] at hb
    rcases hb with rfl | rfl
    · exact hexDigit_mem _ (by omega)
    · exact hexDigit_mem _ (by omega)

/-- C30: the token string depends on the data, the token key and the second of
the clock only: two calls with the same data and the same key within one second
give the same string, which has 40 characters, all of them digits or letters
from `a` to `f`; so two calls of `CreateApplicationToken` for one application
name within one second store two tokens with the same token string. -/
theorem token_has_one_second_resolution (sys : Crypto) (v v' : AuthVars) (data : String)
    (now now' : Int) (hkey : v.tokenKey = v'.tokenKey) (hsecond : now / Second = now' / Second) :
    token sys v now data = token sys v' now' data ∧
    (token sys v now data).length = 40 ∧
    (∀ c ∈ (token sys v now data).toList, c ∈ "0123456789abcdef".toList) ∧
    (∀ w : World, w.connErr = none →
      ∃ t t' : Token,
        CreateApplicationToken sys v w now data = (.ok t, { w with tokens := w.tokens ++ [t] }) ∧
        CreateApplicationToken sys v' { w with tokens := w.tokens ++ [t] } now' data =
          (.ok t', { w with tokens := w.tokens ++ [t, t'] }) ∧
        t.Token = t'.Token) := by
  have heq : token sys v now data = token sys v' now' data := by
    unfold token
    rw [hkey, hsecond]
  refine ⟨heq, (sha1Hex_format sys _).1, (sha1Hex_format sys _).2, ?_⟩
  intro w hconn
  refine ⟨applicationToken sys v now data, applicationToken sys v' now' data, ?_, ?_, heq⟩
  · simp only [CreateApplicationToken, hconn, applicationToken]
  · simp only [CreateApplicationToken, hconn, applicationToken, List.append_assoc,
      List.singleton_append]

/-- C30 at two readings of the clock half a second apart. -/
theorem token_has_one_second_resolution_witness :
    (1500000000 : Int) / Second = 1999999999 / Second ∧
    token sampleCrypto { tokenKey := "key" } 1500000000 "tsuru-healer" =
      token sampleCrypto { tokenKey := "key", cost := 4 } 1999999999 "tsuru-healer" ∧
    (token sampleCrypto { tokenKey := "key" } 1500000000 "tsuru-healer").length = 40 :=
  ⟨by decide,
   (token_has_one_second_resolution sampleCrypto { tokenKey := "key" } { tokenKey := "key", cost := 4 }
      "tsuru-healer" 1500000000 1999999999 rfl (by decide)).1,
   (token_has_one_second_resolution sampleCrypto { tokenKey := "key" } { tokenKey := "key", cost := 4 }
      "tsuru-healer" 1500000000 1999999999 rfl (by decide)).2.1⟩

/-! ## The goroutines of `CheckUserAccess` -/

/-- Reading a list after one of its entries has been written. -/
theorem getElem?_set_cases {ws : List Worker} {i j : Nat} {x y : Worker}
    (h : (ws.set i x)[j]? = some y) : (j = i ∧ y = x) ∨ (j ≠ i ∧ ws[j]? = some y) := by
  rw [List.getElem?_set] at h
  by_cases hij : i = j
  · rw [if_pos hij] at h
    split at h
    · left
      exact ⟨hij.symm, by simpa using h.symm⟩
    · cases h
  · rw [if_neg hij] at h
    exact Or.inr ⟨fun e => hij e.symm, h⟩

/-- A sum over a list after one of its entries has been written. -/
theorem sum_map_set (f : Worker → Nat) : ∀ (ws : List Worker) (i : Nat) (a b : Worker),
    ws[i]? = some a → ((ws.set i b).map f).sum + f a = (ws.map f).sum + f b
  | [], i, a, b, h => by simp at h
  | w :: ws, 0, a, b, h => by
    have : w = a := by simpa using h
    subst this
    simp only [List.set_cons_zero, List.map_cons, List.sum_cons]
    omega
  | w :: ws, i + 1, a, b, h => by
    have h' : ws[i]? = some a := by simpa using h
    have ih := sum_map_set f ws i a b h'
    simp only [List.set_cons_succ, List.map_cons, List.sum_cons]
    omega

/-- The state before the first step is sound. -/
theorem sound_init (teams : List Team) (u : User) : Sound teams u { } where
  started := Nat.zero_le _
  counter := rfl
  sending := by intro i h; simp at h
  passed := by intro i t h; simp at h
  closerStarted := by intro h; exact absurd rfl h
  closerAwake := by intro _ x hx; simp at hx
  receivedFalse := by constructor <;> intro h <;> cases h
  receivedTrue := by intro h; cases h

/-- A round of the loop of the caller keeps the state sound. -/
theorem start_sound {teams : List Team} {u : User} {s : Goroutines} (h : Sound teams u s)
    (hlt : s.workers.length < teams.length) :
    Sound teams u { s with workers := s.workers ++ [Worker.testing], wg := s.wg + 1 } := by
  have hunborn : s.closer = .unborn := by
    by_contra hne
    have := h.closerStarted hne
    omega
  have hold : ∀ (i : Nat) (y : Worker), y ≠ Worker.testing →
      (s.workers ++ [Worker.testing])[i]? = some y → s.workers[i]? = some y := by
    intro i y hy hi
    rw [List.getElem?_append] at hi
    split at hi
    · exact hi
    · exfalso
      cases hk : i - s.workers.length with
      | zero =>
        rw [hk] at hi
        simp at hi
        exact hy hi.symm
      | succ k =>
        rw [hk] at hi
        simp at hi
  refine ⟨?_, ?_, ?_, ?_, ?_, ?_, h.receivedFalse, h.receivedTrue⟩
  · simp only [List.length_append, List.length_singleton]
    omega
  · simp only [List.map_append, List.sum_append, List.map_cons, List.map_nil, List.sum_cons,
      List.sum_nil, Worker.pending, h.counter]
    rfl
  · intro i hi
    exact h.sending i (hold i _ (by decide) hi)
  · intro i t hi
    apply h.passed i t
    rcases hi with hi | hi
    · exact Or.inl (hold i _ (by decide) hi)
    · exact Or.inr (hold i _ (by decide) hi)
  · intro hne
    exact absurd hunborn hne
  · intro hc
    rw [hunborn] at hc
    rcases hc with hc | hc <;> cases hc

/-- The test of a goroutine keeps the state sound. -/
theorem test_sound {teams : List Team} {u : User} {s : Goroutines} (h : Sound teams u s)
    {i : Nat} {t : Team} (ht : teams[i]? = some t) (hw : s.workers[i]? = some Worker.testing) :
    Sound teams u ⟨s.workers.set i (if t.ContainsUser u then Worker.sending else Worker.finishing),
      s.wg, s.closer, s.received⟩ := by
  have hmem : Worker.testing ∈ s.workers := List.mem_iff_getElem?.2 ⟨i, hw⟩
  have hasleep : ¬ (s.closer = .sending ∨ s.closer = .done) := by
    intro hc
    have := h.closerAwake hc _ hmem
    cases this
  refine ⟨?_, ?_, ?_, ?_, ?_, ?_, h.receivedFalse, h.receivedTrue⟩
  · simpa using h.started
  · have := sum_map_set Worker.pending s.workers i Worker.testing
      (if t.ContainsUser u then Worker.sending else Worker.finishing) hw
    have hp : Worker.pending (if t.ContainsUser u then Worker.sending else Worker.finishing) = 1 := by
      split <;> rfl
    have ht1 : Worker.pending Worker.testing = 1 := rfl
    rw [hp, ht1] at this
    show s.wg = ((s.workers.set i
      (if t.ContainsUser u then Worker.sending else Worker.finishing)).map Worker.pending).sum
    rw [h.counter]
    omega
  · intro j hj
    rcases getElem?_set_cases hj with ⟨hji, hy⟩ | ⟨_, hold⟩
    · subst hji
      refine ⟨t, ht, ?_⟩
      by_contra hc
      simp only [hc, Bool.false_eq_true, if_false] at hy
      cases hy
    · exact h.sending j hold
  · intro j t' hj ht' hc
    have key : ∀ y : Worker, (y = Worker.finishing ∨ y = Worker.done) →
        (s.workers.set i (if t.ContainsUser u then Worker.sending else Worker.finishing))[j]? =
          some y → s.received = some true := by
      intro y hy hjy
      rcases getElem?_set_cases hjy with ⟨hji, hyx⟩ | ⟨_, hold⟩
      · subst hji
        exfalso
        rw [ht] at ht'
        have htt : t = t' := by simpa using ht'
        subst htt
        simp only [hc, if_true] at hyx
        rcases hy with hy | hy <;> rw [hy] at hyx <;> cases hyx
      · apply h.passed j t' _ ht' hc
        rcases hy with hy | hy
        · exact Or.inl (hy ▸ hold)
        · exact Or.inr (hy ▸ hold)
    rcases hj with hj | hj
    · exact key _ (Or.inl rfl) hj
    · exact key _ (Or.inr rfl) hj
  · intro hne
    simpa using h.closerStarted hne
  · intro hc
    exact absurd hc hasleep

/-- The meeting of a send of `true` with the receive keeps the state sound. -/
theorem deliver_sound {teams : List Team} {u : User} {s : Goroutines} (h : Sound teams u s)
    {i : Nat} (hw : s.workers[i]? = some Worker.sending) :
    Sound teams u { s with workers := s.workers.set i Worker.finishing, received := some true } := by
  have hmem : Worker.sending ∈ s.workers := List.mem_iff_getElem?.2 ⟨i, hw⟩
  have hasleep : ¬ (s.closer = .sending ∨ s.closer = .done) := by
    intro hc
    have := h.closerAwake hc _ hmem
    cases this
  refine ⟨?_, ?_, ?_, ?_, ?_, ?_, ?_, ?_⟩
  · simpa using h.started
  · have := sum_map_set Worker.pending s.workers i Worker.sending Worker.finishing hw
    have h1 : Worker.pending Worker.sending = 1 := rfl
    have h2 : Worker.pending Worker.finishing = 1 := rfl
    rw [h1, h2] at this
    show s.wg = ((s.workers.set i Worker.finishing).map Worker.pending).sum
    rw [h.counter]
    omega
  · intro j hj
    rcases getElem?_set_cases hj with ⟨_, hy⟩ | ⟨_, hold⟩
    · cases hy
    · exact h.sending j hold
  · intro _ _ _ _ _
    rfl
  · intro hne
    simpa using h.closerStarted hne
  · intro hc
    exact absurd hc hasleep
  · constructor
    · intro hf
      cases hf
    · intro hc
      exact absurd (Or.inr hc) hasleep
  · intro _
    obtain ⟨t, ht, hc⟩ := h.sending i hw
    exact ⟨t, List.mem_iff_getElem?.2 ⟨i, ht⟩, hc⟩

/-- The call `wg.Done()` of a goroutine keeps the state sound. -/
theorem finish_sound {teams : List Team} {u : User} {s : Goroutines} (h : Sound teams u s)
    {i : Nat} (hw : s.workers[i]? = some Worker.finishing) :
    Sound teams u { s with workers := s.workers.set i Worker.done, wg := s.wg - 1 } := by
  have hmem : Worker.finishing ∈ s.workers := List.mem_iff_getElem?.2 ⟨i, hw⟩
  have hasleep : ¬ (s.closer = .sending ∨ s.closer = .done) := by
    intro hc
    have := h.closerAwake hc _ hmem
    cases this
  refine ⟨?_, ?_, ?_, ?_, ?_, ?_, h.receivedFalse, h.receivedTrue⟩
  · simpa using h.started
  · have := sum_map_set Worker.pending s.workers i Worker.finishing Worker.done hw
    have h1 : Worker.pending Worker.finishing = 1 := rfl
    have h2 : Worker.pending Worker.done = 0 := rfl
    rw [h1, h2] at this
    show s.wg - 1 = ((s.workers.set i Worker.done).map Worker.pending).sum
    rw [h.counter]
    omega
  · intro j hj
    rcases getElem?_set_cases hj with ⟨_, hy⟩ | ⟨_, hold⟩
    · cases hy
    · exact h.sending j hold
  · intro j t hj ht hc
    have key : ∀ y : Worker, (y = Worker.finishing ∨ y = Worker.done) →
        (s.workers.set i Worker.done)[j]? = some y → s.received = some true := by
      intro y hy hjy
      rcases getElem?_set_cases hjy with ⟨hji, _⟩ | ⟨_, hold⟩
      · subst hji
        exact h.passed j t (Or.inl hw) ht hc
      · apply h.passed j t _ ht hc
        rcases hy with hy | hy
        · exact Or.inl (hy ▸ hold)
        · exact Or.inr (hy ▸ hold)
    rcases hj with hj | hj
    · exact key _ (Or.inl rfl) hj
    · exact key _ (Or.inr rfl) hj
  · intro hne
    simpa using h.closerStarted hne
  · intro hc
    exact absurd hc hasleep

/-- The last `go` statement keeps the state sound. -/
theorem startCloser_sound {teams : List Team} {u : User} {s : Goroutines} (h : Sound teams u s)
    (hlen : s.workers.length = teams.length) (hunborn : s.closer = .unborn) :
    Sound teams u { s with closer := Closer.waiting } := by
  refine ⟨h.started, h.counter, h.sending, h.passed, fun _ => hlen, ?_, ?_, h.receivedTrue⟩
  · intro hc
    rcases hc with hc | hc <;> cases hc
  · constructor
    · intro hf
      have := h.receivedFalse.1 hf
      rw [hunborn] at this
      cases this
    · intro hc
      cases hc

/-- The return of `wg.Wait()` keeps the state sound. -/
theorem wake_sound {teams : List Team} {u : User} {s : Goroutines} (h : Sound teams u s)
    (hwait : s.closer = .waiting) (hzero : s.wg = 0) :
    Sound teams u { s with closer := Closer.sending } := by
  refine ⟨h.started, h.counter, h.sending, h.passed, ?_, ?_, ?_, h.receivedTrue⟩
  · intro _
    exact h.closerStarted (by rw [hwait]; decide)
  · intro _ x hx
    have hsum : (s.workers.map Worker.pending).sum = 0 := by rw [← h.counter, hzero]
    have := List.sum_eq_zero_iff.1 hsum (Worker.pending x) (List.mem_map_of_mem _ hx)
    cases x <;> first | rfl | cases this
  · constructor
    · intro hf
      have := h.receivedFalse.1 hf
      rw [hwait] at this
      cases this
    · intro hc
      cases hc

/-- The meeting of the send of `false` with the receive keeps the state sound. -/
theorem deliverFalse_sound {teams : List Team} {u : User} {s : Goroutines} (h : Sound teams u s)
    (hsend : s.closer = .sending) (hnone : s.received = none) :
    Sound teams u { s with closer := Closer.done, received := some false } := by
  refine ⟨h.started, h.counter, h.sending, ?_, ?_, ?_, ?_, ?_⟩
  · intro i t hi ht hc
    have := h.passed i t hi ht hc
    rw [hnone] at this
    cases this
  · intro _
    exact h.closerStarted (by rw [hsend]; decide)
  · intro _
    exact h.closerAwake (Or.inl hsend)
  · exact ⟨fun _ => rfl, fun _ => rfl⟩
  · intro hf
    cases hf

/-- Every step keeps the state sound. -/
theorem step_sound {teams : List Team} {u : User} {s s' : Goroutines} (m : Move)
    (h : Sound teams u s) (hs : step teams u s m = some s') : Sound teams u s' := by
  cases m with
  | start =>
    simp only [step] at hs
    split at hs
    · rename_i hlt
      simp only [Option.some.injEq] at hs
      subst hs
      exact start_sound h hlt
    · cases hs
  | startCloser =>
    simp only [step] at hs
    split at hs
    · rename_i hc
      simp only [Option.some.injEq] at hs
      subst hs
      exact startCloser_sound h hc.1 hc.2
    · cases hs
  | test i =>
    simp only [step] at hs
    cases ht : teams[i]? with
    | none => simp [ht] at hs
    | some t =>
      simp only [ht] at hs
      split at hs
      · rename_i hw
        simp only [Option.some.injEq] at hs
        subst hs
        exact test_sound h ht hw
      · cases hs
  | deliver i =>
    simp only [step] at hs
    split at hs
    · rename_i hc
      simp only [Option.some.injEq] at hs
      subst hs
      exact deliver_sound h hc.1
    · cases hs
  | finish i =>
    simp only [step] at hs
    split at hs
    · rename_i hw
      simp only [Option.some.injEq] at hs
      subst hs
      exact finish_sound h hw
    · cases hs
  | wake =>
    simp only [step] at hs
    split at hs
    · rename_i hc
      simp only [Option.some.injEq] at hs
      subst hs
      exact wake_sound h hc.1 hc.2
    · cases hs
  | deliverFalse =>
    simp only [step] at hs
    split at hs
    · rename_i hc
      simp only [Option.some.injEq] at hs
      subst hs
      exact deliverFalse_sound h hc.1 hc.2
    · cases hs

/-- Every schedule keeps the state sound. -/
theorem run_sound {teams : List Team} {u : User} (moves : List Move) :
    ∀ {s s' : Goroutines}, Sound teams u s → run teams u s moves = some s' → Sound teams u s' := by
  induction moves with
  | nil =>
    intro s s' h hr
    simp only [run, Option.some.injEq] at hr
    subst hr
    exact h
  | cons m ms ih =>
    intro s s' h hr
    simp only [run] at hr
    cases hstep : step teams u s m with
    | none => simp [hstep] at hr
    | some s1 =>
      simp only [hstep, Option.some_bind] at hr
      exact ih (step_sound m h hstep) hr

/-- In a sound state the value the caller has received says whether some team
contains the user. -/
theorem sound_received {teams : List Team} {u : User} {s : Goroutines} (h : Sound teams u s)
    {b : Bool} (hb : s.received = some b) : b = teams.any (fun t => t.ContainsUser u) := by
  cases b with
  | true =>
    obtain ⟨t, ht, hc⟩ := h.receivedTrue hb
    exact (List.any_eq_true.2 ⟨t, ht, hc⟩).symm
  | false =>
    have hdone := h.receivedFalse.1 hb
    cases hany : teams.any (fun t => t.ContainsUser u) with
    | false => rfl
    | true =>
      exfalso
      obtain ⟨t, ht, hc⟩ := List.any_eq_true.1 hany
      obtain ⟨i, hi⟩ := List.mem_iff_getElem?.1 ht
      have hlen := h.closerStarted (by rw [hdone]; decide)
      have hilt : i < teams.length := by
        obtain ⟨hlt, _⟩ := List.getElem?_eq_some.1 hi
        exact hlt
      have hw : s.workers[i]? = some Worker.done := by
        have hlt : i < s.workers.length := by omega
        rw [List.getElem?_eq_getElem hlt]
        congr 1
        exact h.closerAwake (Or.inr hdone) _ (List.getElem_mem _)
      have := h.passed i t (Or.inr hw) hi hc
      rw [hb] at this
      cases this

/-- In a sound state in which the caller has received nothing some step is
enabled. -/
theorem sound_progress {teams : List Team} {u : User} {s : Goroutines} (h : Sound teams u s)
    (hnone : s.received = none) : ∃ m, (step teams u s m).isSome = true := by
  by_cases hlt : s.workers.length < teams.length
  · exact ⟨.start, by simp [step, hlt]⟩
  have hlen : s.workers.length = teams.length := by
    have := h.started
    omega
  by_cases hunborn : s.closer = .unborn
  · exact ⟨.startCloser, by simp [step, hlen, hunborn]⟩
  by_cases hall : ∀ x ∈ s.workers, x = Worker.done
  · have hzero : s.wg = 0 := by
      rw [h.counter]
      apply List.sum_eq_zero_iff.2
      intro n hn
      obtain ⟨x, hx, rfl⟩ := List.mem_map.1 hn
      rw [hall x hx]
      rfl
    cases hc : s.closer with
    | unborn => exact absurd hc hunborn
    | waiting => exact ⟨.wake, by simp [step, hc, hzero]⟩
    | sending => exact ⟨.deliverFalse, by simp [step, hc, hnone]⟩
    | done =>
      have := h.receivedFalse.2 hc
      rw [hnone] at this
      cases this
  · simp only [not_forall] at hall
    obtain ⟨x, hx, hne⟩ := hall
    obtain ⟨i, hi⟩ := List.mem_iff_getElem?.1 hx
    have hilt : i < teams.length := by
      obtain ⟨hlt', _⟩ := List.getElem?_eq_some.1 hi
      omega
    cases x with
    | done => exact absurd rfl hne
    | testing =>
      refine ⟨.test i, ?_⟩
      simp [step, List.getElem?_eq_getElem hilt, hi]
    | sending =>
      refine ⟨.deliver i, ?_⟩
      simp [step, hi, hnone, hunborn]
    | finishing =>
      refine ⟨.finish i, ?_⟩
      simp [step, hi]

/-- Every step uses up the bound on the steps that are left. -/
theorem step_stepsLeft {teams : List Team} {u : User} {s s' : Goroutines} (m : Move)
    (hs : step teams u s m = some s') : stepsLeft teams s' < stepsLeft teams s := by
  cases m with
  | start =>
    simp only [step] at hs
    split at hs
    · rename_i hlt
      simp only [Option.some.injEq] at hs
      subst hs
      simp only [stepsLeft, List.length_append, List.length_singleton, List.map_append,
        List.sum_append, List.map_cons, List.map_nil, List.sum_cons, List.sum_nil,
        Worker.stepsLeft]
      omega
    · cases hs
  | startCloser =>
    simp only [step] at hs
    split at hs
    · rename_i hc
      simp only [Option.some.injEq] at hs
      subst hs
      simp only [stepsLeft, hc.2, Closer.stepsLeft]
      omega
    · cases hs
  | test i =>
    simp only [step] at hs
    cases ht : teams[i]? with
    | none => simp [ht] at hs
    | some t =>
      simp only [ht] at hs
      split at hs
      · rename_i hw
        simp only [Option.some.injEq] at hs
        subst hs
        have := sum_map_set Worker.stepsLeft s.workers i Worker.testing
          (if t.ContainsUser u then Worker.sending else Worker.finishing) hw
        have h1 : Worker.stepsLeft Worker.testing = 3 := rfl
        have h2 : Worker.stepsLeft (if t.ContainsUser u then Worker.sending else Worker.finishing)
            ≤ 2 := by
          split
          · exact Nat.le_refl 2
          · exact Nat.le_succ 1
        rw [h1] at this
        simp only [stepsLeft, List.length_set]
        omega
      · cases hs
  | deliver i =>
    simp only [step] at hs
    split at hs
    · rename_i hc
      simp only [Option.some.injEq] at hs
      subst hs
      have := sum_map_set Worker.stepsLeft s.workers i Worker.sending Worker.finishing hc.1
      have h1 : Worker.stepsLeft Worker.sending = 2 := rfl
      have h2 : Worker.stepsLeft Worker.finishing = 1 := rfl
      rw [h1, h2] at this
      simp only [stepsLeft, List.length_set]
      omega
    · cases hs
  | finish i =>
    simp only [step] at hs
    split at hs
    · rename_i hw
      simp only [Option.some.injEq] at hs
      subst hs
      have := sum_map_set Worker.stepsLeft s.workers i Worker.finishing Worker.done hw
      have h1 : Worker.stepsLeft Worker.finishing = 1 := rfl
      have h2 : Worker.stepsLeft Worker.done = 0 := rfl
      rw [h1, h2] at this
      simp only [stepsLeft, List.length_set]
      omega
    · cases hs
  | wake =>
    simp only [step] at hs
    split at hs
    · rename_i hc
      simp only [Option.some.injEq] at hs
      subst hs
      simp only [stepsLeft, hc.1, Closer.stepsLeft]
      omega
    · cases hs
  | deliverFalse =>
    simp only [step] at hs
    split at hs
    · rename_i hc
      simp only [Option.some.injEq] at hs
      subst hs
      simp only [stepsLeft, hc.1, Closer.stepsLeft]
      omega
    · cases hs

/-- A schedule is no longer than the bound on the steps that are left. -/
theorem run_length {teams : List Team} {u : User} (moves : List Move) :
    ∀ {s s' : Goroutines}, run teams u s moves = some s' →
      stepsLeft teams s' + moves.length ≤ stepsLeft teams s := by
  induction moves with
  | nil =>
    intro s s' hr
    simp only [run, Option.some.injEq] at hr
    subst hr
    simp
  | cons m ms ih =>
    intro s s' hr
    simp only [run] at hr
    cases hstep : step teams u s m with
    | none => simp [hstep] at hr
    | some s1 =>
      simp only [hstep, Option.some_bind] at hr
      have h1 := ih hr
      have h2 := step_stepsLeft m hstep
      simp only [List.length_cons]
      omega

/-- From a sound state some schedule brings a value to the caller. -/
theorem sound_terminates {teams : List Team} {u : User} : ∀ (n : Nat) {s : Goroutines},
    Sound teams u s → stepsLeft teams s ≤ n →
      ∃ moves s', run teams u s moves = some s' ∧ s'.received.isSome = true := by
  intro n
  induction n with
  | zero =>
    intro s h hn
    cases hr : s.received with
    | some b => exact ⟨[], s, rfl, by rw [hr]; rfl⟩
    | none =>
      exfalso
      obtain ⟨m, hm⟩ := sound_progress h hr
      obtain ⟨s1, hs1⟩ := Option.isSome_iff_exists.1 hm
      have := step_stepsLeft m hs1
      omega
  | succ n ih =>
    intro s h hn
    cases hr : s.received with
    | some b => exact ⟨[], s, rfl, by rw [hr]; rfl⟩
    | none =>
      obtain ⟨m, hm⟩ := sound_progress h hr
      obtain ⟨s1, hs1⟩ := Option.isSome_iff_exists.1 hm
      have hlt := step_stepsLeft m hs1
      obtain ⟨moves, s', hrun, hsome⟩ := ih (step_sound m h hs1) (by omega)
      exact ⟨m :: moves, s', by simp only [run, hs1, Option.some_bind, hrun], hsome⟩

/-- With the database reachable, `CheckUserAccess` is the test of the teams read
by the query. -/
theorem CheckUserAccess_eq_any (w : World) (teamNames : List String) (u : User)
    (hconn : w.connErr = none) :
    CheckUserAccess w teamNames u = (teamsNamed w teamNames).any (fun t => t.ContainsUser u) := by
  simp only [CheckUserAccess, hconn, teamsNamed]

/-- C29: `CheckUserAccess` returns false when the connection to the database
fails, and otherwise true exactly when a stored team with a name in the list
contains the email of the user.  Under every schedule of the goroutines the
value the caller receives is that value; while the caller has received nothing
some step is enabled, no schedule has more than `4 * n + 3` steps for `n`
teams, and some schedule brings the value to the caller; and when the last
goroutine is ready to send `false` although a team contains the user, the
caller has received `true` already, so that the `false` is not delivered. -/
theorem CheckUserAccess_under_every_interleaving (w : World) (teamNames : List String)
    (u : User) :
    (w.connErr ≠ none → CheckUserAccess w teamNames u = false) ∧
    (w.connErr = none →
      (CheckUserAccess w teamNames u = true ↔
        ∃ t ∈ w.teams, t.Name ∈ teamNames ∧ u.Email ∈ t.Users)) ∧
    (w.connErr = none → ∀ (moves : List Move) (s : Goroutines),
      run (teamsNamed w teamNames) u { } moves = some s →
        (∀ b, s.received = some b → b = CheckUserAccess w teamNames u) ∧
        (s.received = none → ∃ m, (step (teamsNamed w teamNames) u s m).isSome = true) ∧
        moves.length ≤ 4 * (teamsNamed w teamNames).length + 3 ∧
        (s.closer = .sending → CheckUserAccess w teamNames u = true →
          s.received = some true)) ∧
    (w.connErr = none → ∃ (moves : List Move) (s : Goroutines),
      run (teamsNamed w teamNames) u { } moves = some s ∧
        s.received = some (CheckUserAccess w teamNames u)) := by
  refine ⟨?_, ?_, ?_, ?_⟩
  · intro hne
    cases hc : w.connErr with
    | none => exact absurd hc hne
    | some e => simp only [CheckUserAccess, hc]
  · intro hconn
    rw [CheckUserAccess_eq_any w teamNames u hconn, List.any_eq_true]
    constructor
    · rintro ⟨t, ht, hc⟩
      have hm := List.mem_filter.1 ht
      exact ⟨t, hm.1, by simpa using hm.2, (ContainsUser_iff t u).1 hc⟩
    · rintro ⟨t, ht, hn, he⟩
      exact ⟨t, List.mem_filter.2 ⟨ht, by simpa using hn⟩, (ContainsUser_iff t u).2 he⟩
  · intro hconn moves s hrun
    have hsound := run_sound moves (sound_init (teamsNamed w teamNames) u) hrun
    have hany := CheckUserAccess_eq_any w teamNames u hconn
    refine ⟨?_, sound_progress hsound, ?_, ?_⟩
    · intro b hb
      rw [hany]
      exact sound_received hsound hb
    · have := run_length moves hrun
      simp only [stepsLeft, List.length_nil, List.map_nil, List.sum_nil, Closer.stepsLeft] at this
      omega
    · intro hsend hacc
      rw [hany] at hacc
      obtain ⟨t, ht, hc⟩ := List.any_eq_true.1 hacc
      obtain ⟨i, hi⟩ := List.mem_iff_getElem?.1 ht
      have hlen := hsound.closerStarted (by rw [hsend]; decide)
      have hw : s.workers[i]? = some Worker.done := by
        have hlt : i < s.workers.length := by
          obtain ⟨hlt', _⟩ := List.getElem?_eq_some.1 hi
          omega
        rw [List.getElem?_eq_getElem hlt]
        congr 1
        exact hsound.closerAwake (Or.inl hsend) _ (List.getElem_mem _)
      exact hsound.passed i t (Or.inr hw) hi hc
  · intro hconn
    obtain ⟨moves, s, hrun, hsome⟩ :=
      sound_terminates (stepsLeft (teamsNamed w teamNames) { })
        (sound_init (teamsNamed w teamNames) u) (Nat.le_refl _)
    refine ⟨moves, s, hrun, ?_⟩
    obtain ⟨b, hb⟩ := Option.isSome_iff_exists.1 hsome
    have hsound := run_sound moves (sound_init (teamsNamed w teamNames) u) hrun
    rw [hb, CheckUserAccess_eq_any w teamNames u hconn, ← sound_received hsound hb]

/-- C29 at the world of two teams: the user is in `tsuruteam`, and a schedule in
which the other goroutine finishes first brings `true` to the caller. -/
theorem CheckUserAccess_under_every_interleaving_witness :
    twoTeamWorld.connErr = none ∧
    CheckUserAccess twoTeamWorld ["otherteam", "tsuruteam"] { Email := "whydidifall@thewho.com" } =
      true ∧
    run (teamsNamed twoTeamWorld ["otherteam", "tsuruteam"]) { Email := "whydidifall@thewho.com" }
        { } [.start, .test 0, .start, .finish 0, .startCloser, .test 1, .deliver 1] =
      some { workers := [.done, .finishing], wg := 1, closer := .waiting, received := some true } ∧
    (∀ b, (some true : Option Bool) = some b →
      b = CheckUserAccess twoTeamWorld ["otherteam", "tsuruteam"]
        { Email := "whydidifall@thewho.com" }) :=
  ⟨rfl, by decide, by decide,
    ((CheckUserAccess_under_every_interleaving twoTeamWorld ["otherteam", "tsuruteam"]
      { Email := "whydidifall@thewho.com" }).2.2.1 rfl
      [.start, .test 0, .start, .finish 0, .startCloser, .test 1, .deliver 1]
      { workers := [.done, .finishing], wg := 1, closer := .waiting, received := some true }
      (by decide)).1⟩

end Tsuru
